import Mathlib

/-!
Verification of the myst-to-ipynb export core (QuantEcon/mystmd):
a shallow embedding of `packages/myst-to-ipynb/src/index.ts`,
`commonmark.ts` (the CommonMark degrader) and `attachments.ts`
(the image attachment rewriter), together with theorems about the
exported notebook assembly.

JavaScript data is modelled as follows: a `GenericNode` becomes the
inductive `Node` below, where a field that may be `undefined` is an
`Option`; `undefined`/missing keys are `none`.  JSON-level notebook
output is modelled structurally (`Ipynb`, `NbCell`).  The external
markdown serializer `writeMd` is a parameter.  Machine integers do not
occur; all string work is done on `List Char` so that every function
is executable by kernel reduction.
-/

namespace Myst

/-! ### JavaScript string primitives -/

/-- The JavaScript whitespace class used by `\s`, `trim` and `trimEnd`
(ASCII part plus the common Unicode members). -/
def jsWhite (c : Char) : Bool :=
  c = ' ' || c = '\t' || c = '\n' || c = '\r' || c = '\x0b' || c = '\x0c' ||
  c = ' ' || c = '﻿'

/-- JavaScript `String.prototype.trimEnd` on a char list. -/
def jsTrimEnd (l : List Char) : List Char :=
  (l.reverse.dropWhile jsWhite).reverse

/-- JavaScript `String.prototype.trim` on a char list. -/
def jsTrim (l : List Char) : List Char :=
  jsTrimEnd (l.dropWhile jsWhite)

/-- JavaScript `str.split(sep)` for a one-character separator: always
returns at least one (possibly empty) segment, the way
`"".split(x) = [""]` does. -/
def splitOnChar (ch : Char) : List Char → List (List Char)
  | [] => [[]]
  | c :: r =>
    let res := splitOnChar ch r
    if c = ch then [] :: res
    else
      match res with
      | [] => [[c]]
      | h :: t => (c :: h) :: t

/-- Concatenation of char-list segments with no separator. -/
def joinChars (l : List (List Char)) : List Char := l.flatten

/-- Apply `f` to the last element of a list (JS `a[a.length-1] = f(...)`). -/
def modifyLast (f : List Char → List Char) : List (List Char) → List (List Char)
  | [] => []
  | [x] => [f x]
  | x :: xs => x :: modifyLast f xs

/-- Decimal rendering of a natural number, as produced by a JavaScript
template literal such as the counter in an attachment name.  Fuel-based
so that the kernel can evaluate it; `n + 1` fuel always suffices. -/
def natDecAux (d10 : Nat → Char) : Nat → Nat → List Char
  | 0, _ => []
  | fuel + 1, n =>
    if n < 10 then [d10 n]
    else natDecAux d10 fuel (n / 10) ++ [d10 (n % 10)]

/-- One decimal digit as a character. -/
def digitChar10 (n : Nat) : Char :=
  match n with
  | 0 => '0' | 1 => '1' | 2 => '2' | 3 => '3' | 4 => '4'
  | 5 => '5' | 6 => '6' | 7 => '7' | 8 => '8' | _ => '9'

/-- Decimal rendering of a `Nat` as a char list. -/
def natDec (n : Nat) : List Char := natDecAux digitChar10 (n + 1) n

/-! ### The document tree

A MyST `GenericNode`: a `type` tag, a number of optional scalar
attributes (only those the exporter reads are listed; everything else
is collected in the opaque `extra` list, which the CommonMark degrader
strips when it rebuilds `code`/`image` nodes), and an optional ordered
child list.  `children = none` models a missing `children` key,
`children = some []` an empty array (the two differ under JavaScript
truthiness). -/

inductive Node where
  | mk (ty : String) (kind : Option String) (value : Option String)
       (label : Option String) (identifier : Option String)
       (enumerator : Option String) (url : Option String)
       (urlSource : Option String) (alt : Option String)
       (title : Option String) (lang : Option String)
       (extra : List String) (children : Option (List Node))

def Node.ty : Node → String
  | .mk t _ _ _ _ _ _ _ _ _ _ _ _ => t

def Node.kind : Node → Option String
  | .mk _ k _ _ _ _ _ _ _ _ _ _ _ => k

def Node.value : Node → Option String
  | .mk _ _ v _ _ _ _ _ _ _ _ _ _ => v

def Node.label : Node → Option String
  | .mk _ _ _ l _ _ _ _ _ _ _ _ _ => l

def Node.identifier : Node → Option String
  | .mk _ _ _ _ i _ _ _ _ _ _ _ _ => i

def Node.enumerator : Node → Option String
  | .mk _ _ _ _ _ e _ _ _ _ _ _ _ => e

def Node.url : Node → Option String
  | .mk _ _ _ _ _ _ u _ _ _ _ _ _ => u

def Node.urlSource : Node → Option String
  | .mk _ _ _ _ _ _ _ u _ _ _ _ _ => u

def Node.alt : Node → Option String
  | .mk _ _ _ _ _ _ _ _ a _ _ _ _ => a

def Node.title : Node → Option String
  | .mk _ _ _ _ _ _ _ _ _ t _ _ _ => t

def Node.lang : Node → Option String
  | .mk _ _ _ _ _ _ _ _ _ _ l _ _ => l

def Node.extra : Node → List String
  | .mk _ _ _ _ _ _ _ _ _ _ _ e _ => e

def Node.children : Node → Option (List Node)
  | .mk _ _ _ _ _ _ _ _ _ _ _ _ c => c

/-- `node.children ?? []`. -/
def Node.childL (n : Node) : List Node := n.children.getD []

/-- Replace the `children` field, keeping every other field: the JS
spread `{ ...node, children: cs }`. -/
def Node.withChildren : Node → Option (List Node) → Node
  | .mk t k v l i e u us a ti la ex _, c => .mk t k v l i e u us a ti la ex c

/-- `delete child.identifier; delete child.label` on one node. -/
def Node.stripLabels : Node → Node
  | .mk t k v _ _ e u us a ti la ex c => .mk t k v none none e u us a ti la ex c

/-- A fresh node carrying only a `type` tag (a fresh JS object literal
`{ type: ty }`; further fields are set through the helpers below). -/
def blank (ty : String) : Node :=
  .mk ty none none none none none none none none none none [] none

def Node.withKind : Node → Option String → Node
  | .mk t _ v l i e u us a ti la ex c, k => .mk t k v l i e u us a ti la ex c

def Node.withValue : Node → Option String → Node
  | .mk t k _ l i e u us a ti la ex c, v => .mk t k v l i e u us a ti la ex c

def Node.withUrl : Node → Option String → Node
  | .mk t k v l i e _ us a ti la ex c, u => .mk t k v l i e u us a ti la ex c

def Node.withAlt : Node → Option String → Node
  | .mk t k v l i e u us _ ti la ex c, a => .mk t k v l i e u us a ti la ex c

def Node.withTitle : Node → Option String → Node
  | .mk t k v l i e u us a _ la ex c, ti => .mk t k v l i e u us a ti la ex c

def Node.withLang : Node → Option String → Node
  | .mk t k v l i e u us a ti _ ex c, la => .mk t k v l i e u us a ti la ex c

/-- `{ type: ty, children: cs }`. -/
def mkParent (ty : String) (cs : List Node) : Node :=
  (blank ty).withChildren (some cs)

/-- `{ type: 'text', value: v }`. -/
def mkText (v : String) : Node := (blank "text").withValue (some v)

/-- JavaScript truthiness of an optional string (`undefined` and `""`
are falsy). -/
def truthyStr (o : Option String) : Bool := (o.getD "") ≠ ""

/-- JavaScript truthiness of `node.children?.length`. -/
def truthyLen (o : Option (List Node)) : Bool := ¬ (o.getD []).isEmpty

end Myst

namespace Myst

/-! ### External helpers used by the transforms

`toText` (from myst-common) and `select` (from unist-util-select) are
external collaborators of `commonmark.ts`; they are modelled here from
their documented behaviour: `toText` concatenates the text content of
a subtree (a truthy `value` wins over recursing into children), and
`select(type, tree)` returns the first node of the given `type` in
tree order, the tree itself included. -/

mutual
def toText : Node → String
  | .mk _ _ v _ _ _ _ _ _ _ _ _ c =>
    if truthyStr v then v.getD ""
    else
      match c with
      | some cs => toTextList cs
      | none => ""
def toTextList : List Node → String
  | [] => ""
  | n :: ns => toText n ++ toTextList ns
end

mutual
def selectT (ty : String) : Node → Option Node
  | n@(.mk t _ _ _ _ _ _ _ _ _ _ _ c) =>
    if t = ty then some n
    else
      match c with
      | some cs => selectTList ty cs
      | none => none
def selectTList (ty : String) : List Node → Option Node
  | [] => none
  | n :: ns =>
    match selectT ty n with
    | some m => some m
    | none => selectTList ty ns
end

/-- Capitalize the first letter of a string (`charAt(0).toUpperCase() + slice(1)`). -/
def capitalize (s : String) : String :=
  match s.data with
  | [] => ""
  | c :: r => (c.toUpper :: r).asString

/-- Options for CommonMark conversion (`CommonMarkOptions`). -/
structure CommonMarkOptions where
  dropSolutions : Option Bool

/-! ### commonmark.ts: per-kind rewrite functions -/

/-- Convert an admonition node to a blockquote with bold title. -/
def transformAdmonition (node : Node) : Node :=
  let kind := node.kind.getD "note"
  let titleNode := node.childL.find? (fun c => c.ty = "admonitionTitle")
  let titleText := match titleNode with
    | some t => toText t
    | none => capitalize kind
  let contentChildren := node.childL.filter (fun c => c.ty ≠ "admonitionTitle")
  mkParent "blockquote"
    (mkParent "paragraph" [mkParent "strong" [mkText titleText]] :: contentChildren)

/-- Convert a math block directive to a raw html node containing the
dollar-fenced expression. -/
def transformMathBlock (node : Node) : Node :=
  let value := node.value.getD ""
  let labelComment := if truthyStr node.label then " (" ++ node.label.getD "" ++ ")" else ""
  (blank "html").withValue (some ("$$\n" ++ value ++ "\n$$" ++ labelComment))

/-- Convert an inline math role to a raw html node with single-dollar
delimiters. -/
def transformInlineMath (node : Node) : Node :=
  (blank "html").withValue (some ("$" ++ node.value.getD "" ++ "$"))

/-- Convert a figure container to an image with caption text. -/
def transformFigure (node : Node) : Node :=
  let imageNode := selectT "image" node
  let captionNode := selectT "caption" node
  let legendNode := selectT "legend" node
  let url := ((imageNode.bind Node.urlSource).or (imageNode.bind Node.url)).getD ""
  let alt := (imageNode.bind Node.alt).getD
    (match captionNode with
     | some c => toText c
     | none => "")
  let first := (((blank "image").withUrl (some url)).withAlt (some alt)).withTitle
    (imageNode.bind Node.title)
  let capPart :=
    if truthyLen (captionNode.bind Node.children) then
      [mkParent "paragraph" [mkParent "emphasis" ((captionNode.bind Node.children).getD [])]]
    else []
  let legPart :=
    if truthyLen (legendNode.bind Node.children) then
      (legendNode.bind Node.children).getD []
    else []
  mkParent "root" (first :: capPart ++ legPart)

/-- Convert a table container to a bold caption paragraph plus its
inner table node. -/
def transformTableContainer (node : Node) : Node :=
  let captionNode := selectT "caption" node
  let tableNode := selectT "table" node
  let capPart :=
    if truthyLen (captionNode.bind Node.children) then
      [mkParent "paragraph" [mkParent "strong" ((captionNode.bind Node.children).getD [])]]
    else []
  let tabPart := match tableNode with
    | some t => [t]
    | none => []
  mkParent "root" (capPart ++ tabPart)

/-- Convert an exercise node to a bold header with content. -/
def transformExercise (node : Node) : Node :=
  let titleNode := node.childL.find? (fun c => c.ty = "admonitionTitle")
  let titleText := match titleNode with
    | some t => toText t
    | none => "Exercise"
  let enumerator := if truthyStr node.enumerator then " " ++ node.enumerator.getD "" else ""
  let contentChildren := node.childL.filter (fun c => c.ty ≠ "admonitionTitle")
  mkParent "root"
    (mkParent "paragraph" [mkParent "strong" [mkText (titleText ++ enumerator)]]
      :: contentChildren)

/-- Convert a solution node to a bold header with content, or drop it
entirely when `dropSolutions` is set. -/
def transformSolution (node : Node) (dropSolutions : Bool) : Option Node :=
  if dropSolutions then none
  else
    let titleNode := node.childL.find? (fun c => c.ty = "admonitionTitle")
    let titleText := match titleNode with
      | some t => toText t
      | none => "Solution"
    let contentChildren := node.childL.filter (fun c => c.ty ≠ "admonitionTitle")
    some (mkParent "root"
      (mkParent "paragraph" [mkParent "strong" [mkText titleText]] :: contentChildren))

/-- Convert a proof-type node (theorem, lemma, definition, ...) to a
bold header. -/
def transformProof (node : Node) : Node :=
  let kind := node.kind.getD "proof"
  let titleNode := node.childL.find? (fun c => c.ty = "admonitionTitle")
  let titleText := match titleNode with
    | some t => " (" ++ toText t ++ ")"
    | none => ""
  let enumerator := if truthyStr node.enumerator then " " ++ node.enumerator.getD "" else ""
  let contentChildren := node.childL.filter (fun c => c.ty ≠ "admonitionTitle")
  mkParent "root"
    (mkParent "paragraph"
        [mkParent "strong" [mkText (capitalize kind ++ enumerator ++ titleText)]]
      :: contentChildren)

/-- Convert a tab-set to just the content of each tab, with tab titles
as bold paragraphs. -/
def transformTabSet (node : Node) : Node :=
  let children := node.childL.flatMap (fun tabItem =>
    if tabItem.ty = "tabItem" || tabItem.kind = some "tabItem" then
      (if truthyStr tabItem.title then
        [mkParent "paragraph" [mkParent "strong" [mkText (tabItem.title.getD "")]]]
       else []) ++
      (match tabItem.children with
       | some cs => cs
       | none => [])
    else [])
  mkParent "root" children

/-- Convert a card to its content with optional title. -/
def transformCard (node : Node) : Node :=
  let titleNode := node.childL.find? (fun c => c.ty = "cardTitle")
  let contentChildren := node.childL.filter (fun c =>
    ¬ (c.ty = "cardTitle" ∨ c.ty = "header" ∨ c.ty = "footer"))
  let titlePart := match titleNode with
    | some tn =>
      [mkParent "paragraph"
        [mkParent "strong"
          (match tn.children with
           | some cs => cs
           | none => [mkText (toText tn)])]]
    | none => []
  mkParent "root" (titlePart ++ contentChildren)

/-- Convert a grid to its card children. -/
def transformGrid (node : Node) : Node :=
  mkParent "root" node.childL

/-- Convert a details/dropdown to a blockquote with summary as title. -/
def transformDetails (node : Node) : Node :=
  let summaryNode := node.childL.find? (fun c => c.ty = "summary")
  let contentChildren := node.childL.filter (fun c => c.ty ≠ "summary")
  let titleText := match summaryNode with
    | some s => toText s
    | none => "Details"
  mkParent "blockquote"
    (mkParent "paragraph" [mkParent "strong" [mkText titleText]] :: contentChildren)

/-- Convert an aside/sidebar/margin to a blockquote. -/
def transformAside (node : Node) : Node :=
  let titleNode := node.childL.find? (fun c => c.ty = "admonitionTitle")
  let contentChildren := node.childL.filter (fun c => c.ty ≠ "admonitionTitle")
  let titlePart := match titleNode with
    | some tn => [mkParent "paragraph" [mkParent "strong" (tn.children.getD [])]]
    | none => []
  mkParent "blockquote" (titlePart ++ contentChildren)

/-- Convert a code-block directive to a standard fenced code block,
dropping MyST-specific options. -/
def transformCodeBlock (node : Node) : Node :=
  ((blank "code").withLang node.lang).withValue (some (node.value.getD ""))

/-- Convert an image node to a plain markdown image by stripping
directive-specific properties. -/
def transformImage (node : Node) : Node :=
  ((((blank "image").withUrl (some ((node.url.or node.urlSource).getD ""))).withAlt
      (some (node.alt.getD ""))).withTitle node.title)

/-- Convert a mystDirective node to plain content or remove it. -/
def transformMystDirective (node : Node) : Option Node :=
  if truthyLen node.children then some (mkParent "root" node.childL)
  else if truthyStr node.value then
    some (((blank "code").withLang (some (node.lang.getD ""))).withValue node.value)
  else none

/-- Convert a mystRole node to plain text. -/
def transformMystRole (node : Node) : Node :=
  if truthyLen node.children then mkParent "root" node.childL
  else mkText (node.value.getD "")

/-- Transform a single node if it is a MyST-specific type; return the
node unchanged if no transformation is needed, `none` if the node
should be removed. -/
def transformNode (node : Node) (dropSolutions : Bool) : Option Node :=
  match node.ty with
  | "admonition" => some (transformAdmonition node)
  | "math" => some (transformMathBlock node)
  | "inlineMath" => some (transformInlineMath node)
  | "container" =>
    if node.kind = some "figure" then some (transformFigure node)
    else if node.kind = some "table" then some (transformTableContainer node)
    else if node.kind = some "code" then
      match selectT "code" node with
      | some codeNode => some (transformCodeBlock codeNode)
      | none => some node
    else some node
  | "exercise" => some (transformExercise node)
  | "solution" => transformSolution node dropSolutions
  | "proof" => some (transformProof node)
  | "tabSet" => some (transformTabSet node)
  | "card" => some (transformCard node)
  | "grid" => some (transformGrid node)
  | "details" => some (transformDetails node)
  | "aside" => some (transformAside node)
  | "include" =>
    if truthyLen node.children then some (mkParent "root" node.childL) else none
  | "mystDirective" => transformMystDirective node
  | "mystRole" => some (transformMystRole node)
  | "mystTarget" => none
  | "comment" => none
  | "code" => some (transformCodeBlock node)
  | "image" => some (transformImage node)
  | _ => some node

/-- The per-child pipeline step inside `transformToCommonMark`: apply
`transformNode`, drop a `null` result, flatten a `root` wrapper with a
truthy `children` into the list. -/
def emitChild (dropSolutions : Bool) (c : Node) : List Node :=
  match transformNode c dropSolutions with
  | none => []
  | some m => if m.ty = "root" && m.children.isSome then m.childL else [m]

/-! `transformToCommonMark` walks an AST tree and replaces
MyST-specific nodes with CommonMark equivalents: recurse into children
first, then transform and flatten the child list, then strip
identifier/label metadata from every child. -/

mutual
def transformToCommonMark (opts : Option CommonMarkOptions) : Node → Node
  | .mk t k v l i e u us a ti la ex none => .mk t k v l i e u us a ti la ex none
  | .mk t k v l i e u us a ti la ex (some cs) =>
    let dropSolutions := (opts.bind CommonMarkOptions.dropSolutions).getD false
    let recursed := tfList opts cs
    let newChildren := recursed.flatMap (emitChild dropSolutions)
    .mk t k v l i e u us a ti la ex (some (newChildren.map Node.stripLabels))
def tfList (opts : Option CommonMarkOptions) : List Node → List Node
  | [] => []
  | c :: cs => transformToCommonMark opts c :: tfList opts cs
end

end Myst

namespace Myst

/-! ### attachments.ts: the image attachment rewriter

The regex
`/!\[((?:\\\]|[^\]])*)\]\(((?:\\\)|[^)\s])+)(?:\s+"[^"]*")?\)/g`
is embedded as a backtracking matcher over char lists, one function
per sub-pattern, with the same alternative ordering (an escaped pair
is tried before a single character, extending a greedy repetition is
tried before stopping it, matching the optional title group is tried
before skipping it). -/

/-- Image data for embedding as cell attachments (`ImageData`):
a MIME type and a base64 payload. -/
structure ImageData where
  mime : String
  data : String
deriving DecidableEq

/-- Match the tail `(?:\s+"[^"]*")?\)` after the URL.  Returns the
consumed characters (closing paren included) and the remainder. -/
def titleClose (s : List Char) : Option (List Char × List Char) :=
  (let ws := s.takeWhile jsWhite
   let s1 := s.dropWhile jsWhite
   if ws.isEmpty then none
   else
     match s1 with
     | '"' :: s2 =>
       let tt := s2.takeWhile (fun c => c ≠ '"')
       let s3 := s2.dropWhile (fun c => c ≠ '"')
       match s3 with
       | '"' :: ')' :: r => some (ws ++ '"' :: tt ++ '"' :: [')'], r)
       | _ => none
     | _ => none) <|>
  (match s with
   | ')' :: r => some ([')'], r)
   | _ => none)

/-- Continue the greedy `(?:\\\\\\)|[^)\\s])*` repetition for the URL,
then the title/closing tail.  Returns (url part, tail, rest).  The
escaped pair is tried first; on its failure the backslash is taken
alone through the character class, after which the repetition can only
stop, with the bare closing-paren branch of the tail firing.  The
`fuel` counter only bounds the recursion depth: each step consumes at
least one character, so `length + 1` fuel (what `matchImageAt`
supplies) never runs out. -/
def urlLoop : Nat → List Char → Option (List Char × List Char × List Char)
  | 0, _ => none
  | _ + 1, [] => none
  | fuel + 1, c :: rest =>
    if c = '\\' then
      match rest with
      | ')' :: rest2 =>
        match urlLoop fuel rest2 with
        | some (u, t, r) => some ('\\' :: ')' :: u, t, r)
        | none => some (['\\'], [')'], rest2)
      | r2 => (urlLoop fuel r2).map (fun p => (c :: p.1, p.2.1, p.2.2))
    else if c = ')' ∨ jsWhite c then
      (titleClose (c :: rest)).map (fun p => ([], p.1, p.2))
    else
      match urlLoop fuel rest with
      | some (u, t, r) => some (c :: u, t, r)
      | none => (titleClose (c :: rest)).map (fun p => ([], p.1, p.2))

/-- The mandatory first URL character of `(?:\\\\\\)|[^)\\s])+`, then the
rest of the repetition. -/
def urlStart (fuel : Nat) : List Char → Option (List Char × List Char × List Char)
  | [] => none
  | c :: rest =>
    if c = '\\' then
      match rest with
      | ')' :: rest2 =>
        match urlLoop fuel rest2 with
        | some (u, t, r) => some ('\\' :: ')' :: u, t, r)
        | none => some (['\\'], [')'], rest2)
      | r2 => (urlLoop fuel r2).map (fun p => (c :: p.1, p.2.1, p.2.2))
    else if c = ')' ∨ jsWhite c then none
    else (urlLoop fuel rest).map (fun p => (c :: p.1, p.2.1, p.2.2))

/-- The greedy `(?:\\\\\\]|[^\\]])*` alternative loop for the alt text,
followed by the bracket-paren separator and the URL.  Returns
(alt, url, tail, rest).  The escaped pair is tried first; on its
failure the backslash is taken alone through the character class,
after which the repetition stops at the closing bracket, which must
then be followed by the opening paren. -/
def altLoop : Nat → List Char → Option (List Char × List Char × List Char × List Char)
  | 0, _ => none
  | _ + 1, [] => none
  | fuel + 1, c :: rest =>
    if c = '\\' then
      match rest with
      | ']' :: rest2 =>
        match altLoop fuel rest2 with
        | some (a, u, t, r) => some ('\\' :: ']' :: a, u, t, r)
        | none =>
          match rest2 with
          | '(' :: r2 => (urlStart fuel r2).map (fun p => (['\\'], p.1, p.2.1, p.2.2))
          | _ => none
      | r2 => (altLoop fuel r2).map (fun q => (c :: q.1, q.2.1, q.2.2.1, q.2.2.2))
    else if c = ']' then
      match rest with
      | '(' :: r2 => (urlStart fuel r2).map (fun p => (([] : List Char), p.1, p.2.1, p.2.2))
      | _ => none
    else (altLoop fuel rest).map (fun q => (c :: q.1, q.2.1, q.2.2.1, q.2.2.2))

/-- Try the image regex at the start of the input.  On success returns
(alt, url, tail, rest) with the input equal to
`"![" ++ alt ++ "](" ++ url ++ tail ++ rest`. -/
def matchImageAt : List Char → Option (List Char × List Char × List Char × List Char)
  | '!' :: '[' :: rest => altLoop (rest.length + 1) rest
  | _ => none

/-- The full matched substring rebuilt from the captured pieces. -/
def fullOf (alt url tail : List Char) : List Char :=
  '!' :: '[' :: alt ++ ']' :: '(' :: url ++ tail

/-- Unescape markdown-escaped parentheses/brackets in a captured URL:
`url.replace(/\\([()[\]])/g, '$1')`. -/
def unescapeUrl : List Char → List Char
  | [] => []
  | '\\' :: c :: rest =>
    if c = '(' ∨ c = ')' ∨ c = '[' ∨ c = ']' then c :: unescapeUrl rest
    else '\\' :: unescapeUrl (c :: rest)
  | c :: rest => c :: unescapeUrl rest

/-- Extract the basename (filename) from a URL or path: strip the query
string and fragment, take the last `/`-segment, defaulting to
`"image"` when that segment is empty. -/
def basename (url : List Char) : List Char :=
  let clean := (url.takeWhile (fun c => c ≠ '?')).takeWhile (fun c => c ≠ '#')
  let parts := splitOnChar '/' clean
  let last := parts.getLastD []
  if last.isEmpty then "image".data else last

/-- Split a char list at its last dot (`base.lastIndexOf('.')`):
`some (before, dot-and-after)` when a dot occurs, `none` otherwise. -/
def splitLastDot : List Char → Option (List Char × List Char)
  | [] => none
  | c :: rest =>
    match splitLastDot rest with
    | some (p, s) => some (c :: p, s)
    | none => if c = '.' then some ([], '.' :: rest) else none

/-- The candidate attachment name for one counter value: insert
`_<counter>` before the file extension, or append it when the basename
has no dot. -/
def mkSuffixName (base : String) (counter : Nat) : String :=
  match splitLastDot base.data with
  | some (p, s) => (p ++ '_' :: natDec counter ++ s).asString
  | none => (base.data ++ '_' :: natDec counter).asString

/-- The `while (usedNames.has(name))` disambiguation loop, fuelled:
`usedNames.length + 1` fuel always finds an unused candidate. -/
def freshLoop (usedNames : List String) (base : String) : Nat → Nat → String
  | counter, 0 => mkSuffixName base counter
  | counter, fuel + 1 =>
    let name := mkSuffixName base counter
    if usedNames.contains name then freshLoop usedNames base (counter + 1) fuel
    else name

/-- Generate a unique attachment name from the basename. -/
def freshName (usedNames : List String) (base : String) : String :=
  if usedNames.contains base then freshLoop usedNames base 1 (usedNames.length + 1)
  else base

/-- The mutable state of one `embedImagesAsAttachments` call: the
`usedNames` set (in insertion order) and the `attachments` object (an
ordered map from name to a single mime/data pair). -/
structure EmbedState where
  usedNames : List String
  attachments : List (String × String × String)
deriving DecidableEq

/-- The `md.replace(imgRegex, callback)` scan: walk the string, try
the image regex at each position, let the callback rewrite matches and
update the state, copy everything else verbatim.  Fuelled; every step
consumes at least one character, so `length + 1` fuel suffices. -/
def embedScan (imageData : List (String × ImageData)) :
    Nat → List Char → EmbedState → (List Char × EmbedState)
  | 0, s, st => (s, st)
  | _ + 1, [], st => ([], st)
  | fuel + 1, c :: restAll, st =>
    match matchImageAt (c :: restAll) with
    | none =>
      let r := embedScan imageData fuel restAll st
      (c :: r.1, r.2)
    | some (alt, url, tail, rest) =>
      let unescapedUrl := (unescapeUrl url).asString
      match (imageData.find? (fun p => p.1 = unescapedUrl)).map Prod.snd with
      | none =>
        let r := embedScan imageData fuel rest st
        (fullOf alt url tail ++ r.1, r.2)
      | some d =>
        let base := (basename unescapedUrl.data).asString
        let name := freshName st.usedNames base
        let st1 : EmbedState :=
          ⟨st.usedNames ++ [name], st.attachments ++ [(name, d.mime, d.data)]⟩
        let rep := '!' :: '[' :: alt ++ ']' :: '(' :: ("attachment:" ++ name).data ++ [')']
        let r := embedScan imageData fuel rest st1
        (rep ++ r.1, r.2)

/-- Result of `embedImagesAsAttachments`: the rewritten markdown and
the optional attachments dict (`none` models an omitted field). -/
structure EmbedResult where
  md : String
  attachments : Option (List (String × String × String))
deriving DecidableEq

/-- Scan markdown text for image references, replace matching URLs
with `attachment:<name>` references, and build the cell attachments
object (`embedImagesAsAttachments`). -/
def embedImagesAsAttachments (md : String) (imageData : List (String × ImageData)) :
    EmbedResult :=
  if imageData.isEmpty then ⟨md, none⟩
  else
    let r := embedScan imageData (md.data.length + 1) md.data ⟨[], []⟩
    if r.2.attachments.isEmpty then ⟨md, none⟩
    else ⟨r.1.asString, some r.2.attachments⟩

/-- The list of image-syntax matches of the scan, as (alt, url) capture
pairs: the positions `embedImagesAsAttachments` would consider, used to
state the no-match-in-map property. -/
def imageMatchesAux : Nat → List Char → List (List Char × List Char)
  | 0, _ => []
  | _ + 1, [] => []
  | fuel + 1, c :: restAll =>
    match matchImageAt (c :: restAll) with
    | none => imageMatchesAux fuel restAll
    | some (alt, url, _, rest) => (alt, url) :: imageMatchesAux fuel rest

/-- All image-syntax matches of a markdown string. -/
def imageMatches (md : String) : List (List Char × List Char) :=
  imageMatchesAux (md.data.length + 1) md.data

end Myst

namespace Myst

/-! ### index.ts: the notebook assembler -/

/-- Turn cell text into the notebook `source` list:
`src.split('\n').map(s => s + '\n')`, then `trimEnd()` on the last
element. -/
def sourceToStringList (src : String) : List String :=
  let lines := (splitOnChar '\n' src.data).map (fun s => s ++ ['\n'])
  (modifyLast jsTrimEnd lines).map List.asString

/-- Does a line start with the `+++` cell break marker? -/
def startsWithMarker (l : List Char) : Bool :=
  match l with
  | '+' :: '+' :: '+' :: _ => true
  | _ => false

/-- Split a char list into lines, remembering for each line whether a
newline followed it (a trailing newline belongs to its line, matching
what the `/^\+\+\+[^\n]*(\n|$)/gm` replacement consumes). -/
def linesKeep : List Char → List (List Char × Bool)
  | [] => []
  | '\n' :: r => ([], true) :: linesKeep r
  | c :: r =>
    match linesKeep r with
    | [] => [([c], false)]
    | (l, b) :: t => ((c :: l), b) :: t

/-- Strip `+++` cell break marker lines from markdown content
(`stripBlockMarkers`): every line starting with `+++` is removed
together with its trailing newline. -/
def stripBlockMarkers (md : String) : String :=
  (joinChars ((linesKeep md.data).filterMap (fun p =>
    if startsWithMarker p.1 then none
    else some (p.1 ++ if p.2 then ['\n'] else [])))).asString

/-- Frontmatter kernelspec (the fields `writeIpynb` reads). -/
structure Kernelspec where
  name : Option String
  display_name : Option String
  language : Option String

/-- Page frontmatter (the fields `writeIpynb` reads). -/
structure PageFrontmatter where
  kernelspec : Option Kernelspec

/-- `IpynbOptions`. -/
structure IpynbOptions where
  markdown : Option String
  commonmark : Option CommonMarkOptions
  images : Option String
  imageData : Option (List (String × ImageData))

/-- Check whether a node is a code-cell block. -/
def isCodeCellBlock (node : Node) : Bool :=
  node.ty = "block" && node.kind = some "notebook-code"

/-- Check whether a node is an exercise or solution that contains
code-cell blocks (and is not a solution configured to be dropped). -/
def isGatedNodeWithCodeCells (node : Node) (opts : Option CommonMarkOptions) : Bool :=
  if node.ty ≠ "exercise" ∧ node.ty ≠ "solution" then false
  else if node.ty = "solution" ∧ (opts.bind CommonMarkOptions.dropSolutions).getD false then
    false
  else
    match node.children with
    | some cs => cs.any isCodeCellBlock
    | none => false

/-- The `flushMarkdown` closure of `liftFromExerciseSolution`: emit one
group of accumulated markdown content.  The first non-empty group keeps
the exercise/solution wrapper; later groups are emitted as plain
content (wrapped in a generic block when `wrapInBlock`). -/
def flushMarkdown (node : Node) (wrapInBlock : Bool) (content : List Node)
    (isFirstGroup : Bool) : List Node :=
  if content.isEmpty then []
  else if isFirstGroup then
    let wrapper := node.withChildren (some content)
    if wrapInBlock then [mkParent "block" [wrapper]] else [wrapper]
  else if wrapInBlock then [mkParent "block" content] else content

/-- The loop of `liftFromExerciseSolution` over the gated children,
carrying the accumulated markdown group and the is-first-group flag
(the flag only flips once a non-empty group has been flushed). -/
def liftGoES (node : Node) (wrapInBlock : Bool) :
    List Node → List Node → Bool → List Node
  | [], mdContent, isFirstGroup => flushMarkdown node wrapInBlock mdContent isFirstGroup
  | gatedChild :: rest, mdContent, isFirstGroup =>
    if isCodeCellBlock gatedChild then
      flushMarkdown node wrapInBlock mdContent isFirstGroup ++
        gatedChild :: liftGoES node wrapInBlock rest [] (isFirstGroup && mdContent.isEmpty)
    else
      liftGoES node wrapInBlock rest (mdContent ++ [gatedChild]) isFirstGroup

/-- Split a single exercise/solution node into alternating markdown
content and top-level code cells (`liftFromExerciseSolution`). -/
def liftFromExerciseSolution (node : Node) (wrapInBlock : Bool) : List Node :=
  liftGoES node wrapInBlock node.childL [] true

/-- The loop of `splitBlockWithGatedNodes`, carrying the pending
non-gated children (flushed as one generic block before each gated
node and at the end). -/
def splitGo (opts : Option CommonMarkOptions) : List Node → List Node → List Node
  | [], pending => if pending.isEmpty then [] else [mkParent "block" pending]
  | child :: rest, pending =>
    if isGatedNodeWithCodeCells child opts then
      (if pending.isEmpty then [] else [mkParent "block" pending]) ++
        liftFromExerciseSolution child true ++ splitGo opts rest []
    else splitGo opts rest (pending ++ [child])

/-- Process a block that contains exercise/solution nodes with embedded
code cells among other children (`splitBlockWithGatedNodes`). -/
def splitBlockWithGatedNodes (block : Node) (opts : Option CommonMarkOptions) :
    List Node :=
  splitGo opts block.childL []

/-- Lift code-cell blocks out of gated exercise/solution nodes
(`liftCodeCellsFromGatedNodes`).  Returns `none` when the root has no
`children` array (iterating it would throw). -/
def liftCodeCellsFromGatedNodes (root : Node) (opts : Option CommonMarkOptions) :
    Option Node :=
  match root.children with
  | none => none
  | some cs =>
    let pieces := cs.map (fun child =>
      if isGatedNodeWithCodeCells child opts then
        (liftFromExerciseSolution child false, true)
      else if child.ty = "block" &&
          child.childL.any (fun ch => isGatedNodeWithCodeCells ch opts) then
        (splitBlockWithGatedNodes child opts, true)
      else ([child], false))
    if pieces.any (fun p => p.2) then
      some (root.withChildren (some (pieces.flatMap Prod.fst)))
    else some root

/-- `JSON.parse(JSON.stringify(x))`: on the value level this is the
identity (fields holding `undefined` are already modelled as absent
`none` fields).  What the deep copy buys — that the degrader mutates
only the copy — is object-identity information, captured separately by
the store-level model below. -/
def jsonDeepCopy (n : Node) : Node := n

/-- A notebook cell: `cell_type`, the `source` line list, and the
optional `attachments` dict (name, mime, base64 data).  The constant
JSON fields (`metadata: {}`, and `execution_count: null` /
`outputs: []` on code cells) carry no information and are not
modelled. -/
structure NbCell where
  cell_type : String
  source : List String
  attachments : Option (List (String × String × String))
deriving DecidableEq

/-- The notebook `metadata.kernelspec` block. -/
structure NbKernelspec where
  name : Option String
  display_name : Option String
  language : String
deriving DecidableEq

/-- The assembled notebook document (`nbformat` 4 / `nbformat_minor` 2;
`languageName` is `metadata.language_info.name`). -/
structure Ipynb where
  cells : List NbCell
  languageName : String
  kernelspec : Option NbKernelspec
  nbformat : Nat
  nbformat_minor : Nat
deriving DecidableEq

/-- Map one top-level block to a notebook cell, `none` modelling the
TypeError paths (`select('code', block)` returning null, or a code
node with no `value`). -/
def cellOfBlock (writeMd : Node → String) (markdownFormat : String)
    (options : Option IpynbOptions) (block : Node) : Option NbCell :=
  if block.ty = "block" ∧ block.kind = some "notebook-code" then
    match selectT "code" block with
    | none => none
    | some code =>
      match code.value with
      | none => none
      | some v => some ⟨"code", sourceToStringList v, none⟩
  else
    let blockTree := mkParent "root" [block]
    let blockTree :=
      if markdownFormat = "commonmark" then
        transformToCommonMark (options.bind IpynbOptions.commonmark) (jsonDeepCopy blockTree)
      else blockTree
    let md := writeMd blockTree
    let cleanMd := stripBlockMarkers md
    if (options.bind IpynbOptions.images) = some "attachment" ∧
        (options.bind IpynbOptions.imageData).isSome then
      let r := embedImagesAsAttachments cleanMd ((options.bind IpynbOptions.imageData).getD [])
      some ⟨"markdown", sourceToStringList r.md, r.attachments⟩
    else some ⟨"markdown", sourceToStringList cleanMd, none⟩

/-- The empty-markdown-cell filter of `writeIpynb`. -/
def keepCell (cell : NbCell) : Bool :=
  if cell.cell_type = "markdown" then ¬ (jsTrim (String.join cell.source).data).isEmpty
  else true

/-- Assemble the notebook (`writeIpynb`).  The external serializer
`writeMd` is a parameter; the `VFile` is dropped and the notebook
value returned directly.  `none` models an uncaught TypeError. -/
def writeIpynb (writeMd : Node → String) (node : Node)
    (frontmatter : Option PageFrontmatter) (options : Option IpynbOptions) :
    Option Ipynb :=
  let markdownFormat := (options.bind IpynbOptions.markdown).getD "myst"
  match liftCodeCellsFromGatedNodes node (options.bind IpynbOptions.commonmark) with
  | none => none
  | some lifted =>
    match lifted.children with
    | none => none
    | some blocks =>
      match blocks.mapM (cellOfBlock writeMd markdownFormat options) with
      | none => none
      | some cells0 =>
        let cells := cells0.filter keepCell
        let languageName :=
          (((frontmatter.bind PageFrontmatter.kernelspec).bind Kernelspec.language).or
            ((frontmatter.bind PageFrontmatter.kernelspec).bind Kernelspec.name)).getD
            "python"
        let ks :=
          match frontmatter.bind PageFrontmatter.kernelspec with
          | some k => some (⟨k.name, k.display_name, languageName⟩ : NbKernelspec)
          | none => none
        some ⟨cells, languageName, ks, 4, 2⟩

end Myst

namespace Myst

/-! ### C10: the `source` line list -/

/-- Remove the maximal trailing run of non-newline whitespace: this is
what joining the produced `source` list actually reconstructs. -/
def dropTrailingNonNewlineWhite (src : String) : String :=
  (src.data.reverse.dropWhile (fun c => jsWhite c && c != '\n')).reverse.asString

/-- Join the split segments back with the separator. -/
def joinSep (ch : Char) : List (List Char) → List Char
  | [] => []
  | [x] => x
  | x :: y :: xs => x ++ ch :: joinSep ch (y :: xs)

theorem splitOnChar_ne_nil (ch : Char) (l : List Char) : splitOnChar ch l ≠ [] := by
  cases l with
  | nil => simp [splitOnChar]
  | cons c r =>
    simp only [splitOnChar]
    by_cases h : c = ch
    · simp [h]
    · simp only [h, if_false]
      cases splitOnChar ch r <;> simp

theorem joinSep_splitOnChar (ch : Char) (l : List Char) :
    joinSep ch (splitOnChar ch l) = l := by
  induction l with
  | nil => simp [splitOnChar, joinSep]
  | cons c r ih =>
    simp only [splitOnChar]
    by_cases h : c = ch
    · simp only [h, if_true]
      have hne := splitOnChar_ne_nil ch r
      cases hr : splitOnChar ch r with
      | nil => exact absurd hr hne
      | cons a t =>
        rw [hr] at ih
        simp [joinSep, ih]
    · simp only [h, if_false]
      have hne := splitOnChar_ne_nil ch r
      cases hr : splitOnChar ch r with
      | nil => exact absurd hr hne
      | cons a t =>
        rw [hr] at ih
        cases t with
        | nil => simpa [joinSep] using congrArg (c :: ·) ih
        | cons b t2 => simpa [joinSep] using congrArg (c :: ·) ih

theorem splitOnChar_last_no_sep (ch : Char) (l : List Char) :
    ∀ c ∈ (splitOnChar ch l).getLastD [], c ≠ ch := by
  induction l with
  | nil => simp [splitOnChar]
  | cons c r ih =>
    simp only [splitOnChar]
    by_cases h : c = ch
    · simp only [h, if_true]
      have hne := splitOnChar_ne_nil ch r
      cases hr : splitOnChar ch r with
      | nil => exact absurd hr hne
      | cons a t => rw [hr] at ih; simpa using ih
    · simp only [h, if_false]
      have hne := splitOnChar_ne_nil ch r
      cases hr : splitOnChar ch r with
      | nil => exact absurd hr hne
      | cons a t =>
        rw [hr] at ih
        cases t with
        | nil =>
          simp only [List.getLastD] at ih ⊢
          intro x hx
          rcases List.mem_cons.mp hx with hx | hx
          · exact hx ▸ h
          · exact ih x hx
        | cons b t2 => simpa using ih

theorem modifyLast_append_singleton (f : List Char → List Char)
    (L : List (List Char)) (x : List Char) :
    modifyLast f (L ++ [x]) = L ++ [f x] := by
  induction L with
  | nil => simp [modifyLast]
  | cons a L ih =>
    cases L with
    | nil => simp [modifyLast]
    | cons b L2 => simpa [modifyLast] using ih

theorem joinSep_eq_flatten_last (ch : Char) (L : List (List Char)) (x : List Char) :
    joinSep ch (L ++ [x]) = (L.map (fun s => s ++ [ch])).flatten ++ x := by
  induction L with
  | nil => simp [joinSep]
  | cons a L ih =>
    cases L with
    | nil => simp [joinSep]
    | cons b L2 => simpa [joinSep] using congrArg (fun t => a ++ ch :: t) ih

theorem flatten_sep_ends (ch : Char) (L : List (List Char)) :
    (L.map (fun s => s ++ [ch])).flatten = [] ∨
      ∃ A2, (L.map (fun s => s ++ [ch])).flatten = A2 ++ [ch] := by
  induction L with
  | nil => simp
  | cons a L ih =>
    right
    rcases ih with h | ⟨A2, h⟩
    · exact ⟨a, by simp [h]⟩
    · exact ⟨a ++ [ch] ++ A2, by simp [h]⟩

theorem rdropWhileNNW_append (last : List Char) (hlast : ∀ c ∈ last, c ≠ '\n') :
    ∀ A : List Char, (A = [] ∨ ∃ A2, A = A2 ++ ['\n']) →
      (A ++ last).rdropWhile (fun c => jsWhite c && c != '\n') =
        A ++ last.rdropWhile jsWhite := by
  induction last using List.reverseRecOn with
  | nil =>
    intro A hA
    rcases hA with rfl | ⟨A2, rfl⟩
    · simp
    · rw [List.append_nil]
      rw [List.rdropWhile_concat_neg (fun c => jsWhite c && c != '\n') A2 '\n'
        (by simp [jsWhite])]
      simp
  | append_singleton ls x ih =>
    intro A hA
    have hx : x ≠ '\n' := hlast x (by simp)
    have hmem : ∀ c ∈ ls, c ≠ '\n' := fun c hc => hlast c (by simp [hc])
    by_cases hw : jsWhite x
    · have h1 : (jsWhite x && x != '\n') = true := by simp [hw, hx]
      rw [← List.append_assoc,
        List.rdropWhile_concat_pos (fun c => jsWhite c && c != '\n') (A ++ ls) x h1,
        List.rdropWhile_concat_pos jsWhite ls x hw]
      exact ih hmem A hA
    · have h1 : ¬ ((jsWhite x && x != '\n') = true) := by simp [hw]
      rw [← List.append_assoc,
        List.rdropWhile_concat_neg (fun c => jsWhite c && c != '\n') (A ++ ls) x h1,
        List.rdropWhile_concat_neg jsWhite ls x hw, List.append_assoc]

theorem jsTrimEnd_eq_rdropWhile (l : List Char) :
    jsTrimEnd l = l.rdropWhile jsWhite := rfl

theorem jsTrimEnd_concat_newline (l : List Char) :
    jsTrimEnd (l ++ ['\n']) = jsTrimEnd l := by
  rw [jsTrimEnd_eq_rdropWhile, jsTrimEnd_eq_rdropWhile,
    List.rdropWhile_concat_pos _ _ _ (by simp [jsWhite])]

theorem join_map_asString (L : List (List Char)) :
    String.join (L.map List.asString) = L.flatten.asString := by
  rw [String.join_eq]
  apply String.ext
  have h : String.data ∘ List.asString = id := funext fun l => rfl
  show ((L.map List.asString).map String.data).flatten = _
  rw [List.map_map, h, List.map_id]
  rfl


end Myst

namespace Myst

theorem exists_concat {α : Type} {l : List α} (h : l ≠ []) :
    ∃ L x, l = L ++ [x] :=
  ⟨l.dropLast, l.getLast h, (List.dropLast_append_getLast h).symm⟩

theorem getLastD_concat_chars (L : List (List Char)) (x : List Char) :
    (L ++ [x]).getLastD [] = x := by
  rw [List.getLastD_eq_getLast?, List.getLast?_concat]
  rfl

/-- C10 counterexample core: on `"a "` the produced source list is
`["a"]`, whose join is not the input (the claim requires the join to
be the input unchanged, since there is no final newline to remove). -/
theorem c10_counterexample :
    sourceToStringList "a " = ["a"] ∧
      String.join (sourceToStringList "a ") ≠ "a " := by
  refine ⟨rfl, ?_⟩
  intro h
  rw [show sourceToStringList "a " = ["a"] from rfl] at h
  exact absurd h (by decide)

/-- C10 amended: every line keeps its trailing newline except the last
element, which is the final segment with all of its trailing whitespace
removed (JS `trimEnd`), so joining the source strings reconstructs the
serialized text with the final trailing run of non-newline whitespace
absent. -/
theorem c10_amended (src : String) :
    String.join (sourceToStringList src) = dropTrailingNonNewlineWhite src ∧
    sourceToStringList src =
      ((splitOnChar '\n' src.data).dropLast.map (fun s => (s ++ ['\n']).asString)) ++
        [(jsTrimEnd ((splitOnChar '\n' src.data).getLastD [])).asString] := by
  obtain ⟨L, x, hLx⟩ := exists_concat (splitOnChar_ne_nil '\n' src.data)
  have hcomp : List.asString ∘ (fun s : List Char => s ++ ['\n']) =
      fun s : List Char => (s ++ ['\n']).asString := funext fun s => rfl
  have hstl : sourceToStringList src =
      (L.map (fun s => (s ++ ['\n']).asString)) ++ [(jsTrimEnd x).asString] := by
    show (modifyLast jsTrimEnd
        ((splitOnChar '\n' src.data).map (fun s => s ++ ['\n']))).map List.asString = _
    rw [hLx, List.map_append, List.map_singleton, modifyLast_append_singleton,
      jsTrimEnd_concat_newline, List.map_append, List.map_map, List.map_singleton, hcomp]
  have hdata : src.data = (L.map (fun s => s ++ ['\n'])).flatten ++ x := by
    conv_lhs => rw [← joinSep_splitOnChar '\n' src.data]
    rw [hLx, joinSep_eq_flatten_last]
  have hnolast : ∀ c ∈ x, c ≠ '\n' := by
    have h := splitOnChar_last_no_sep '\n' src.data
    rw [hLx, getLastD_concat_chars] at h
    exact h
  constructor
  · have hmap : (L.map (fun s => (s ++ ['\n']).asString)) ++ [(jsTrimEnd x).asString] =
        ((L.map (fun s => s ++ ['\n'])) ++ [jsTrimEnd x]).map List.asString := by
      rw [List.map_append, List.map_map, List.map_singleton, hcomp]
    rw [hstl, hmap, join_map_asString]
    have hmain := rdropWhileNNW_append x hnolast ((L.map (fun s => s ++ ['\n'])).flatten)
      (flatten_sep_ends '\n' L)
    unfold dropTrailingNonNewlineWhite
    rw [hdata, List.asString_inj]
    have hrd : ∀ l : List Char,
        (l.reverse.dropWhile (fun c => jsWhite c && c != '\n')).reverse =
          l.rdropWhile (fun c => jsWhite c && c != '\n') := fun _ => rfl
    rw [hrd, hmain]
    simp [jsTrimEnd_eq_rdropWhile]
  · rw [hstl, hLx, List.dropLast_concat, getLastD_concat_chars]

end Myst

namespace Myst

/-- C3: an exercise node at top level whose children are
[paragraph, codeCellBlock, paragraph] lifts (with dropSolutions unset
or set — the options only affect solutions) to exactly three top-level
units in order: the exercise wrapper retaining only the first
paragraph, the promoted code-cell block, and the second paragraph as
plain unwrapped content. -/
theorem c3_lift_exercise (o : Option CommonMarkOptions) (root ex p1 code p2 : Node)
    (hroot : root.children = some [ex])
    (hex : ex.ty = "exercise") (hchild : ex.children = some [p1, code, p2])
    (hp1 : isCodeCellBlock p1 = false) (hcode : isCodeCellBlock code = true)
    (hp2 : isCodeCellBlock p2 = false) :
    liftCodeCellsFromGatedNodes root o =
      some (root.withChildren (some [ex.withChildren (some [p1]), code, p2])) := by
  have hgated : isGatedNodeWithCodeCells ex o = true := by
    simp [isGatedNodeWithCodeCells, hex, hchild, hcode]
  have hlift : liftFromExerciseSolution ex false = [ex.withChildren (some [p1]), code, p2] := by
    simp [liftFromExerciseSolution, Node.childL, hchild, liftGoES, hp1, hcode, hp2,
      flushMarkdown]
  simp [liftCodeCellsFromGatedNodes, hroot, hgated, hlift]

/-- C3 witness: the scenario at a concrete tree. -/
theorem c3_lift_exercise_witness :
    liftCodeCellsFromGatedNodes
        (mkParent "root"
          [mkParent "exercise"
            [mkParent "paragraph" [mkText "one"],
             ((blank "block").withKind (some "notebook-code")).withChildren
               (some [(blank "code").withValue (some "x = 1")]),
             mkParent "paragraph" [mkText "two"]]])
        none =
      some (mkParent "root"
        [(mkParent "exercise"
            [mkParent "paragraph" [mkText "one"],
             ((blank "block").withKind (some "notebook-code")).withChildren
               (some [(blank "code").withValue (some "x = 1")]),
             mkParent "paragraph" [mkText "two"]]).withChildren
           (some [mkParent "paragraph" [mkText "one"]]),
         ((blank "block").withKind (some "notebook-code")).withChildren
           (some [(blank "code").withValue (some "x = 1")]),
         mkParent "paragraph" [mkText "two"]]) :=
  c3_lift_exercise none _ _ _ _ _ rfl rfl rfl rfl rfl rfl

end Myst

namespace Myst

/-- C7: every markdown cell in the final cells list of `writeIpynb`
has non-whitespace content: a markdown cell whose joined, trimmed
source is empty is absent from the output. -/
theorem c7_no_empty_markdown_cells (writeMd : Node → String) (node : Node)
    (frontmatter : Option PageFrontmatter) (options : Option IpynbOptions)
    (nb : Ipynb) (h : writeIpynb writeMd node frontmatter options = some nb) :
    ∀ cell ∈ nb.cells, cell.cell_type = "markdown" →
      ¬ (jsTrim (String.join cell.source).data).isEmpty := by
  intro cell hmem hmd
  simp only [writeIpynb] at h
  split at h
  · exact absurd h (by simp)
  · split at h
    · exact absurd h (by simp)
    · split at h
      · exact absurd h (by simp)
      · rw [Option.some_inj] at h
        subst h
        simp only at hmem
        have hk := List.of_mem_filter hmem
        simpa [keepCell, hmd] using hk

/-- C7 witness: a concrete export whose markdown cells all carry
non-whitespace content. -/
theorem c7_no_empty_markdown_cells_witness :
    ∃ nb, writeIpynb (fun _ => "text")
        (mkParent "root" [mkParent "paragraph" [mkText "t"]]) none none = some nb ∧
      ∀ cell ∈ nb.cells, cell.cell_type = "markdown" →
        ¬ (jsTrim (String.join cell.source).data).isEmpty := by
  obtain ⟨nb, h⟩ : ∃ n, writeIpynb (fun _ => "text")
      (mkParent "root" [mkParent "paragraph" [mkText "t"]]) none none = some n := ⟨_, rfl⟩
  exact ⟨nb, h, c7_no_empty_markdown_cells _ _ none none nb h⟩

theorem countP_mapM_option {α β : Type} (f : α → Option β) (p : β → Bool) (q : α → Bool)
    (hf : ∀ a b, f a = some b → p b = q a) :
    ∀ (l : List α) (l2 : List β), l.mapM f = some l2 → l2.countP p = l.countP q := by
  intro l
  induction l with
  | nil => intro l2 h; simp only [List.mapM_nil, Option.pure_def, Option.some_inj] at h
           subst h; rfl
  | cons a t ih =>
    intro l2 h
    rw [List.mapM_cons] at h
    cases hb : f a with
    | none => rw [hb] at h; exact absurd h (by simp)
    | some b =>
      rw [hb] at h
      cases ht : t.mapM f with
      | none => rw [ht] at h; exact absurd h (by simp)
      | some bs =>
        rw [ht] at h
        simp only [Option.pure_def, Option.bind_eq_bind, Option.some_bind,
          Option.some_inj] at h
        subst h
        rw [List.countP_cons, List.countP_cons, ih bs ht, hf a b hb]

/-- If a predicate implies the filter predicate, filtering does not
change its count. -/
theorem countP_filter_of_imp {α : Type} (p q : α → Bool) (l : List α)
    (h : ∀ a, p a = true → q a = true) :
    (l.filter q).countP p = l.countP p := by
  rw [List.countP_filter]
  apply List.countP_congr
  intro a _
  by_cases hp : p a = true
  · simp [hp, h a hp]
  · simp [Bool.eq_false_iff.mpr hp]

/-- A produced cell is a code cell exactly when its source block was a
notebook-code block. -/
theorem cellOfBlock_code_iff (writeMd : Node → String) (mf : String)
    (options : Option IpynbOptions) (b : Node) (cell : NbCell)
    (h : cellOfBlock writeMd mf options b = some cell) :
    (decide (cell.cell_type = "code")) = isCodeCellBlock b := by
  by_cases hb : b.ty = "block" ∧ b.kind = some "notebook-code"
  · simp only [cellOfBlock, if_pos hb] at h
    split at h
    · exact absurd h (by simp)
    · split at h
      · exact absurd h (by simp)
      · rw [Option.some_inj] at h
        subst h
        simp [isCodeCellBlock, hb.1, hb.2]
  · simp only [cellOfBlock, if_neg hb] at h
    have hcode : isCodeCellBlock b = false := by
      rcases not_and_or.mp hb with hb1 | hb2
      · simp [isCodeCellBlock, hb1]
      · simp [isCodeCellBlock, hb2]
    rw [hcode]
    split at h
    · rw [Option.some_inj] at h
      subst h
      simp
    · rw [Option.some_inj] at h
      subst h
      simp

/-- C2: the number of code cells the notebook ends up with equals the
number of top-level notebook-code blocks present after the
Gated-Content Lifter has run; the empty-cell filter removes no code
cell. -/
theorem c2_code_cell_count (writeMd : Node → String) (node : Node)
    (frontmatter : Option PageFrontmatter) (options : Option IpynbOptions)
    (lifted : Node) (nb : Ipynb)
    (hlift : liftCodeCellsFromGatedNodes node (options.bind IpynbOptions.commonmark) =
      some lifted)
    (h : writeIpynb writeMd node frontmatter options = some nb) :
    nb.cells.countP (fun c => decide (c.cell_type = "code")) =
      lifted.childL.countP isCodeCellBlock := by
  simp only [writeIpynb, hlift] at h
  split at h
  · exact absurd h (by simp)
  · rename_i blocks hc
    split at h
    · exact absurd h (by simp)
    · rename_i cells0 hm
      rw [Option.some_inj] at h
      subst h
      simp only [Node.childL, hc, Option.getD_some]
      rw [countP_filter_of_imp _ keepCell _
        (by intro c hcode
            simp only [decide_eq_true_eq] at hcode
            simp [keepCell, hcode])]
      exact countP_mapM_option _ _ _
        (fun a b hab => cellOfBlock_code_iff writeMd _ options a b hab) blocks cells0 hm

/-- C2 witness: a concrete document with one code cell lifted out of
an exercise. -/
theorem c2_code_cell_count_witness :
    ∃ lifted nb,
      liftCodeCellsFromGatedNodes
          (mkParent "root"
            [mkParent "exercise"
              [mkParent "paragraph" [mkText "p"],
               ((blank "block").withKind (some "notebook-code")).withChildren
                 (some [(blank "code").withValue (some "1+1")])]])
          none = some lifted ∧
      writeIpynb (fun _ => "serialized")
          (mkParent "root"
            [mkParent "exercise"
              [mkParent "paragraph" [mkText "p"],
               ((blank "block").withKind (some "notebook-code")).withChildren
                 (some [(blank "code").withValue (some "1+1")])]])
          none none = some nb ∧
      nb.cells.countP (fun c => decide (c.cell_type = "code")) =
        lifted.childL.countP isCodeCellBlock ∧
      lifted.childL.countP isCodeCellBlock = 1 := by
  obtain ⟨lifted, hl⟩ : ∃ l,
      liftCodeCellsFromGatedNodes
        (mkParent "root"
          [mkParent "exercise"
            [mkParent "paragraph" [mkText "p"],
             ((blank "block").withKind (some "notebook-code")).withChildren
               (some [(blank "code").withValue (some "1+1")])]])
        none = some l := ⟨_, rfl⟩
  obtain ⟨nb, hnb⟩ : ∃ n,
      writeIpynb (fun _ => "serialized")
        (mkParent "root"
          [mkParent "exercise"
            [mkParent "paragraph" [mkText "p"],
             ((blank "block").withKind (some "notebook-code")).withChildren
               (some [(blank "code").withValue (some "1+1")])]])
        none none = some n := ⟨_, rfl⟩
  refine ⟨lifted, nb, hl, hnb,
    c2_code_cell_count (fun _ => "serialized") _ none none _ _ hl hnb, ?_⟩
  have : lifted = (liftCodeCellsFromGatedNodes
      (mkParent "root"
        [mkParent "exercise"
          [mkParent "paragraph" [mkText "p"],
           ((blank "block").withKind (some "notebook-code")).withChildren
             (some [(blank "code").withValue (some "1+1")])]]) none).getD (blank "x") := by
    rw [hl]
    rfl
  subst this
  rfl

end Myst

namespace Myst

theorem children_withChildren (n : Node) (c : Option (List Node)) :
    (n.withChildren c).children = c := by
  cases n
  rfl

/-- C1 counterexample: a top-level block tagged kind notebook-code with
no inner code node makes `writeIpynb` throw (`select('code', block)`
is null and `code.value` is read from it), modelled as `none` — the
export does not complete with a notebook document. -/
theorem c1_counterexample :
    writeIpynb (fun _ => "md")
      (mkParent "root"
        [((blank "block").withKind (some "notebook-code")).withChildren (some [])])
      none none = none := rfl

theorem lift_children_isSome (root : Node) (o : Option CommonMarkOptions) (l : Node)
    (h : liftCodeCellsFromGatedNodes root o = some l) : l.children.isSome := by
  unfold liftCodeCellsFromGatedNodes at h
  cases hc : root.children with
  | none => rw [hc] at h; exact absurd h (by simp)
  | some cs =>
    rw [hc] at h
    dsimp only at h
    split at h
    · rw [Option.some_inj] at h
      subst h
      simp [children_withChildren]
    · rw [Option.some_inj] at h
      subst h
      simp [hc]

theorem mapM_isSome_of_all {α β : Type} (f : α → Option β) :
    ∀ l : List α, (∀ a ∈ l, (f a).isSome) → (l.mapM f).isSome := by
  intro l
  induction l with
  | nil => intro _; rfl
  | cons a t ih =>
    intro h
    rw [List.mapM_cons]
    cases hb : f a with
    | none => exact absurd (hb ▸ h a (by simp)) (by simp)
    | some b =>
      cases ht : t.mapM f with
      | none => exact absurd (ht ▸ ih (fun x hx => h x (by simp [hx]))) (by simp)
      | some bs => simp

/-- C1 amended: the pure transforms never fail, and `writeIpynb`
completes and returns a notebook document provided every top-level
block tagged kind notebook-code (after lifting) contains an inner code
node carrying a value; a notebook-code block with no inner code node
instead makes the export throw (see the counterexample). -/
theorem c1_amended (writeMd : Node → String) (node : Node)
    (frontmatter : Option PageFrontmatter) (options : Option IpynbOptions)
    (lifted : Node)
    (hlift : liftCodeCellsFromGatedNodes node (options.bind IpynbOptions.commonmark) =
      some lifted)
    (hcode : ∀ b ∈ lifted.childL, b.ty = "block" ∧ b.kind = some "notebook-code" →
      ∃ code, selectT "code" b = some code ∧ code.value.isSome) :
    (writeIpynb writeMd node frontmatter options).isSome := by
  simp only [writeIpynb, hlift]
  have hbs := lift_children_isSome node _ lifted hlift
  cases hc : lifted.children with
  | none => rw [hc] at hbs; exact absurd hbs (by simp)
  | some blocks =>
    dsimp only
    have hcells : ∀ b ∈ blocks,
        (cellOfBlock writeMd ((options.bind IpynbOptions.markdown).getD "myst") options
          b).isSome := by
      intro b hb
      by_cases hcb : b.ty = "block" ∧ b.kind = some "notebook-code"
      · obtain ⟨code, hsel, hval⟩ := hcode b (by simp [Node.childL, hc, hb]) hcb
        cases hv : code.value with
        | none => rw [hv] at hval; exact absurd hval (by simp)
        | some v => simp [cellOfBlock, hcb, hsel, hv]
      · simp only [cellOfBlock, if_neg hcb]
        split <;> simp
    have hms := mapM_isSome_of_all _ blocks hcells
    cases hm : blocks.mapM (cellOfBlock writeMd
        ((options.bind IpynbOptions.markdown).getD "myst") options) with
    | none => rw [hm] at hms; exact absurd hms (by simp)
    | some cells0 => dsimp only; simp

/-- C1 witness: a concrete document with a well-formed code cell and a
paragraph exports successfully. -/
theorem c1_amended_witness :
    ∃ lifted,
      liftCodeCellsFromGatedNodes
          (mkParent "root"
            [((blank "block").withKind (some "notebook-code")).withChildren
               (some [(blank "code").withValue (some "print(1)")]),
             mkParent "paragraph" [mkText "t"]])
          none = some lifted ∧
      (writeIpynb (fun _ => "text")
        (mkParent "root"
          [((blank "block").withKind (some "notebook-code")).withChildren
             (some [(blank "code").withValue (some "print(1)")]),
           mkParent "paragraph" [mkText "t"]])
        none none).isSome := by
  refine ⟨_, rfl, c1_amended (fun _ => "text") _ none none _ rfl ?_⟩
  intro b hb hcb
  have hcl : (mkParent "root"
      [((blank "block").withKind (some "notebook-code")).withChildren
         (some [(blank "code").withValue (some "print(1)")]),
       mkParent "paragraph" [mkText "t"]]).childL =
      [((blank "block").withKind (some "notebook-code")).withChildren
         (some [(blank "code").withValue (some "print(1)")]),
       mkParent "paragraph" [mkText "t"]] := rfl
  rw [hcl] at hb
  have hb2 := List.mem_cons.mp hb
  rcases hb2 with rfl | hb2
  · exact ⟨(blank "code").withValue (some "print(1)"), rfl, rfl⟩
  · have hb3 := List.mem_cons.mp hb2
    rcases hb3 with rfl | hb3
    · exact absurd hcb.1 (by decide)
    · exact absurd hb3 (by simp)

end Myst

namespace Myst

theorem urlLoop_cons (fuel : Nat) (c : Char) (rest : List Char) :
    urlLoop (fuel + 1) (c :: rest) =
      (if c = '\\' then
        match rest with
        | ')' :: rest2 =>
          match urlLoop fuel rest2 with
          | some (u, t, r) => some ('\\' :: ')' :: u, t, r)
          | none => some (['\\'], [')'], rest2)
        | r2 => (urlLoop fuel r2).map (fun p => (c :: p.1, p.2.1, p.2.2))
      else if c = ')' ∨ jsWhite c then
        (titleClose (c :: rest)).map (fun p => ([], p.1, p.2))
      else
        match urlLoop fuel rest with
        | some (u, t, r) => some (c :: u, t, r)
        | none => (titleClose (c :: rest)).map (fun p => ([], p.1, p.2))) := rfl

theorem urlStart_cons (fuel : Nat) (c : Char) (rest : List Char) :
    urlStart fuel (c :: rest) =
      (if c = '\\' then
        match rest with
        | ')' :: rest2 =>
          match urlLoop fuel rest2 with
          | some (u, t, r) => some ('\\' :: ')' :: u, t, r)
          | none => some (['\\'], [')'], rest2)
        | r2 => (urlLoop fuel r2).map (fun p => (c :: p.1, p.2.1, p.2.2))
      else if c = ')' ∨ jsWhite c then none
      else (urlLoop fuel rest).map (fun p => (c :: p.1, p.2.1, p.2.2))) := rfl

theorem altLoop_cons (fuel : Nat) (c : Char) (rest : List Char) :
    altLoop (fuel + 1) (c :: rest) =
      (if c = '\\' then
        match rest with
        | ']' :: rest2 =>
          match altLoop fuel rest2 with
          | some (a, u, t, r) => some ('\\' :: ']' :: a, u, t, r)
          | none =>
            match rest2 with
            | '(' :: r2 => (urlStart fuel r2).map (fun p => (['\\'], p.1, p.2.1, p.2.2))
            | _ => none
        | r2 => (altLoop fuel r2).map (fun q => (c :: q.1, q.2.1, q.2.2.1, q.2.2.2))
      else if c = ']' then
        match rest with
        | '(' :: r2 => (urlStart fuel r2).map (fun p => (([] : List Char), p.1, p.2.1, p.2.2))
        | _ => none
      else (altLoop fuel rest).map (fun q => (c :: q.1, q.2.1, q.2.2.1, q.2.2.2))) := rfl

end Myst

namespace Myst

/-! ### Matcher decomposition: a successful match splits the input -/

theorem titleClose_decomp (s t r : List Char) (h : titleClose s = some (t, r)) :
    s = t ++ r := by
  unfold titleClose at h
  rcases (Option.orElse_eq_some _ _ _).mp h with h1 | ⟨_, h1⟩
  · dsimp only at h1
    split at h1
    · exact absurd h1 (by simp)
    · split at h1
      · rename_i s2 heq
        split at h1
        · rename_i r2 heq2
          simp only [Option.some_inj, Prod.mk.injEq] at h1
          have hsplit : s.takeWhile jsWhite ++ s.dropWhile jsWhite = s :=
            List.takeWhile_append_dropWhile _ _
          have hsplit2 : s2.takeWhile (fun c => c ≠ '"') ++
              s2.dropWhile (fun c => c ≠ '"') = s2 :=
            List.takeWhile_append_dropWhile _ _
          rw [← h1.1, ← h1.2]
          conv_lhs => rw [← hsplit, heq, ← hsplit2, heq2]
          simp
        · exact absurd h1 (by simp)
      · exact absurd h1 (by simp)
  · split at h1
    · rename_i r2 heq
      simp only [Option.some_inj, Prod.mk.injEq] at h1
      rw [← h1.1, ← h1.2]
      rfl
    · exact absurd h1 (by simp)

theorem urlLoop_decomp : ∀ (fuel : Nat) (s u t r : List Char),
    urlLoop fuel s = some (u, t, r) → s = u ++ t ++ r := by
  intro fuel
  induction fuel with
  | zero => intro s u t r h; simp [urlLoop] at h
  | succ n ih =>
    intro s u t r h
    cases s with
    | nil => simp [urlLoop] at h
    | cons c rest =>
      rw [urlLoop_cons] at h
      split at h
      · rename_i hbs
        subst hbs
        split at h
        · rename_i rest2
          split at h
          · rename_i u2 t2 r2 hu
            simp only [Option.some_inj, Prod.mk.injEq] at h
            have hrec := ih rest2 u2 t2 r2 hu
            rw [← h.1, ← h.2.1, ← h.2.2]
            simp [hrec]
          · simp only [Option.some_inj, Prod.mk.injEq] at h
            rw [← h.1, ← h.2.1, ← h.2.2]
            rfl
        · cases hu : urlLoop n rest with
          | none => rw [hu] at h; exact absurd h (by simp)
          | some p =>
            rw [hu] at h
            obtain ⟨u2, t2, rr⟩ := p
            simp only [Option.map_some', Option.some_inj, Prod.mk.injEq] at h
            have hrec := ih rest u2 t2 rr hu
            rw [← h.1, ← h.2.1, ← h.2.2]
            simp [hrec]
      · split at h
        · rcases hx : titleClose (c :: rest) with _ | ⟨t2, r2⟩
          · rw [hx] at h; exact absurd h (by simp)
          · rw [hx] at h
            simp only [Option.map_some', Option.some_inj, Prod.mk.injEq] at h
            have := titleClose_decomp (c :: rest) t2 r2 hx
            rw [← h.1, ← h.2.1, ← h.2.2]
            simpa using this
        · split at h
          · rename_i u2 t2 r2 hu
            simp only [Option.some_inj, Prod.mk.injEq] at h
            have hrec := ih rest u2 t2 r2 hu
            rw [← h.1, ← h.2.1, ← h.2.2]
            simp [hrec]
          · rcases hx : titleClose (c :: rest) with _ | ⟨t2, r2⟩
            · rw [hx] at h; exact absurd h (by simp)
            · rw [hx] at h
              simp only [Option.map_some', Option.some_inj, Prod.mk.injEq] at h
              have := titleClose_decomp (c :: rest) t2 r2 hx
              rw [← h.1, ← h.2.1, ← h.2.2]
              simpa using this

theorem urlStart_decomp (fuel : Nat) (s u t r : List Char)
    (h : urlStart fuel s = some (u, t, r)) : s = u ++ t ++ r := by
  cases s with
  | nil => simp [urlStart] at h
  | cons c rest =>
    rw [urlStart_cons] at h
    split at h
    · rename_i hbs
      subst hbs
      split at h
      · rename_i rest2
        split at h
        · rename_i u2 t2 r2 hu
          simp only [Option.some_inj, Prod.mk.injEq] at h
          have hrec := urlLoop_decomp fuel rest2 u2 t2 r2 hu
          rw [← h.1, ← h.2.1, ← h.2.2]
          simp [hrec]
        · simp only [Option.some_inj, Prod.mk.injEq] at h
          rw [← h.1, ← h.2.1, ← h.2.2]
          rfl
      · cases hu : urlLoop fuel rest with
        | none => rw [hu] at h; exact absurd h (by simp)
        | some p =>
          rw [hu] at h
          obtain ⟨u2, t2, rr⟩ := p
          simp only [Option.map_some', Option.some_inj, Prod.mk.injEq] at h
          have hrec := urlLoop_decomp fuel rest u2 t2 rr hu
          rw [← h.1, ← h.2.1, ← h.2.2]
          simp [hrec]
    · split at h
      · exact absurd h (by simp)
      · cases hu : urlLoop fuel rest with
        | none => rw [hu] at h; exact absurd h (by simp)
        | some p =>
          rw [hu] at h
          obtain ⟨u2, t2, rr⟩ := p
          simp only [Option.map_some', Option.some_inj, Prod.mk.injEq] at h
          have hrec := urlLoop_decomp fuel rest u2 t2 rr hu
          rw [← h.1, ← h.2.1, ← h.2.2]
          simp [hrec]

theorem altLoop_decomp : ∀ (fuel : Nat) (s a u t r : List Char),
    altLoop fuel s = some (a, u, t, r) → s = a ++ ']' :: '(' :: u ++ t ++ r := by
  intro fuel
  induction fuel with
  | zero => intro s a u t r h; simp [altLoop] at h
  | succ n ih =>
    intro s a u t r h
    cases s with
    | nil => simp [altLoop] at h
    | cons c rest =>
      rw [altLoop_cons] at h
      split at h
      · rename_i hbs
        subst hbs
        split at h
        · rename_i rest2
          split at h
          · rename_i a2 u2 t2 r2 ha
            simp only [Option.some_inj, Prod.mk.injEq] at h
            have hrec := ih rest2 a2 u2 t2 r2 ha
            rw [← h.1, ← h.2.1, ← h.2.2.1, ← h.2.2.2]
            simp [hrec]
          · split at h
            · rw [Option.map_eq_some'] at h
              obtain ⟨⟨u2, t2, rr⟩, hu, hp⟩ := h
              simp only [Prod.mk.injEq] at hp
              have hrec := urlStart_decomp n _ u2 t2 rr hu
              rw [← hp.1, ← hp.2.1, ← hp.2.2.1, ← hp.2.2.2]
              simp [hrec]
            · exact absurd h (by simp)
        · cases ha : altLoop n rest with
          | none => rw [ha] at h; exact absurd h (by simp)
          | some q =>
            rw [ha] at h
            obtain ⟨a2, u2, t2, rr⟩ := q
            simp only [Option.map_some', Option.some_inj, Prod.mk.injEq] at h
            have hrec := ih rest a2 u2 t2 rr ha
            rw [← h.1, ← h.2.1, ← h.2.2.1, ← h.2.2.2]
            simp [hrec]
      · split at h
        · rename_i hbr
          subst hbr
          split at h
          · rename_i r2
            cases hu : urlStart n r2 with
            | none => rw [hu] at h; exact absurd h (by simp)
            | some p =>
              rw [hu] at h
              obtain ⟨u2, t2, rr⟩ := p
              simp only [Option.map_some', Option.some_inj, Prod.mk.injEq] at h
              have hrec := urlStart_decomp n r2 u2 t2 rr hu
              rw [← h.1, ← h.2.1, ← h.2.2.1, ← h.2.2.2]
              simp [hrec]
          · exact absurd h (by simp)
        · cases ha : altLoop n rest with
          | none => rw [ha] at h; exact absurd h (by simp)
          | some q =>
            rw [ha] at h
            obtain ⟨a2, u2, t2, rr⟩ := q
            simp only [Option.map_some', Option.some_inj, Prod.mk.injEq] at h
            have hrec := ih rest a2 u2 t2 rr ha
            rw [← h.1, ← h.2.1, ← h.2.2.1, ← h.2.2.2]
            simp [hrec]

/-- A successful image match decomposes the input into the full match
followed by the rest. -/
theorem matchImageAt_decomp (s alt url tail rest : List Char)
    (h : matchImageAt s = some (alt, url, tail, rest)) :
    s = fullOf alt url tail ++ rest := by
  rw [matchImageAt.eq_def] at h
  split at h
  · rename_i r2
    have := altLoop_decomp (r2.length + 1) r2 alt url tail rest h
    rw [fullOf]
    simp [this]
  · exact absurd h (by simp)

end Myst

namespace Myst

/-! ### C4: the no-match cases of the Attachment Rewriter -/

theorem embedScan_no_match (imageData : List (String × ImageData)) :
    ∀ (fuel : Nat) (s : List Char) (st : EmbedState),
      (∀ m ∈ imageMatchesAux fuel s,
        (imageData.find? (fun p => p.1 = (unescapeUrl m.2).asString)) = none) →
      embedScan imageData fuel s st = (s, st) := by
  intro fuel
  induction fuel with
  | zero => intro s st _; rfl
  | succ n ih =>
    intro s st hno
    cases s with
    | nil => rfl
    | cons c restAll =>
      cases hm : matchImageAt (c :: restAll) with
      | none =>
        rw [imageMatchesAux, hm] at hno
        dsimp only at hno
        rw [embedScan, hm]
        dsimp only
        rw [ih restAll st hno]
      | some q =>
        obtain ⟨alt, url, tail, rest⟩ := q
        rw [imageMatchesAux, hm] at hno
        dsimp only at hno
        have hhead := hno (alt, url) (by simp)
        dsimp only at hhead
        have htail : ∀ m ∈ imageMatchesAux n rest,
            (imageData.find? (fun p => p.1 = (unescapeUrl m.2).asString)) = none := by
          intro m hmem
          exact hno m (by simp [hmem])
        rw [embedScan, hm]
        dsimp only
        rw [hhead]
        dsimp only [Option.map_none']
        rw [ih rest st htail]
        have hdec := matchImageAt_decomp (c :: restAll) alt url tail rest hm
        exact congrArg (fun z => (z, st)) hdec.symm

/-- C4: `embedImagesAsAttachments` returns the input markdown unchanged
with the attachments field omitted (undefined, not an empty object)
whenever the `imageData` map is empty or no image match URL occurs in
the map. -/
theorem c4_no_match (md : String) (imageData : List (String × ImageData))
    (h : imageData = [] ∨ ∀ m ∈ imageMatches md,
      (imageData.find? (fun p => p.1 = (unescapeUrl m.2).asString)) = none) :
    embedImagesAsAttachments md imageData = ⟨md, none⟩ := by
  rcases h with rfl | hno
  · rfl
  · unfold embedImagesAsAttachments
    split
    · rfl
    · rw [embedScan_no_match imageData (md.data.length + 1) md.data ⟨[], []⟩ hno]
      rfl

/-- C4 witness: both branches at concrete inputs — an empty map, and a
non-empty map containing no matched URL. -/
theorem c4_no_match_witness :
    embedImagesAsAttachments "![A](/a.png)" [] = ⟨"![A](/a.png)", none⟩ ∧
    embedImagesAsAttachments "![A](/a.png)"
      [("/other.png", ⟨"image/png", "XXXX"⟩)] = ⟨"![A](/a.png)", none⟩ := by
  constructor
  · exact c4_no_match "![A](/a.png)" [] (Or.inl rfl)
  · exact c4_no_match "![A](/a.png)" [("/other.png", ⟨"image/png", "XXXX"⟩)]
      (Or.inr (by decide))

end Myst

namespace Myst

/-! ### Freshness of attachment names -/

theorem natDecAux_stable (d : Nat → Char) :
    ∀ (n f1 f2 : Nat), n < f1 → n < f2 → natDecAux d f1 n = natDecAux d f2 n := by
  intro n
  induction n using Nat.strong_induction_on with
  | _ n ih =>
    intro f1 f2 h1 h2
    cases f1 with
    | zero => omega
    | succ g1 =>
      cases f2 with
      | zero => omega
      | succ g2 =>
        rw [natDecAux, natDecAux]
        by_cases hn : n < 10
        · simp [hn]
        · simp only [hn, if_false]
          have hd : n / 10 < n := Nat.div_lt_self (by omega) (by omega)
          rw [ih (n / 10) hd g1 g2 (by omega) (by omega)]

theorem natDec_lt10 (n : Nat) (h : n < 10) : natDec n = [digitChar10 n] := by
  unfold natDec natDecAux
  simp [h]

theorem natDec_ge10 (n : Nat) (h : ¬ n < 10) :
    natDec n = natDec (n / 10) ++ [digitChar10 (n % 10)] := by
  unfold natDec
  rw [natDecAux]
  simp only [h, if_false]
  have hd : n / 10 < n := Nat.div_lt_self (by omega) (by omega)
  rw [natDecAux_stable digitChar10 (n / 10) n (n / 10 + 1) hd (Nat.lt_succ_self _)]

theorem natDec_ne_nil (n : Nat) : natDec n ≠ [] := by
  by_cases h : n < 10
  · rw [natDec_lt10 n h]; simp
  · rw [natDec_ge10 n h]; simp

theorem digitChar10_inj (a b : Nat) (ha : a < 10) (hb : b < 10)
    (h : digitChar10 a = digitChar10 b) : a = b := by
  have hf : ∀ x y : Fin 10, digitChar10 x.val = digitChar10 y.val → x = y := by decide
  have := hf ⟨a, ha⟩ ⟨b, hb⟩ h
  exact congrArg Fin.val this

theorem natDec_inj : ∀ a b : Nat, natDec a = natDec b → a = b := by
  intro a
  induction a using Nat.strong_induction_on with
  | _ a ih =>
    intro b h
    by_cases ha : a < 10
    · by_cases hb : b < 10
      · rw [natDec_lt10 a ha, natDec_lt10 b hb] at h
        exact digitChar10_inj a b ha hb (by injection h)
      · rw [natDec_lt10 a ha, natDec_ge10 b hb] at h
        have := congrArg List.length h
        simp at this
        exact absurd this (natDec_ne_nil (b / 10))
    · by_cases hb : b < 10
      · rw [natDec_ge10 a ha, natDec_lt10 b hb] at h
        have := congrArg List.length h
        simp at this
        exact absurd this (natDec_ne_nil (a / 10))
      · rw [natDec_ge10 a ha, natDec_ge10 b hb] at h
        have hrev := congrArg List.reverse h
        simp only [List.reverse_append, List.reverse_singleton, List.singleton_append,
          List.cons.injEq] at hrev
        have hdig := digitChar10_inj (a % 10) (b % 10) (Nat.mod_lt _ (by omega))
          (Nat.mod_lt _ (by omega)) hrev.1
        have hpre : natDec (a / 10) = natDec (b / 10) :=
          List.reverse_injective hrev.2
        have hdiv := ih (a / 10) (Nat.div_lt_self (by omega) (by omega)) (b / 10) hpre
        omega

theorem mkSuffixName_inj (base : String) (c1 c2 : Nat)
    (h : mkSuffixName base c1 = mkSuffixName base c2) : c1 = c2 := by
  unfold mkSuffixName at h
  cases hs : splitLastDot base.data with
  | none =>
    rw [hs] at h
    rw [List.asString_inj] at h
    have h2 := List.append_cancel_left h
    rw [List.cons.injEq] at h2
    exact natDec_inj c1 c2 h2.2
  | some p =>
    obtain ⟨pre, sfx⟩ := p
    rw [hs] at h
    rw [List.asString_inj] at h
    have h2 := List.append_cancel_right h
    have h3 := List.append_cancel_left h2
    rw [List.cons.injEq] at h3
    exact natDec_inj c1 c2 h3.2

theorem exists_fresh_counter (used : List String) (base : String) (counter : Nat) :
    ∃ i < used.length + 1, mkSuffixName base (counter + i) ∉ used := by
  by_contra hall
  push_neg at hall
  set l := (List.range (used.length + 1)).map (fun i => mkSuffixName base (counter + i))
    with hl
  have hnd : l.Nodup := by
    refine List.Nodup.map_on ?_ (List.nodup_range _)
    intro i _ j _ hij
    have := mkSuffixName_inj base (counter + i) (counter + j) hij
    omega
  have hsub : ∀ x ∈ l, x ∈ used := by
    intro x hx
    rw [hl] at hx
    obtain ⟨i, hi, rfl⟩ := List.mem_map.mp hx
    exact hall i (List.mem_range.mp hi)
  have h1 : l.toFinset.card = l.length := List.toFinset_card_of_nodup hnd
  have h2 : l.toFinset ⊆ used.toFinset := by
    intro x hx
    rw [List.mem_toFinset] at hx ⊢
    exact hsub x hx
  have h3 := Finset.card_le_card h2
  have h4 : used.toFinset.card ≤ used.length := List.toFinset_card_le used
  have h5 : l.length = used.length + 1 := by simp [hl]
  omega

theorem freshLoop_not_mem (used : List String) (base : String) :
    ∀ (fuel counter : Nat),
      (∃ i < fuel, mkSuffixName base (counter + i) ∉ used) →
      freshLoop used base counter fuel ∉ used := by
  intro fuel
  induction fuel with
  | zero =>
    intro counter h
    obtain ⟨i, hi, _⟩ := h
    omega
  | succ n ih =>
    intro counter h
    obtain ⟨i, hif, hnot⟩ := h
    rw [freshLoop]
    by_cases hc : used.contains (mkSuffixName base counter)
    · simp only [hc, if_true]
      apply ih
      have hi0 : i ≠ 0 := by
        intro h0
        subst h0
        simp only [Nat.add_zero] at hnot
        exact hnot (List.elem_iff.mp hc)
      obtain ⟨j, rfl⟩ := Nat.exists_eq_succ_of_ne_zero hi0
      exact ⟨j, by omega, by rw [show counter + 1 + j = counter + (j + 1) by omega]; exact hnot⟩
    · simp only [hc, if_false]
      intro hmem
      exact hc (List.elem_iff.mpr hmem)

theorem freshName_not_mem (used : List String) (base : String) :
    freshName used base ∉ used := by
  unfold freshName
  by_cases h : used.contains base
  · simp only [h, if_true]
    exact freshLoop_not_mem used base (used.length + 1) 1
      (exists_fresh_counter used base 1)
  · simp only [h, if_false]
    intro hmem
    exact h (List.elem_iff.mpr hmem)

end Myst

namespace Myst

/-! ### C5 and C6: rewriting behaviour and name uniqueness -/

/-- C5: at any image-syntax match the scan leaves a match whose URL is
not in the map character-for-character unchanged, and rewrites a match
whose URL is in the map to the attachment reference, preserving the
alt text verbatim and appending an attachment entry (name, mime, data)
built from the map entry; and the round-trip example from the spec
holds end to end. -/
theorem c5_rewrite_match (imageData : List (String × ImageData)) (fuel : Nat)
    (st : EmbedState) (c : Char) (restAll alt url tail rest : List Char)
    (hm : matchImageAt (c :: restAll) = some (alt, url, tail, rest)) :
    (((imageData.find? (fun p => p.1 = (unescapeUrl url).asString)).map Prod.snd) = none →
      embedScan imageData (fuel + 1) (c :: restAll) st =
        (fullOf alt url tail ++ (embedScan imageData fuel rest st).1,
          (embedScan imageData fuel rest st).2)) ∧
    (∀ d : ImageData,
      ((imageData.find? (fun p => p.1 = (unescapeUrl url).asString)).map Prod.snd) =
        some d →
      embedScan imageData (fuel + 1) (c :: restAll) st =
        ('!' :: '[' :: alt ++ ']' :: '(' ::
            ("attachment:" ++
              freshName st.usedNames ((basename (unescapeUrl url)).asString)).data ++
            [')'] ++
            (embedScan imageData fuel rest
              ⟨st.usedNames ++
                  [freshName st.usedNames ((basename (unescapeUrl url)).asString)],
                st.attachments ++
                  [(freshName st.usedNames ((basename (unescapeUrl url)).asString),
                    d.mime, d.data)]⟩).1,
          (embedScan imageData fuel rest
            ⟨st.usedNames ++
                [freshName st.usedNames ((basename (unescapeUrl url)).asString)],
              st.attachments ++
                [(freshName st.usedNames ((basename (unescapeUrl url)).asString),
                  d.mime, d.data)]⟩).2)) ∧
    embedImagesAsAttachments "![Chart](/_static/img/chart.png)"
        [("/_static/img/chart.png", ⟨"image/png", "base64data"⟩)] =
      ⟨"![Chart](attachment:chart.png)",
        some [("chart.png", "image/png", "base64data")]⟩ := by
  refine ⟨?_, ?_, by decide⟩
  · intro hfind
    rw [embedScan, hm]
    dsimp only
    rw [hfind]
  · intro d hfind
    rw [embedScan, hm]
    dsimp only
    rw [hfind]
    have hbase : (basename ((unescapeUrl url).asString).data).asString =
        (basename (unescapeUrl url)).asString := by
      congr 1
    rw [hbase]

/-- C5 witness: the non-matching and matching step behaviour at a
concrete match, instantiated through the theorem. -/
theorem c5_rewrite_match_witness :
    embedScan [("/b.png", ⟨"image/png", "D"⟩)] 13 "![A](/a.png)".data ⟨[], []⟩ =
      ("![A](/a.png)".data, ⟨[], []⟩) ∧
    embedScan [("/a.png", ⟨"image/png", "D"⟩)] 13 "![A](/a.png)".data ⟨[], []⟩ =
      ("![A](attachment:a.png)".data,
        ⟨["a.png"], [("a.png", "image/png", "D")]⟩) := by
  constructor
  · have h := (c5_rewrite_match [("/b.png", ⟨"image/png", "D"⟩)] 12 ⟨[], []⟩
      '!' "[A](/a.png)".data "A".data "/a.png".data [')'] [] (by decide)).1 (by decide)
    rw [h]
    decide
  · have h := ((c5_rewrite_match [("/a.png", ⟨"image/png", "D"⟩)] 12 ⟨[], []⟩
      '!' "[A](/a.png)".data "A".data "/a.png".data [')'] [] (by decide)).2.1
      ⟨"image/png", "D"⟩ (by decide))
    rw [h]
    decide

/-- The invariant carried through the scan: attachment names are
distinct and all recorded in the used-names set. -/
def EmbedInv (st : EmbedState) : Prop :=
  (st.attachments.map (fun x => x.1)).Nodup ∧
  ∀ n ∈ st.attachments.map (fun x => x.1), n ∈ st.usedNames

theorem embedScan_inv (imageData : List (String × ImageData)) :
    ∀ (fuel : Nat) (s : List Char) (st : EmbedState),
      EmbedInv st → EmbedInv (embedScan imageData fuel s st).2 := by
  intro fuel
  induction fuel with
  | zero => intro s st h; exact h
  | succ n ih =>
    intro s st h
    cases s with
    | nil => exact h
    | cons c restAll =>
      rw [embedScan]
      cases hm : matchImageAt (c :: restAll) with
      | none => exact ih restAll st h
      | some q =>
        obtain ⟨alt, url, tail, rest⟩ := q
        dsimp only
        cases hf : ((imageData.find? (fun p =>
            p.1 = (unescapeUrl url).asString)).map Prod.snd) with
        | none => exact ih rest st h
        | some d =>
          dsimp only
          apply ih
          constructor
          · rw [List.map_append]
            apply List.Nodup.append h.1 (by simp)
            intro x hx hx2
            simp only [List.map_cons, List.map_nil, List.mem_singleton] at hx2
            subst hx2
            exact freshName_not_mem st.usedNames _ (h.2 _ hx)
          · intro m hmem
            rw [List.map_append] at hmem
            rcases List.mem_append.mp hmem with hmem | hmem
            · exact List.mem_append.mpr (Or.inl (h.2 m hmem))
            · simp only [List.map_cons, List.map_nil, List.mem_singleton] at hmem
              subst hmem
              exact List.mem_append.mpr (Or.inr (by simp))

/-- C6: within one call of `embedImagesAsAttachments` every attachment
name is unique, and the deduplication example holds: two URLs sharing
a basename get names `img.png` and `img_1.png` in first-seen order. -/
theorem c6_unique_names :
    (∀ (md : String) (imageData : List (String × ImageData))
        (att : List (String × String × String)),
      (embedImagesAsAttachments md imageData).attachments = some att →
      (att.map (fun x => x.1)).Nodup) ∧
    embedImagesAsAttachments "![A](/dir1/img.png)\n\n![B](/dir2/img.png)"
        [("/dir1/img.png", ⟨"image/png", "AAAA"⟩),
         ("/dir2/img.png", ⟨"image/png", "BBBB"⟩)] =
      ⟨"![A](attachment:img.png)\n\n![B](attachment:img_1.png)",
        some [("img.png", "image/png", "AAAA"),
              ("img_1.png", "image/png", "BBBB")]⟩ := by
  refine ⟨?_, by decide⟩
  intro md imageData att h
  unfold embedImagesAsAttachments at h
  split at h
  · exact absurd h (by simp)
  · dsimp only at h
    have hinv := embedScan_inv imageData (md.data.length + 1) md.data ⟨[], []⟩
      ⟨List.nodup_nil, by simp⟩
    split at h
    · exact absurd h (by simp)
    · simp only [Option.some_inj] at h
      subst h
      exact hinv.1

/-- C6 witness: the uniqueness conjunct applied at the concrete
deduplication example. -/
theorem c6_unique_names_witness :
    ∃ att,
      (embedImagesAsAttachments "![A](/dir1/img.png)\n\n![B](/dir2/img.png)"
        [("/dir1/img.png", ⟨"image/png", "AAAA"⟩),
         ("/dir2/img.png", ⟨"image/png", "BBBB"⟩)]).attachments = some att ∧
      (att.map (fun x => x.1)).Nodup := by
  refine ⟨[("img.png", "image/png", "AAAA"), ("img_1.png", "image/png", "BBBB")],
    by decide, ?_⟩
  exact c6_unique_names.1 "![A](/dir1/img.png)\n\n![B](/dir2/img.png)"
    [("/dir1/img.png", ⟨"image/png", "AAAA"⟩),
     ("/dir2/img.png", ⟨"image/png", "BBBB"⟩)]
    [("img.png", "image/png", "AAAA"), ("img_1.png", "image/png", "BBBB")] (by decide)

end Myst

namespace Myst

/-! ### C8: idempotence of the CommonMark degrader

A node is `Emitted` when it can appear in the output child list of
`transformToCommonMark`: `transformNode` passes it through unchanged,
it is not a flattenable root wrapper, its label/identifier are already
stripped, and all of its children are `Emitted` as well.  The
degrader's output children are all `Emitted`, and a tree whose
children are all `Emitted` is a fixed point — idempotence follows. -/

inductive Emitted (d : Bool) : Node → Prop where
  | intro (y : Node) :
      transformNode y d = some y →
      (y.ty = "root" && y.children.isSome) = false →
      y.label = none → y.identifier = none →
      (∀ c ∈ y.childL, Emitted d c) →
      Emitted d y

theorem Emitted.pass {d : Bool} {y : Node} (h : Emitted d y) :
    transformNode y d = some y := by cases h with | intro _ h1 _ _ _ _ => exact h1

theorem Emitted.notFlat {d : Bool} {y : Node} (h : Emitted d y) :
    (y.ty = "root" && y.children.isSome) = false := by
  cases h with | intro _ _ h2 _ _ _ => exact h2

theorem Emitted.labelNone {d : Bool} {y : Node} (h : Emitted d y) : y.label = none := by
  cases h with | intro _ _ _ h3 _ _ => exact h3

theorem Emitted.identNone {d : Bool} {y : Node} (h : Emitted d y) :
    y.identifier = none := by
  cases h with | intro _ _ _ _ h4 _ => exact h4

theorem Emitted.kids {d : Bool} {y : Node} (h : Emitted d y) :
    ∀ c ∈ y.childL, Emitted d c := by
  cases h with | intro _ _ _ _ _ h5 => exact h5

theorem stripLabels_of_emitted {d : Bool} {y : Node} (h : Emitted d y) :
    y.stripLabels = y := by
  have h3 := h.labelNone
  have h4 := h.identNone
  cases y with
  | mk t k v l i e u us a ti la ex c =>
    simp only [Node.label] at h3
    simp only [Node.identifier] at h4
    subst h3
    subst h4
    rfl

theorem emitChild_of_emitted {d : Bool} {y : Node} (h : Emitted d y) :
    emitChild d y = [y] := by
  unfold emitChild
  rw [h.pass]
  simp [h.notFlat]

/-! Emitted facts for the freshly constructed replacement nodes. -/

theorem label_mkParent (ty : String) (l : List Node) : (mkParent ty l).label = none := rfl

theorem emitted_of_parts {d : Bool} (y : Node)
    (h1 : transformNode y d = some y)
    (h2 : (y.ty = "root" && y.children.isSome) = false)
    (h3 : y.label = none) (h4 : y.identifier = none)
    (h5 : ∀ c ∈ y.childL, Emitted d c) : Emitted d y :=
  Emitted.intro y h1 h2 h3 h4 h5

theorem emitted_text (d : Bool) (v : String) : Emitted d (mkText v) := by
  refine emitted_of_parts _ rfl rfl rfl rfl ?_
  intro c hc
  simp [mkText, blank, Node.withValue, Node.childL, Node.children] at hc

theorem emitted_html (d : Bool) (v : String) :
    Emitted d ((blank "html").withValue (some v)) := by
  refine emitted_of_parts _ rfl rfl rfl rfl ?_
  intro c hc
  simp [blank, Node.withValue, Node.childL, Node.children] at hc

theorem emitted_code (d : Bool) (lang : Option String) (v : String) :
    Emitted d (((blank "code").withLang lang).withValue (some v)) := by
  refine emitted_of_parts _ rfl rfl rfl rfl ?_
  intro c hc
  simp [blank, Node.withValue, Node.withLang, Node.childL, Node.children] at hc

theorem emitted_image (d : Bool) (url alt : String) (title : Option String) :
    Emitted d ((((blank "image").withUrl (some url)).withAlt (some alt)).withTitle title) := by
  refine emitted_of_parts _ rfl rfl rfl rfl ?_
  intro c hc
  simp [blank, Node.withUrl, Node.withAlt, Node.withTitle, Node.childL, Node.children] at hc

theorem emitted_mkParent {d : Bool} (ty : String) (l : List Node)
    (hpass : transformNode (mkParent ty l) d = some (mkParent ty l))
    (hroot : ty ≠ "root")
    (h : ∀ c ∈ l, Emitted d c) : Emitted d (mkParent ty l) := by
  refine emitted_of_parts _ hpass ?_ rfl rfl ?_
  · simp [mkParent, blank, Node.withChildren, Node.ty, hroot]
  · intro c hc
    simp only [mkParent, blank, Node.withChildren, Node.childL, Node.children,
      Option.getD_some] at hc
    exact h c hc

mutual
theorem selectT_emitted {d : Bool} : ∀ (x : Node), Emitted d x →
    ∀ (ty : String) (z : Node), selectT ty x = some z → Emitted d z
  | .mk t k v l i e u us a ti la ex c, hx, ty, z, h => by
    rw [selectT.eq_def] at h
    dsimp only at h
    split at h
    · rw [Option.some_inj] at h
      subst h
      exact hx
    · match c, h with
      | some cs, h =>
        exact selectTList_emitted cs (by
          have := hx.kids
          simpa [Node.childL, Node.children] using this) ty z h
theorem selectTList_emitted {d : Bool} : ∀ (l : List Node),
    (∀ c ∈ l, Emitted d c) →
    ∀ (ty : String) (z : Node), selectTList ty l = some z → Emitted d z
  | n :: ns, hl, ty, z, h => by
    rw [selectTList.eq_def] at h
    dsimp only at h
    split at h
    · rename_i m hm
      rw [Option.some_inj] at h
      subst h
      exact selectT_emitted n (hl n (by simp)) ty m hm
    · exact selectTList_emitted ns (fun c hc => hl c (by simp [hc])) ty z h
end

end Myst

namespace Myst

theorem flatMap_eq_self_of_single {α : Type} (f : α → List α) :
    ∀ l : List α, (∀ c ∈ l, f c = [c]) → l.flatMap f = l
  | [], _ => rfl
  | c :: cs, h => by
    rw [List.flatMap_cons, h c (by simp),
      flatMap_eq_self_of_single f cs (fun x hx => h x (by simp [hx]))]
    rfl

theorem map_eq_self_of_fixed {α : Type} (g : α → α) :
    ∀ l : List α, (∀ c ∈ l, g c = c) → l.map g = l
  | [], _ => rfl
  | c :: cs, h => by
    rw [List.map_cons, h c (by simp),
      map_eq_self_of_fixed g cs (fun x hx => h x (by simp [hx]))]

/-! A tree whose children are all `Emitted` is a fixed point of the degrader. -/

mutual
theorem tf_fixed (o : Option CommonMarkOptions) : ∀ (t : Node),
    (∀ c ∈ t.childL, Emitted ((o.bind CommonMarkOptions.dropSolutions).getD false) c) →
    transformToCommonMark o t = t
  | .mk t k v l i e u us a ti la ex none, _ => rfl
  | .mk t k v l i e u us a ti la ex (some cs), h => by
    have hcs : ∀ c ∈ cs,
        Emitted ((o.bind CommonMarkOptions.dropSolutions).getD false) c := by
      intro c hc
      exact h c (by simpa [Node.childL, Node.children] using hc)
    show Node.mk t k v l i e u us a ti la ex
      (some (((tfList o cs).flatMap
        (emitChild ((o.bind CommonMarkOptions.dropSolutions).getD false))).map
          Node.stripLabels)) = _
    rw [tfList_fixed o cs hcs,
      flatMap_eq_self_of_single _ cs (fun c hc => emitChild_of_emitted (hcs c hc)),
      map_eq_self_of_fixed _ cs (fun c hc => stripLabels_of_emitted (hcs c hc))]
theorem tfList_fixed (o : Option CommonMarkOptions) : ∀ (l : List Node),
    (∀ c ∈ l, Emitted ((o.bind CommonMarkOptions.dropSolutions).getD false) c) →
    tfList o l = l
  | [], _ => rfl
  | c :: cs, h => by
    show transformToCommonMark o c :: tfList o cs = c :: cs
    rw [tf_fixed o c (h c (by simp)).kids,
      tfList_fixed o cs (fun x hx => h x (by simp [hx]))]
end

end Myst

namespace Myst

/-! Reusable `Emitted` facts for the composite replacement nodes the
transforms construct, and case lemmas for `emitChild`. -/

theorem emitted_strong (d : Bool) (inner : List Node)
    (h : ∀ c ∈ inner, Emitted d c) : Emitted d (mkParent "strong" inner) :=
  emitted_mkParent _ _ rfl (by decide) h

theorem emitted_emphasis (d : Bool) (inner : List Node)
    (h : ∀ c ∈ inner, Emitted d c) : Emitted d (mkParent "emphasis" inner) :=
  emitted_mkParent _ _ rfl (by decide) h

theorem emitted_para_one (d : Bool) (inner : Node)
    (h : Emitted d inner) : Emitted d (mkParent "paragraph" [inner]) :=
  emitted_mkParent _ _ rfl (by decide) (fun c hc => by
    rw [List.mem_singleton] at hc
    subst hc
    exact h)

theorem emitted_header (d : Bool) (t : String) :
    Emitted d (mkParent "paragraph" [mkParent "strong" [mkText t]]) :=
  emitted_para_one d _ (emitted_strong d _ (fun c hc => by
    rw [List.mem_singleton] at hc
    subst hc
    exact emitted_text d t))

theorem emitted_blockquote (d : Bool) (inner : List Node)
    (h : ∀ c ∈ inner, Emitted d c) : Emitted d (mkParent "blockquote" inner) :=
  emitted_mkParent _ _ rfl (by decide) h

theorem selectT_ne {d : Bool} {x : Node} (ty : String) (hne : x.ty ≠ ty)
    (hkids : ∀ c ∈ x.childL, Emitted d c) :
    ∀ z, selectT ty x = some z → Emitted d z := by
  intro z h
  cases x with
  | mk t k v l i e u us a ti la ex c =>
    rw [selectT.eq_def] at h
    dsimp only at h
    rw [if_neg (by simpa [Node.ty] using hne)] at h
    match c, h with
    | some cs, h =>
      exact selectTList_emitted cs
        (by simpa [Node.childL, Node.children] using hkids) ty z h

theorem selectT_kids_emitted {d : Bool} {x z : Node} (ty : String) (hne : x.ty ≠ ty)
    (hkids : ∀ c ∈ x.childL, Emitted d c)
    (h : selectT ty x = some z) : ∀ c ∈ z.childL, Emitted d c :=
  (selectT_ne ty hne hkids z h).kids

theorem emitChild_none {d : Bool} {x : Node}
    (htn : transformNode x d = none) : emitChild d x = [] := by
  unfold emitChild
  rw [htn]

theorem emitChild_some_root {d : Bool} {x m : Node}
    (htn : transformNode x d = some m)
    (hroot : (decide (m.ty = "root") && m.children.isSome) = true) :
    emitChild d x = m.childL := by
  unfold emitChild
  rw [htn]
  simp only [hroot, if_true]

theorem emitChild_some_plain {d : Bool} {x m : Node}
    (htn : transformNode x d = some m)
    (hroot : (decide (m.ty = "root") && m.children.isSome) = false) :
    emitChild d x = [m] := by
  unfold emitChild
  rw [htn]
  simp only [hroot, Bool.false_eq_true, if_false]

theorem strip_mem_emitted {d : Bool} {L : List Node}
    (h : ∀ y ∈ L, Emitted d y) : ∀ y ∈ L.map Node.stripLabels, Emitted d y := by
  intro y hy
  rw [List.mem_map] at hy
  obtain ⟨y0, hy0, rfl⟩ := hy
  rw [stripLabels_of_emitted (h y0 hy0)]
  exact h y0 hy0

theorem childL_mkParent (ty : String) (l : List Node) : (mkParent ty l).childL = l := rfl

end Myst

namespace Myst

/-! Per-transform `Emitted` facts: every node placed into the output
list by one of the `transform*` functions is `Emitted`, provided the
children of the node being transformed already are. -/

theorem header_content_kids {d : Bool} {x : Node} (t : String) (p : Node → Bool)
    (hkids : ∀ c ∈ x.childL, Emitted d c) :
    ∀ y ∈ (mkParent "paragraph" [mkParent "strong" [mkText t]] :: x.childL.filter p),
      Emitted d y := by
  intro y hy
  rw [List.mem_cons] at hy
  rcases hy with rfl | hy
  · exact emitted_header d t
  · exact hkids y (List.mem_filter.mp hy).1

theorem emitted_transformAdmonition {d : Bool} {x : Node}
    (hkids : ∀ c ∈ x.childL, Emitted d c) : Emitted d (transformAdmonition x) :=
  emitted_blockquote d _ (fun y hy => header_content_kids _ _ hkids y hy)

theorem emitted_transformDetails {d : Bool} {x : Node}
    (hkids : ∀ c ∈ x.childL, Emitted d c) : Emitted d (transformDetails x) :=
  emitted_blockquote d _ (fun y hy => header_content_kids _ _ hkids y hy)

theorem emitted_transformAside {d : Bool} {x : Node}
    (hkids : ∀ c ∈ x.childL, Emitted d c) : Emitted d (transformAside x) := by
  refine emitted_blockquote d _ ?_
  intro c hc
  rw [List.mem_append] at hc
  rcases hc with hc | hc
  · rcases hf : x.childL.find? (fun c => c.ty = "admonitionTitle") with _ | tn
    · rw [hf] at hc
      exact absurd hc (List.not_mem_nil c)
    · rw [hf] at hc
      dsimp only at hc
      rw [List.mem_singleton] at hc
      subst hc
      exact emitted_para_one d _ (emitted_strong d _
        (fun z hz => (hkids tn (List.mem_of_find?_eq_some hf)).kids z hz))
  · exact hkids c (List.mem_filter.mp hc).1

theorem card_kids {d : Bool} {x : Node}
    (hkids : ∀ c ∈ x.childL, Emitted d c) :
    ∀ y ∈ (transformCard x).childL, Emitted d y := by
  intro y hy
  simp only [transformCard, childL_mkParent] at hy
  rw [List.mem_append] at hy
  rcases hy with hy | hy
  · rcases hf : x.childL.find? (fun c => c.ty = "cardTitle") with _ | tn
    · rw [hf] at hy
      exact absurd hy (List.not_mem_nil y)
    · rw [hf] at hy
      dsimp only at hy
      rw [List.mem_singleton] at hy
      subst hy
      refine emitted_para_one d _ (emitted_strong d _ ?_)
      intro c hc
      rcases hcc : tn.children with _ | cs
      · rw [hcc] at hc
        dsimp only at hc
        rw [List.mem_singleton] at hc
        subst hc
        exact emitted_text d _
      · rw [hcc] at hc
        dsimp only at hc
        refine (hkids tn (List.mem_of_find?_eq_some hf)).kids c ?_
        rw [Node.childL, hcc]
        exact hc
  · exact hkids y (List.mem_filter.mp hy).1

theorem tabSet_kids {d : Bool} {x : Node}
    (hkids : ∀ c ∈ x.childL, Emitted d c) :
    ∀ y ∈ (transformTabSet x).childL, Emitted d y := by
  intro y hy
  simp only [transformTabSet, childL_mkParent] at hy
  rw [List.mem_flatMap] at hy
  obtain ⟨tab, htab, hyf⟩ := hy
  split at hyf
  · rw [List.mem_append] at hyf
    rcases hyf with hyf | hyf
    · split at hyf
      · rw [List.mem_singleton] at hyf
        subst hyf
        exact emitted_header d _
      · exact absurd hyf (List.not_mem_nil y)
    · rcases hc : tab.children with _ | cs
      · rw [hc] at hyf
        dsimp only at hyf
        exact absurd hyf (List.not_mem_nil y)
      · rw [hc] at hyf
        dsimp only at hyf
        refine (hkids tab htab).kids y ?_
        rw [Node.childL, hc]
        exact hyf
  · exact absurd hyf (List.not_mem_nil y)

theorem figure_kids {d : Bool} {x : Node} (hcont : x.ty = "container")
    (hkids : ∀ c ∈ x.childL, Emitted d c) :
    ∀ y ∈ (transformFigure x).childL, Emitted d y := by
  intro y hy
  simp only [transformFigure, childL_mkParent] at hy
  rw [List.mem_append] at hy
  rcases hy with hy | hy
  · rw [List.mem_cons] at hy
    rcases hy with rfl | hy
    · exact emitted_image d _ _ _
    · rcases hc : selectT "caption" x with _ | cnode
      · rw [hc] at hy
        simp [truthyLen] at hy
      · rw [hc] at hy
        split at hy
        · rw [List.mem_singleton] at hy
          subst hy
          exact emitted_para_one d _ (emitted_emphasis d _
            (selectT_ne "caption" (by rw [hcont]; decide) hkids cnode hc).kids)
        · exact absurd hy (List.not_mem_nil y)
  · rcases hl : selectT "legend" x with _ | lnode
    · rw [hl] at hy
      simp [truthyLen] at hy
    · rw [hl] at hy
      split at hy
      · exact (selectT_ne "legend" (by rw [hcont]; decide) hkids lnode hl).kids y hy
      · exact absurd hy (List.not_mem_nil y)

theorem table_kids {d : Bool} {x : Node} (hcont : x.ty = "container")
    (hkids : ∀ c ∈ x.childL, Emitted d c) :
    ∀ y ∈ (transformTableContainer x).childL, Emitted d y := by
  intro y hy
  simp only [transformTableContainer, childL_mkParent] at hy
  rw [List.mem_append] at hy
  rcases hy with hy | hy
  · rcases hc : selectT "caption" x with _ | cnode
    · rw [hc] at hy
      simp [truthyLen] at hy
    · rw [hc] at hy
      split at hy
      · rw [List.mem_singleton] at hy
        subst hy
        exact emitted_para_one d _ (emitted_strong d _
          (selectT_ne "caption" (by rw [hcont]; decide) hkids cnode hc).kids)
      · exact absurd hy (List.not_mem_nil y)
  · rcases ht : selectT "table" x with _ | tnode
    · rw [ht] at hy
      dsimp only at hy
      exact absurd hy (List.not_mem_nil y)
    · rw [ht] at hy
      dsimp only at hy
      rw [List.mem_singleton] at hy
      subst hy
      exact selectT_ne "table" (by rw [hcont]; decide) hkids y ht

end Myst

namespace Myst

theorem emit_plain_emitted {d : Bool} {x m : Node}
    (htn : transformNode x d = some m)
    (hflat : (decide (m.ty = "root") && m.children.isSome) = false)
    (hm : Emitted d m) :
    ∀ y ∈ (emitChild d x).map Node.stripLabels, Emitted d y := by
  rw [emitChild_some_plain htn hflat]
  intro y hy
  rw [List.map_cons, List.map_nil, List.mem_singleton] at hy
  subst hy
  rw [stripLabels_of_emitted hm]
  exact hm

theorem emit_root_emitted {d : Bool} {x m : Node}
    (htn : transformNode x d = some m)
    (hflat : (decide (m.ty = "root") && m.children.isSome) = true)
    (hm : ∀ y ∈ m.childL, Emitted d y) :
    ∀ y ∈ (emitChild d x).map Node.stripLabels, Emitted d y := by
  rw [emitChild_some_root htn hflat]
  exact strip_mem_emitted hm

theorem emit_none_emitted {d : Bool} {x : Node}
    (htn : transformNode x d = none) :
    ∀ y ∈ (emitChild d x).map Node.stripLabels, Emitted d y := by
  rw [emitChild_none htn]
  intro y hy
  exact absurd hy (List.not_mem_nil y)

theorem selectT_strip {x : Node} (ty : String) (hne : x.ty ≠ ty) :
    selectT ty x.stripLabels = selectT ty x := by
  cases x with
  | mk t k v l i e u us a ti la ex c =>
    show selectT ty (.mk t k v none none e u us a ti la ex c) = _
    rw [selectT.eq_def, selectT.eq_def]
    dsimp only
    rw [if_neg (by simpa [Node.ty] using hne), if_neg (by simpa [Node.ty] using hne)]
    cases c <;> rfl

/-- Every node in the transformed-and-flattened output of the per-child
pipeline (after the label strip) is `Emitted`, provided the children of
the input node already are. -/
theorem emit_strip_emitted {d : Bool} (x : Node)
    (hkids : ∀ c ∈ x.childL, Emitted d c) :
    ∀ y ∈ (emitChild d x).map Node.stripLabels, Emitted d y := by
  have hsty : x.stripLabels.ty = x.ty := by cases x; rfl
  have hskind : x.stripLabels.kind = x.kind := by cases x; rfl
  have hsch : x.stripLabels.children = x.children := by cases x; rfl
  have hslab : x.stripLabels.label = none := by cases x; rfl
  have hsid : x.stripLabels.identifier = none := by cases x; rfl
  have hschl : x.stripLabels.childL = x.childL := by cases x; rfl
  have htn : transformNode x d = transformNode x d := rfl
  nth_rewrite 2 [transformNode.eq_def] at htn
  split at htn
  · exact emit_plain_emitted htn rfl (emitted_transformAdmonition hkids)
  · exact emit_plain_emitted htn rfl (emitted_html d _)
  · exact emit_plain_emitted htn rfl (emitted_html d _)
  · -- container
    rename_i heq
    split at htn
    · exact emit_root_emitted htn rfl (figure_kids heq hkids)
    · split at htn
      · exact emit_root_emitted htn rfl (table_kids heq hkids)
      · split at htn
        · -- kind = code
          rename_i hfig htab hcode
          split at htn
          · exact emit_plain_emitted htn rfl (emitted_code d _ _)
          · -- selectT code = none: node passed through unchanged
            rename_i hsel
            have hflat : (decide (x.ty = "root") && x.children.isSome) = false := by
              rw [heq]
              rfl
            rw [emitChild_some_plain htn hflat]
            intro y hy
            rw [List.map_cons, List.map_nil, List.mem_singleton] at hy
            subst hy
            refine emitted_of_parts _ ?_ ?_ hslab hsid ?_
            · rw [transformNode.eq_def, hsty]
              split
              all_goals try (rename_i heq2; exact absurd (heq.symm.trans heq2) (by decide))
              · rename_i heq2
                rw [hskind, if_neg hfig, if_neg htab, if_pos hcode,
                  selectT_strip "code" (by rw [heq]; decide), hsel]
              · exact absurd heq (by assumption)
            · rw [hsty, hsch]
              exact hflat
            · rw [hschl]
              exact hkids
        · -- container with other kind: passed through unchanged
          rename_i hfig htab hncode
          have hflat : (decide (x.ty = "root") && x.children.isSome) = false := by
            rw [heq]
            rfl
          rw [emitChild_some_plain htn hflat]
          intro y hy
          rw [List.map_cons, List.map_nil, List.mem_singleton] at hy
          subst hy
          refine emitted_of_parts _ ?_ ?_ hslab hsid ?_
          · rw [transformNode.eq_def, hsty]
            split
            all_goals try (rename_i heq2; exact absurd (heq.symm.trans heq2) (by decide))
            · rename_i heq2
              rw [hskind, if_neg hfig, if_neg htab, if_neg hncode]
            · exact absurd heq (by assumption)
          · rw [hsty, hsch]
            exact hflat
          · rw [hschl]
            exact hkids
  · exact emit_root_emitted htn rfl (fun y hy => header_content_kids _ _ hkids y hy)
  · -- solution
    rw [transformSolution] at htn
    split at htn
    · exact emit_none_emitted htn
    · exact emit_root_emitted htn rfl (fun y hy => header_content_kids _ _ hkids y hy)
  · exact emit_root_emitted htn rfl (fun y hy => header_content_kids _ _ hkids y hy)
  · exact emit_root_emitted htn rfl (tabSet_kids hkids)
  · exact emit_root_emitted htn rfl (card_kids hkids)
  · exact emit_root_emitted htn rfl hkids
  · exact emit_plain_emitted htn rfl (emitted_transformDetails hkids)
  · exact emit_plain_emitted htn rfl (emitted_transformAside hkids)
  · -- include
    split at htn
    · exact emit_root_emitted htn rfl hkids
    · exact emit_none_emitted htn
  · -- mystDirective
    rw [transformMystDirective] at htn
    split at htn
    · exact emit_root_emitted htn rfl hkids
    · split at htn
      · rename_i hv
        rcases hval : x.value with _ | v
        · rw [hval] at hv
          simp [truthyStr] at hv
        · rw [hval] at htn
          exact emit_plain_emitted htn rfl (emitted_code d _ v)
      · exact emit_none_emitted htn
  · -- mystRole
    rw [transformMystRole] at htn
    split at htn
    · exact emit_root_emitted htn rfl hkids
    · exact emit_plain_emitted htn rfl (emitted_text d _)
  · exact emit_none_emitted htn
  · exact emit_none_emitted htn
  · exact emit_plain_emitted htn rfl (emitted_code d _ _)
  · exact emit_plain_emitted htn rfl (emitted_image d _ _ _)
  · -- pass-through default
    rcases Bool.eq_false_or_eq_true (decide (x.ty = "root") && x.children.isSome) with
      hroot | hroot
    · exact emit_root_emitted htn hroot hkids
    · rw [emitChild_some_plain htn hroot]
      intro y hy
      rw [List.map_cons, List.map_nil, List.mem_singleton] at hy
      subst hy
      refine emitted_of_parts _ ?_ ?_ hslab hsid ?_
      · rw [transformNode.eq_def, hsty]
        split
        all_goals first
          | rfl
          | (rename_i heq2; exact absurd heq2 (by assumption))
      · rw [hsty, hsch]
        exact hroot
      · rw [hschl]
        exact hkids

end Myst

namespace Myst

theorem tfList_eq_map (o : Option CommonMarkOptions) :
    ∀ l : List Node, tfList o l = l.map (transformToCommonMark o)
  | [] => rfl
  | c :: cs => by
    show transformToCommonMark o c :: tfList o cs = _
    rw [tfList_eq_map o cs, List.map_cons]

mutual
theorem tf_kids (o : Option CommonMarkOptions) : ∀ (t : Node),
    ∀ y ∈ (transformToCommonMark o t).childL,
      Emitted ((o.bind CommonMarkOptions.dropSolutions).getD false) y
  | .mk t k v l i e u us a ti la ex none => by
    intro y hy
    exact absurd hy (List.not_mem_nil y)
  | .mk t k v l i e u us a ti la ex (some cs) => by
    intro y hy
    have hy2 : y ∈ ((tfList o cs).flatMap
        (emitChild ((o.bind CommonMarkOptions.dropSolutions).getD false))).map
          Node.stripLabels := hy
    rw [List.mem_map] at hy2
    obtain ⟨y0, hy0, rfl⟩ := hy2
    rw [List.mem_flatMap] at hy0
    obtain ⟨z, hz, hy0⟩ := hy0
    rw [tfList_eq_map, List.mem_map] at hz
    obtain ⟨c0, hc0, rfl⟩ := hz
    exact emit_strip_emitted _ (tfList_kids o cs c0 hc0) y0.stripLabels
      (List.mem_map_of_mem Node.stripLabels hy0)
theorem tfList_kids (o : Option CommonMarkOptions) : ∀ (l : List Node), ∀ c0 ∈ l,
    ∀ y ∈ (transformToCommonMark o c0).childL,
      Emitted ((o.bind CommonMarkOptions.dropSolutions).getD false) y
  | c :: cs, c0, hc0 => by
    rw [List.mem_cons] at hc0
    rcases hc0 with rfl | hc0
    · exact tf_kids o c0
    · exact tfList_kids o cs c0 hc0
end

/-- C8: the CommonMark degrader is idempotent — applying
`transformToCommonMark` to its own output (same options) returns that
output unchanged: already-degraded trees fire no further rewrites, and
pass-through node types are stable. -/
theorem c8_idempotent (opts : Option CommonMarkOptions) (t : Node) :
    transformToCommonMark opts (transformToCommonMark opts t) =
      transformToCommonMark opts t :=
  tf_fixed opts (transformToCommonMark opts t) (tf_kids opts t)

end Myst

namespace Myst

/-! ### C9: a store-level model of `writeIpynb`

`transformToCommonMark` mutates its argument in place (it reassigns
`tree.children` and deletes `identifier`/`label` fields on child
objects), and `writeIpynb` guards the caller's tree by passing the
degrader a `JSON.parse(JSON.stringify(...))` deep copy of each
per-cell wrapper tree.  Object identity is invisible to the pure
value-level embedding above, so the mutation discipline is modelled
here explicitly: nodes live in a `Store` (a heap of `NodeCell`s
addressed by allocation order), object references are addresses,
object-literal creation is `Store.alloc`, field assignment is
`Store.set`, and the JSON round trip is `clone`. -/

/-- An object reference. -/
abbrev Addr := Nat

/-- One mdast node object on the heap: the scalar fields of `Node`,
with `children` holding references instead of inline nodes. -/
structure NodeCell where
  ty : String
  kind : Option String
  value : Option String
  label : Option String
  identifier : Option String
  enumerator : Option String
  url : Option String
  urlSource : Option String
  alt : Option String
  title : Option String
  lang : Option String
  extra : List String
  children : Option (List Addr)
deriving DecidableEq

/-- The heap: an association list of allocated cells plus the next
fresh address.  `set` prepends, so the newest binding wins. -/
structure Store where
  cells : List (Addr × NodeCell)
  next : Addr
deriving DecidableEq

def Store.get (s : Store) (a : Addr) : Option NodeCell := s.cells.lookup a

def Store.set (s : Store) (a : Addr) (c : NodeCell) : Store := ⟨(a, c) :: s.cells, s.next⟩

def Store.alloc (s : Store) (c : NodeCell) : Store × Addr :=
  (⟨(s.next, c) :: s.cells, s.next + 1⟩, s.next)

/-- `{ type: ty }` as a cell. -/
def blankC (ty : String) : NodeCell :=
  ⟨ty, none, none, none, none, none, none, none, none, none, none, [], none⟩

/-- JavaScript truthiness of `children?.length` for an address list. -/
def truthyLenA (o : Option (List Addr)) : Bool := ¬ (o.getD []).isEmpty

/-! `JSON.parse(JSON.stringify(tree))`: recursively copy the tree below
an address into fresh cells.  `none` models an exhausted fuel or a
dangling reference (neither occurs on real trees). -/
mutual
def clone : Nat → Store → Addr → Option (Store × Addr)
  | 0, _, _ => none
  | fuel + 1, s, a =>
    match s.get a with
    | none => none
    | some c =>
      match c.children with
      | none => some (s.alloc c)
      | some kids =>
        match cloneL fuel s kids with
        | none => none
        | some (s1, kids1) => some (s1.alloc { c with children := some kids1 })
def cloneL : Nat → Store → List Addr → Option (Store × List Addr)
  | 0, _, _ => none
  | _ + 1, s, [] => some (s, [])
  | fuel + 1, s, a :: rest =>
    match clone fuel s a with
    | none => none
    | some (s1, a1) =>
      match cloneL fuel s1 rest with
      | none => none
      | some (s2, rest1) => some (s2, a1 :: rest1)
end

/-! Read the value-level tree below an address (what a read-only
consumer such as the markdown serializer observes). -/
mutual
def readTree : Nat → Store → Addr → Option Node
  | 0, _, _ => none
  | fuel + 1, s, a =>
    match s.get a with
    | none => none
    | some c =>
      match c.children with
      | none => some (.mk c.ty c.kind c.value c.label c.identifier c.enumerator c.url
          c.urlSource c.alt c.title c.lang c.extra none)
      | some kids =>
        match readTreeL fuel s kids with
        | none => none
        | some ns => some (.mk c.ty c.kind c.value c.label c.identifier c.enumerator c.url
            c.urlSource c.alt c.title c.lang c.extra (some ns))
def readTreeL : Nat → Store → List Addr → Option (List Node)
  | 0, _, _ => none
  | _ + 1, _, [] => some []
  | fuel + 1, s, a :: rest =>
    match readTree fuel s a with
    | none => none
    | some n =>
      match readTreeL fuel s rest with
      | none => none
      | some ns => some (n :: ns)
end

/-! `select(type, tree)` at the store level: the first node of the
given type in tree order, returned as a reference into the existing
heap (unist-util-select returns the node object itself, not a copy). -/
mutual
def selectS : Nat → Store → String → Addr → Option (Option Addr)
  | 0, _, _, _ => none
  | fuel + 1, s, ty, a =>
    match s.get a with
    | none => none
    | some c =>
      if c.ty = ty then some (some a)
      else
        match c.children with
        | some kids => selectSL fuel s ty kids
        | none => some none
def selectSL : Nat → Store → String → List Addr → Option (Option Addr)
  | 0, _, _, _ => none
  | _ + 1, _, _, [] => some none
  | fuel + 1, s, ty, a :: rest =>
    match selectS fuel s ty a with
    | none => none
    | some (some m) => some (some m)
    | some none => selectSL fuel s ty rest
end

/-- `children.find(c => c.type === ty)` over stored children. -/
def findByTyS (s : Store) (ty : String) : List Addr → Option (Option Addr)
  | [] => some none
  | k :: ks =>
    match s.get k with
    | none => none
    | some c => if c.ty = ty then some (some k) else findByTyS s ty ks

/-- `children.filter(p)` over stored children (keeping references). -/
def filterCellsS (s : Store) (p : NodeCell → Bool) : List Addr → Option (List Addr)
  | [] => some []
  | k :: ks =>
    match s.get k with
    | none => none
    | some c =>
      match filterCellsS s p ks with
      | none => none
      | some r => some (if p c then k :: r else r)

/-- `toText(node)` reads the subtree and never writes. -/
def toTextS (fuel : Nat) (s : Store) (a : Addr) : Option String :=
  (readTree fuel s a).map toText

/-- The object graph a transform returns: a mix of freshly created
object literals (`node`) and references to existing nodes (`leaf`),
mirroring how the `transform*` functions reuse child objects. -/
inductive Tpl where
  | leaf (a : Addr)
  | node (c : NodeCell) (kids : Option (List Tpl))

/-! Materialize a template: allocate every `node` as a fresh cell,
keep every `leaf` as the existing reference. -/
mutual
def allocTpl : Store → Tpl → Store × Addr
  | s, .leaf a => (s, a)
  | s, .node c none => s.alloc { c with children := none }
  | s, .node c (some ts) =>
    let p := allocTplL s ts
    p.1.alloc { c with children := some p.2 }
def allocTplL : Store → List Tpl → Store × List Addr
  | s, [] => (s, [])
  | s, t :: ts =>
    let p := allocTpl s t
    let q := allocTplL p.1 ts
    (q.1, p.2 :: q.2)
end

/-- `{ type: 'text', value: v }`. -/
def tplText (v : String) : Tpl := .node { blankC "text" with value := some v } none

/-- `{ type: ty, children: [...] }`. -/
def tplParent (ty : String) (kids : List Tpl) : Tpl := .node (blankC ty) (some kids)

end Myst

namespace Myst

/-! Store-level versions of the `transform*` functions.  Each returns a
`Tpl`: fresh object literals are `node`s, reused child objects are
`leaf` references — exactly where the JavaScript reuses objects.
`none` models a dangling reference or exhausted fuel. -/

def getOptCell (s : Store) : Option Addr → Option (Option NodeCell)
  | none => some none
  | some a => (s.get a).map some

def toTextOptS (fuel : Nat) (s : Store) : Option Addr → Option (Option String)
  | none => some none
  | some a => (toTextS fuel s a).map some

def transformAdmonitionS (fuel : Nat) (s : Store) (c : NodeCell) : Option Tpl :=
  match findByTyS s "admonitionTitle" (c.children.getD []) with
  | none => none
  | some tA =>
  match toTextOptS fuel s tA with
  | none => none
  | some tText =>
  match filterCellsS s (fun ch => ch.ty ≠ "admonitionTitle") (c.children.getD []) with
  | none => none
  | some content =>
    let titleText := match tText with
      | some t => t
      | none => capitalize (c.kind.getD "note")
    some (tplParent "blockquote"
      (tplParent "paragraph" [tplParent "strong" [tplText titleText]] ::
        content.map Tpl.leaf))

def transformMathBlockS (c : NodeCell) : Tpl :=
  let labelComment := if truthyStr c.label then " (" ++ c.label.getD "" ++ ")" else ""
  .node { blankC "html" with
    value := some ("$$\n" ++ c.value.getD "" ++ "\n$$" ++ labelComment) } none

def transformInlineMathS (c : NodeCell) : Tpl :=
  .node { blankC "html" with value := some ("$" ++ c.value.getD "" ++ "$") } none

def transformFigureS (fuel : Nat) (s : Store) (a : Addr) : Option Tpl :=
  match selectS fuel s "image" a with
  | none => none
  | some imgA =>
  match selectS fuel s "caption" a with
  | none => none
  | some capA =>
  match selectS fuel s "legend" a with
  | none => none
  | some legA =>
  match getOptCell s imgA with
  | none => none
  | some imgC =>
  match getOptCell s capA with
  | none => none
  | some capC =>
  match getOptCell s legA with
  | none => none
  | some legC =>
  match toTextOptS fuel s capA with
  | none => none
  | some capText =>
    let url := ((imgC.bind NodeCell.urlSource).or (imgC.bind NodeCell.url)).getD ""
    let alt := (imgC.bind NodeCell.alt).getD (match capText with
      | some t => t
      | none => "")
    let first : Tpl := .node { blankC "image" with
      url := some url, alt := some alt, title := imgC.bind NodeCell.title } none
    let capPart := if truthyLenA (capC.bind NodeCell.children) then
        [tplParent "paragraph" [tplParent "emphasis"
          (((capC.bind NodeCell.children).getD []).map Tpl.leaf)]]
      else []
    let legPart := if truthyLenA (legC.bind NodeCell.children) then
        ((legC.bind NodeCell.children).getD []).map Tpl.leaf
      else []
    some (tplParent "root" (first :: capPart ++ legPart))

def transformTableContainerS (fuel : Nat) (s : Store) (a : Addr) : Option Tpl :=
  match selectS fuel s "caption" a with
  | none => none
  | some capA =>
  match selectS fuel s "table" a with
  | none => none
  | some tabA =>
  match getOptCell s capA with
  | none => none
  | some capC =>
    let capPart := if truthyLenA (capC.bind NodeCell.children) then
        [tplParent "paragraph" [tplParent "strong"
          (((capC.bind NodeCell.children).getD []).map Tpl.leaf)]]
      else []
    let tabPart := match tabA with
      | some t => [Tpl.leaf t]
      | none => []
    some (tplParent "root" (capPart ++ tabPart))

def transformExerciseS (fuel : Nat) (s : Store) (c : NodeCell) : Option Tpl :=
  match findByTyS s "admonitionTitle" (c.children.getD []) with
  | none => none
  | some tA =>
  match toTextOptS fuel s tA with
  | none => none
  | some tText =>
  match filterCellsS s (fun ch => ch.ty ≠ "admonitionTitle") (c.children.getD []) with
  | none => none
  | some content =>
    let titleText := match tText with
      | some t => t
      | none => "Exercise"
    let enumerator := if truthyStr c.enumerator then " " ++ c.enumerator.getD "" else ""
    some (tplParent "root"
      (tplParent "paragraph" [tplParent "strong" [tplText (titleText ++ enumerator)]] ::
        content.map Tpl.leaf))

def transformSolutionS (fuel : Nat) (s : Store) (c : NodeCell) : Option Tpl :=
  match findByTyS s "admonitionTitle" (c.children.getD []) with
  | none => none
  | some tA =>
  match toTextOptS fuel s tA with
  | none => none
  | some tText =>
  match filterCellsS s (fun ch => ch.ty ≠ "admonitionTitle") (c.children.getD []) with
  | none => none
  | some content =>
    let titleText := match tText with
      | some t => t
      | none => "Solution"
    some (tplParent "root"
      (tplParent "paragraph" [tplParent "strong" [tplText titleText]] ::
        content.map Tpl.leaf))

def transformProofS (fuel : Nat) (s : Store) (c : NodeCell) : Option Tpl :=
  match findByTyS s "admonitionTitle" (c.children.getD []) with
  | none => none
  | some tA =>
  match toTextOptS fuel s tA with
  | none => none
  | some tText =>
  match filterCellsS s (fun ch => ch.ty ≠ "admonitionTitle") (c.children.getD []) with
  | none => none
  | some content =>
    let titleText := match tText with
      | some t => " (" ++ t ++ ")"
      | none => ""
    let enumerator := if truthyStr c.enumerator then " " ++ c.enumerator.getD "" else ""
    some (tplParent "root"
      (tplParent "paragraph"
          [tplParent "strong" [tplText (capitalize (c.kind.getD "proof") ++ enumerator ++ titleText)]] ::
        content.map Tpl.leaf))

def tabSetKidsS (s : Store) : List Addr → Option (List Tpl)
  | [] => some []
  | k :: ks =>
    match s.get k with
    | none => none
    | some tc =>
      match tabSetKidsS s ks with
      | none => none
      | some rest =>
        some ((if tc.ty = "tabItem" || tc.kind = some "tabItem" then
            (if truthyStr tc.title then
              [tplParent "paragraph" [tplParent "strong" [tplText (tc.title.getD "")]]]
            else []) ++ ((tc.children.getD []).map Tpl.leaf)
          else []) ++ rest)

def transformTabSetS (s : Store) (c : NodeCell) : Option Tpl :=
  (tabSetKidsS s (c.children.getD [])).map (fun kids => tplParent "root" kids)

def transformCardS (fuel : Nat) (s : Store) (c : NodeCell) : Option Tpl :=
  match findByTyS s "cardTitle" (c.children.getD []) with
  | none => none
  | some tA =>
  match filterCellsS s
      (fun ch => ¬ (ch.ty = "cardTitle" ∨ ch.ty = "header" ∨ ch.ty = "footer"))
      (c.children.getD []) with
  | none => none
  | some content =>
    match tA with
    | some t =>
      match s.get t with
      | none => none
      | some tc =>
        match tc.children with
        | some cs =>
          some (tplParent "root"
            (tplParent "paragraph" [tplParent "strong" (cs.map Tpl.leaf)] ::
              content.map Tpl.leaf))
        | none =>
          match toTextS fuel s t with
          | none => none
          | some txt =>
            some (tplParent "root"
              (tplParent "paragraph" [tplParent "strong" [tplText txt]] ::
                content.map Tpl.leaf))
    | none => some (tplParent "root" (content.map Tpl.leaf))

def transformGridS (c : NodeCell) : Tpl :=
  tplParent "root" ((c.children.getD []).map Tpl.leaf)

def transformDetailsS (fuel : Nat) (s : Store) (c : NodeCell) : Option Tpl :=
  match findByTyS s "summary" (c.children.getD []) with
  | none => none
  | some tA =>
  match toTextOptS fuel s tA with
  | none => none
  | some tText =>
  match filterCellsS s (fun ch => ch.ty ≠ "summary") (c.children.getD []) with
  | none => none
  | some content =>
    let titleText := match tText with
      | some t => t
      | none => "Details"
    some (tplParent "blockquote"
      (tplParent "paragraph" [tplParent "strong" [tplText titleText]] ::
        content.map Tpl.leaf))

def transformAsideS (s : Store) (c : NodeCell) : Option Tpl :=
  match findByTyS s "admonitionTitle" (c.children.getD []) with
  | none => none
  | some tA =>
  match filterCellsS s (fun ch => ch.ty ≠ "admonitionTitle") (c.children.getD []) with
  | none => none
  | some content =>
    match tA with
    | some t =>
      match s.get t with
      | none => none
      | some tc =>
        some (tplParent "blockquote"
          (tplParent "paragraph" [tplParent "strong" ((tc.children.getD []).map Tpl.leaf)] ::
            content.map Tpl.leaf))
    | none => some (tplParent "blockquote" (content.map Tpl.leaf))

def transformCodeBlockS (c : NodeCell) : Tpl :=
  .node { blankC "code" with lang := c.lang, value := some (c.value.getD "") } none

def transformImageS (c : NodeCell) : Tpl :=
  .node { blankC "image" with
    url := some ((c.url.or c.urlSource).getD ""),
    alt := some (c.alt.getD ""), title := c.title } none

def transformMystDirectiveS (c : NodeCell) : Option Tpl :=
  if truthyLenA c.children then some (tplParent "root" ((c.children.getD []).map Tpl.leaf))
  else if truthyStr c.value then
    some (.node { blankC "code" with lang := some (c.lang.getD ""), value := c.value } none)
  else none

def transformMystRoleS (c : NodeCell) : Tpl :=
  if truthyLenA c.children then tplParent "root" ((c.children.getD []).map Tpl.leaf)
  else tplText (c.value.getD "")

/-- `transformNode` at the store level.  Outer `none` is a model
failure (dangling reference / fuel); inner `none` is the JavaScript
`null` (drop the node). -/
def transformNodeS (fuel : Nat) (s : Store) (k : Addr) (d : Bool) : Option (Option Tpl) :=
  match s.get k with
  | none => none
  | some c =>
    match c.ty with
    | "admonition" => (transformAdmonitionS fuel s c).map some
    | "math" => some (some (transformMathBlockS c))
    | "inlineMath" => some (some (transformInlineMathS c))
    | "container" =>
      if c.kind = some "figure" then (transformFigureS fuel s k).map some
      else if c.kind = some "table" then (transformTableContainerS fuel s k).map some
      else if c.kind = some "code" then
        match selectS fuel s "code" k with
        | none => none
        | some (some codeA) =>
          match s.get codeA with
          | none => none
          | some cc => some (some (transformCodeBlockS cc))
        | some none => some (some (.leaf k))
      else some (some (.leaf k))
    | "exercise" => (transformExerciseS fuel s c).map some
    | "solution" => if d then some none else (transformSolutionS fuel s c).map some
    | "proof" => (transformProofS fuel s c).map some
    | "tabSet" => (transformTabSetS s c).map some
    | "card" => (transformCardS fuel s c).map some
    | "grid" => some (some (transformGridS c))
    | "details" => (transformDetailsS fuel s c).map some
    | "aside" => (transformAsideS s c).map some
    | "include" =>
      if truthyLenA c.children then
        some (some (tplParent "root" ((c.children.getD []).map Tpl.leaf)))
      else some none
    | "mystDirective" => some (transformMystDirectiveS c)
    | "mystRole" => some (some (transformMystRoleS c))
    | "mystTarget" => some none
    | "comment" => some none
    | "code" => some (some (transformCodeBlockS c))
    | "image" => some (some (transformImageS c))
    | _ => some (some (.leaf k))

end Myst

namespace Myst

/-- The label-stripping loop: `delete child.identifier; delete
child.label` on each of the new children (in-place writes). -/
def stripS : Store → List Addr → Option Store
  | s, [] => some s
  | s, k :: ks =>
    match s.get k with
    | none => none
    | some c => stripS (s.set k { c with identifier := none, label := none }) ks

/-! `transformToCommonMark` at the store level (`tfS`): recurse into
the children, reassign `tree.children` with the mapped array (same
references), rebuild it from the per-child transforms with root
wrappers flattened (`emitS`), reassign again, then strip
label/identifier from the final children in place. -/

mutual
def tfS : Nat → Bool → Store → Addr → Option Store
  | 0, _, _, _ => none
  | fuel + 1, d, s, a =>
    match s.get a with
    | none => none
    | some c =>
      match c.children with
      | none => some s
      | some kids =>
        match tfSL fuel d s kids with
        | none => none
        | some s1 =>
          match s1.get a with
          | none => none
          | some c1 =>
            let s2 := s1.set a { c1 with children := some kids }
            match emitS fuel d s2 kids with
            | none => none
            | some (s3, newKids) =>
              match s3.get a with
              | none => none
              | some c3 => stripS (s3.set a { c3 with children := some newKids }) newKids
def tfSL : Nat → Bool → Store → List Addr → Option Store
  | 0, _, _, _ => none
  | _ + 1, _, s, [] => some s
  | fuel + 1, d, s, k :: ks =>
    match tfS fuel d s k with
    | none => none
    | some s1 => tfSL fuel d s1 ks
def emitS : Nat → Bool → Store → List Addr → Option (Store × List Addr)
  | 0, _, _, _ => none
  | _ + 1, _, s, [] => some (s, [])
  | fuel + 1, d, s, k :: ks =>
    match transformNodeS fuel s k d with
    | none => none
    | some none => emitS fuel d s ks
    | some (some tpl) =>
      match allocTpl s tpl with
      | (s1, m) =>
        match s1.get m with
        | none => none
        | some mc =>
          match emitS fuel d s1 ks with
          | none => none
          | some (s2, rest) =>
            some (s2, (if decide (mc.ty = "root") && mc.children.isSome then
              mc.children.getD [] else [m]) ++ rest)
end

/-- Build the markdown cell subtree (`{ type: 'root', children:
[block] }`), and under `markdown = 'commonmark'` deep-copy it and run
the in-place degrader on the copy only. -/
def markdownBlockTreeS (fuel : Nat) (copts : Option CommonMarkOptions)
    (commonmark : Bool) (s : Store) (blockA : Addr) : Option (Store × Addr) :=
  let p := Store.alloc s { blankC "root" with children := some [blockA] }
  if commonmark then
    match clone fuel p.1 p.2 with
    | none => none
    | some (s2, copyA) =>
      match tfS fuel ((copts.bind CommonMarkOptions.dropSolutions).getD false) s2 copyA with
      | none => none
      | some s3 => some (s3, copyA)
  else some p

/-- One iteration of the `writeIpynb` cell-assembly map at the store
level; `none` models the TypeError paths (cf. `cellOfBlock`). -/
def cellOfBlockS (writeMd : Node → String) (fuel : Nat) (markdownFormat : String)
    (options : Option IpynbOptions) (s : Store) (blockA : Addr) :
    Option (Store × NbCell) :=
  match s.get blockA with
  | none => none
  | some bc =>
    if bc.ty = "block" ∧ bc.kind = some "notebook-code" then
      match selectS fuel s "code" blockA with
      | none => none
      | some none => none
      | some (some codeA) =>
        match s.get codeA with
        | none => none
        | some cc =>
          match cc.value with
          | none => none
          | some v => some (s, ⟨"code", sourceToStringList v, none⟩)
    else
      match markdownBlockTreeS fuel (options.bind IpynbOptions.commonmark)
          (markdownFormat = "commonmark") s blockA with
      | none => none
      | some (s1, treeA) =>
        match readTree fuel s1 treeA with
        | none => none
        | some tree =>
          let cleanMd := stripBlockMarkers (writeMd tree)
          if (options.bind IpynbOptions.images) = some "attachment" ∧
              (options.bind IpynbOptions.imageData).isSome then
            let r := embedImagesAsAttachments cleanMd
              ((options.bind IpynbOptions.imageData).getD [])
            some (s1, ⟨"markdown", sourceToStringList r.md, r.attachments⟩)
          else some (s1, ⟨"markdown", sourceToStringList cleanMd, none⟩)

/-- The cell-assembly map over all top-level blocks. -/
def cellsOfBlocksS (writeMd : Node → String) (fuel : Nat) (markdownFormat : String)
    (options : Option IpynbOptions) : Store → List Addr → Option (Store × List NbCell)
  | s, [] => some (s, [])
  | s, b :: bs =>
    match cellOfBlockS writeMd fuel markdownFormat options s b with
    | none => none
    | some (s1, cell) =>
      match cellsOfBlocksS writeMd fuel markdownFormat options s1 bs with
      | none => none
      | some (s2, cells) => some (s2, cell :: cells)

/-! The gated-code-cell lift at the store level.  These functions only
read existing cells and allocate fresh wrapper objects (`{ ...node,
children }` spreads and `{ type: 'block', children }` literals); they
never assign to an existing node. -/

def isCodeCellBlockC (c : NodeCell) : Bool :=
  c.ty = "block" && c.kind = some "notebook-code"

def anyCodeCellS (s : Store) : List Addr → Option Bool
  | [] => some false
  | k :: ks =>
    match s.get k with
    | none => none
    | some c => if isCodeCellBlockC c then some true else anyCodeCellS s ks

def isGatedS (s : Store) (opts : Option CommonMarkOptions) (k : Addr) : Option Bool :=
  match s.get k with
  | none => none
  | some c =>
    if c.ty ≠ "exercise" ∧ c.ty ≠ "solution" then some false
    else if c.ty = "solution" ∧ (opts.bind CommonMarkOptions.dropSolutions).getD false then
      some false
    else
      match c.children with
      | some kids => anyCodeCellS s kids
      | none => some false

def flushMarkdownS (s : Store) (nodeCell : NodeCell) (wrapInBlock : Bool)
    (content : List Addr) (isFirstGroup : Bool) : Store × List Addr :=
  if content.isEmpty then (s, [])
  else if isFirstGroup then
    let p := s.alloc { nodeCell with children := some content }
    if wrapInBlock then
      let q := p.1.alloc { blankC "block" with children := some [p.2] }
      (q.1, [q.2])
    else (p.1, [p.2])
  else if wrapInBlock then
    let p := s.alloc { blankC "block" with children := some content }
    (p.1, [p.2])
  else (s, content)

def liftGoESS (nodeCell : NodeCell) (wrapInBlock : Bool) :
    Store → List Addr → List Addr → Bool → Option (Store × List Addr)
  | s, [], mdContent, isFirstGroup =>
    some (flushMarkdownS s nodeCell wrapInBlock mdContent isFirstGroup)
  | s, g :: rest, mdContent, isFirstGroup =>
    match s.get g with
    | none => none
    | some gc =>
      if isCodeCellBlockC gc then
        match flushMarkdownS s nodeCell wrapInBlock mdContent isFirstGroup with
        | (s1, out1) =>
          match liftGoESS nodeCell wrapInBlock s1 rest []
              (isFirstGroup && mdContent.isEmpty) with
          | none => none
          | some (s2, out2) => some (s2, out1 ++ g :: out2)
      else liftGoESS nodeCell wrapInBlock s rest (mdContent ++ [g]) isFirstGroup

def liftFromExerciseSolutionS (s : Store) (k : Addr) (wrapInBlock : Bool) :
    Option (Store × List Addr) :=
  match s.get k with
  | none => none
  | some c => liftGoESS c wrapInBlock s (c.children.getD []) [] true

def flushPendingS (s : Store) (pending : List Addr) : Store × List Addr :=
  if pending.isEmpty then (s, [])
  else
    let p := s.alloc { blankC "block" with children := some pending }
    (p.1, [p.2])

def splitGoS (opts : Option CommonMarkOptions) :
    Store → List Addr → List Addr → Option (Store × List Addr)
  | s, [], pending => some (flushPendingS s pending)
  | s, child :: rest, pending =>
    match isGatedS s opts child with
    | none => none
    | some true =>
      match flushPendingS s pending with
      | (s1, out1) =>
        match liftFromExerciseSolutionS s1 child true with
        | none => none
        | some (s2, out2) =>
          match splitGoS opts s2 rest [] with
          | none => none
          | some (s3, out3) => some (s3, out1 ++ out2 ++ out3)
    | some false => splitGoS opts s rest (pending ++ [child])

def anyGatedS (s : Store) (opts : Option CommonMarkOptions) : List Addr → Option Bool
  | [] => some false
  | k :: ks =>
    match isGatedS s opts k with
    | none => none
    | some true => some true
    | some false => anyGatedS s opts ks

def liftPiecesS (opts : Option CommonMarkOptions) :
    Store → List Addr → Option (Store × List Addr × Bool)
  | s, [] => some (s, [], false)
  | s, child :: rest =>
    match isGatedS s opts child with
    | none => none
    | some true =>
      match liftFromExerciseSolutionS s child false with
      | none => none
      | some (s1, out) =>
        match liftPiecesS opts s1 rest with
        | none => none
        | some (s2, outs, _) => some (s2, out ++ outs, true)
    | some false =>
      match s.get child with
      | none => none
      | some cc =>
        match (if cc.ty = "block" then
            (anyGatedS s opts (cc.children.getD [])) else some false) with
        | none => none
        | some true =>
          match splitGoS opts s (cc.children.getD []) [] with
          | none => none
          | some (s1, out) =>
            match liftPiecesS opts s1 rest with
            | none => none
            | some (s2, outs, _) => some (s2, out ++ outs, true)
        | some false =>
          match liftPiecesS opts s rest with
          | none => none
          | some (s1, outs, m) => some (s1, child :: outs, m)

/-- `liftCodeCellsFromGatedNodes` at the store level: read-only except
for freshly allocated wrapper/block cells and (when anything was
lifted) a fresh root object `{ ...root, children: newChildren }`. -/
def liftRootS (s : Store) (rootA : Addr) (opts : Option CommonMarkOptions) :
    Option (Store × Addr) :=
  match s.get rootA with
  | none => none
  | some rc =>
    match rc.children with
    | none => none
    | some cs =>
      match liftPiecesS opts s cs with
      | none => none
      | some (s1, newChildren, modified) =>
        if modified then some (s1.alloc { rc with children := some newChildren })
        else some (s1, rootA)

/-- `writeIpynb` at the store level: lift, then assemble the cells
(each markdown cell degrading only a deep copy when
`markdown = 'commonmark'`), then attach metadata. -/
def writeIpynbS (writeMd : Node → String) (fuel : Nat) (s : Store) (rootA : Addr)
    (frontmatter : Option PageFrontmatter) (options : Option IpynbOptions) :
    Option (Store × Ipynb) :=
  let markdownFormat := (options.bind IpynbOptions.markdown).getD "myst"
  match liftRootS s rootA (options.bind IpynbOptions.commonmark) with
  | none => none
  | some (s1, liftedA) =>
    match s1.get liftedA with
    | none => none
    | some lc =>
      match lc.children with
      | none => none
      | some blocks =>
        match cellsOfBlocksS writeMd fuel markdownFormat options s1 blocks with
        | none => none
        | some (s2, cells0) =>
          let cells := cells0.filter keepCell
          let languageName :=
            (((frontmatter.bind PageFrontmatter.kernelspec).bind Kernelspec.language).or
              ((frontmatter.bind PageFrontmatter.kernelspec).bind Kernelspec.name)).getD
              "python"
          let ks :=
            match frontmatter.bind PageFrontmatter.kernelspec with
            | some k => some (⟨k.name, k.display_name, languageName⟩ : NbKernelspec)
            | none => none
          some (s2, ⟨cells, languageName, ks, 4, 2⟩)

end Myst

namespace Myst

/-! Heap invariants for the frame proof: `Store.WF` (every allocated
address is below `next`), `Preserves n0` (no cell below `n0` was
touched, and `next` only grows), and `ClosedFrom n0` (cells at or
above `n0` only reference addresses at or above `n0`). -/

def Store.WF (s : Store) : Prop := ∀ p ∈ s.cells, p.1 < s.next

def Preserves (n0 : Nat) (s sN : Store) : Prop :=
  s.next ≤ sN.next ∧ ∀ a, a < n0 → sN.get a = s.get a

def ClosedFrom (n0 : Nat) (s : Store) : Prop :=
  ∀ a c, n0 ≤ a → s.get a = some c → ∀ k ∈ c.children.getD [], n0 ≤ k

structure Inv (n0 : Nat) (s : Store) : Prop where
  wf : Store.WF s
  hn : n0 ≤ s.next
  closed : ClosedFrom n0 s

theorem preserves_refl (n0 : Nat) (s : Store) : Preserves n0 s s :=
  ⟨Nat.le_refl _, fun _ _ => rfl⟩

theorem preserves_trans {n0 : Nat} {s t u : Store}
    (h1 : Preserves n0 s t) (h2 : Preserves n0 t u) : Preserves n0 s u :=
  ⟨Nat.le_trans h1.1 h2.1, fun a ha => (h2.2 a ha).trans (h1.2 a ha)⟩

theorem preserves_mono {n0 n1 : Nat} {s t : Store} (h : n0 ≤ n1)
    (hp : Preserves n1 s t) : Preserves n0 s t :=
  ⟨hp.1, fun a ha => hp.2 a (Nat.lt_of_lt_of_le ha h)⟩

theorem get_set_self (s : Store) (a : Addr) (c : NodeCell) :
    (s.set a c).get a = some c := by
  simp [Store.get, Store.set, List.lookup]

theorem get_set_ne (s : Store) (a b : Addr) (c : NodeCell) (h : b ≠ a) :
    (s.set a c).get b = s.get b := by
  simp only [Store.get, Store.set, List.lookup]
  rw [show (b == a) = false from by simpa using h]

theorem next_set (s : Store) (a : Addr) (c : NodeCell) : (s.set a c).next = s.next := rfl

theorem get_alloc_new (s : Store) (c : NodeCell) :
    (s.alloc c).1.get (s.alloc c).2 = some c := by
  simp [Store.get, Store.alloc, List.lookup]

theorem get_alloc_ne (s : Store) (b : Addr) (c : NodeCell) (h : b ≠ s.next) :
    (s.alloc c).1.get b = s.get b := by
  simp only [Store.get, Store.alloc, List.lookup]
  rw [show (b == s.next) = false from by simpa using h]

theorem next_alloc (s : Store) (c : NodeCell) : (s.alloc c).1.next = s.next + 1 := rfl

theorem lookup_mem {a : Addr} {c : NodeCell} :
    ∀ {l : List (Addr × NodeCell)}, List.lookup a l = some c → (a, c) ∈ l
  | [], h => by
    rw [show List.lookup a ([] : List (Addr × NodeCell)) = none from rfl] at h
    exact absurd h (by simp)
  | (k, v) :: t, h => by
    rw [List.lookup.eq_def] at h
    dsimp only at h
    by_cases hk : a = k
    · subst hk
      simp only [beq_self_eq_true] at h
      rw [Option.some_inj] at h
      subst h
      exact List.mem_cons_self _ _
    · rw [show ((a == k) = false) from by simpa using hk] at h
      exact List.mem_cons_of_mem _ (lookup_mem h)

theorem wf_get_lt {s : Store} (hwf : Store.WF s) {a : Addr} {c : NodeCell}
    (h : s.get a = some c) : a < s.next :=
  hwf _ (lookup_mem h)

theorem wf_set {s : Store} (hwf : Store.WF s) {a : Addr} (c : NodeCell)
    (ha : a < s.next) : Store.WF (s.set a c) := by
  intro p hp
  rw [Store.set] at hp
  rw [List.mem_cons] at hp
  rcases hp with rfl | hp
  · exact ha
  · exact hwf p hp

theorem wf_alloc {s : Store} (hwf : Store.WF s) (c : NodeCell) :
    Store.WF (s.alloc c).1 := by
  intro p hp
  rw [Store.alloc] at hp
  rw [List.mem_cons] at hp
  rcases hp with rfl | hp
  · exact Nat.lt_succ_self _
  · exact Nat.lt_succ_of_lt (hwf p hp)

theorem preserves_set {n0 : Nat} (s : Store) {a : Addr} (c : NodeCell) (h : n0 ≤ a) :
    Preserves n0 s (s.set a c) :=
  ⟨Nat.le_of_eq (next_set s a c).symm, fun b hb =>
    get_set_ne s a b c (Nat.ne_of_lt (Nat.lt_of_lt_of_le hb h))⟩

theorem preserves_alloc {n0 : Nat} (s : Store) (c : NodeCell) (h : n0 ≤ s.next) :
    Preserves n0 s (s.alloc c).1 :=
  ⟨by rw [next_alloc]; exact Nat.le_succ _, fun b hb =>
    get_alloc_ne s b c (Nat.ne_of_lt (Nat.lt_of_lt_of_le hb h))⟩

theorem closed_set {n0 : Nat} {s : Store} (hc : ClosedFrom n0 s) {a : Addr}
    {c : NodeCell} (hk : ∀ k ∈ c.children.getD [], n0 ≤ k) :
    ClosedFrom n0 (s.set a c) := by
  intro b cb hb hget
  by_cases hba : b = a
  · subst hba
    rw [get_set_self, Option.some_inj] at hget
    subst hget
    exact hk
  · rw [get_set_ne s a b c hba] at hget
    exact hc b cb hb hget

theorem closed_alloc {n0 : Nat} {s : Store} (hc : ClosedFrom n0 s) {c : NodeCell}
    (hk : ∀ k ∈ c.children.getD [], n0 ≤ k) :
    ClosedFrom n0 (s.alloc c).1 := by
  intro b cb hb hget
  by_cases hba : b = s.next
  · subst hba
    have h2 : (s.alloc c).1.get s.next = some c := get_alloc_new s c
    rw [h2, Option.some_inj] at hget
    subst hget
    exact hk
  · rw [get_alloc_ne s b c hba] at hget
    exact hc b cb hb hget

theorem closed_of_wf {s : Store} (hwf : Store.WF s) : ClosedFrom s.next s := by
  intro a c ha hget
  exact absurd (wf_get_lt hwf hget) (Nat.not_lt.mpr ha)

theorem inv_init {s : Store} (hwf : Store.WF s) : Inv s.next s :=
  ⟨hwf, Nat.le_refl _, closed_of_wf hwf⟩

theorem inv_set {n0 : Nat} {s : Store} (I : Inv n0 s) {a : Addr} {c0 c : NodeCell}
    (hget : s.get a = some c0) (hk : ∀ k ∈ c.children.getD [], n0 ≤ k) :
    Inv n0 (s.set a c) :=
  ⟨wf_set I.wf c (wf_get_lt I.wf hget), by rw [next_set]; exact I.hn,
    closed_set I.closed hk⟩

theorem inv_alloc {n0 : Nat} {s : Store} (I : Inv n0 s) {c : NodeCell}
    (hk : ∀ k ∈ c.children.getD [], n0 ≤ k) :
    Inv n0 (s.alloc c).1 :=
  ⟨wf_alloc I.wf c, by rw [next_alloc]; exact Nat.le_succ_of_le I.hn,
    closed_alloc I.closed hk⟩

end Myst

namespace Myst

/-! `TplGe n0 t`: every reused reference (`leaf`) in a template points
at or above `n0`.  Templates built by the store-level transforms from a
cell inside the region satisfy this, so materializing them keeps the
region closed. -/

mutual
def TplGe : Nat → Tpl → Prop
  | n0, .leaf a => n0 ≤ a
  | _, .node _ none => True
  | n0, .node _ (some ts) => TplGeL n0 ts
def TplGeL : Nat → List Tpl → Prop
  | _, [] => True
  | n0, t :: ts => TplGe n0 t ∧ TplGeL n0 ts
end

theorem TplGe_leaf (n0 : Nat) (a : Addr) : TplGe n0 (.leaf a) = (n0 ≤ a) := rfl

theorem TplGe_node_none (n0 : Nat) (c : NodeCell) : TplGe n0 (.node c none) = True := rfl

theorem TplGe_node_some (n0 : Nat) (c : NodeCell) (ts : List Tpl) :
    TplGe n0 (.node c (some ts)) = TplGeL n0 ts := rfl

theorem TplGeL_nil (n0 : Nat) : TplGeL n0 [] = True := rfl

theorem TplGeL_cons (n0 : Nat) (t : Tpl) (ts : List Tpl) :
    TplGeL n0 (t :: ts) = (TplGe n0 t ∧ TplGeL n0 ts) := rfl

theorem TplGeL_append {n0 : Nat} : ∀ {ts us : List Tpl},
    TplGeL n0 ts → TplGeL n0 us → TplGeL n0 (ts ++ us)
  | [], _, _, hu => hu
  | t :: ts, _, ht, hu => by
    rw [List.cons_append, TplGeL_cons]
    exact ⟨ht.1, TplGeL_append ht.2 hu⟩

theorem TplGeL_map_leaf {n0 : Nat} : ∀ {ks : List Addr},
    (∀ k ∈ ks, n0 ≤ k) → TplGeL n0 (ks.map Tpl.leaf)
  | [], _ => trivial
  | k :: ks, h => by
    rw [List.map_cons, TplGeL_cons]
    exact ⟨h k (by simp), TplGeL_map_leaf (fun x hx => h x (by simp [hx]))⟩

theorem TplGe_tplText (n0 : Nat) (v : String) : TplGe n0 (tplText v) := trivial

theorem TplGe_tplParent {n0 : Nat} (ty : String) {ts : List Tpl}
    (h : TplGeL n0 ts) : TplGe n0 (tplParent ty ts) := h

/-! Materializing a region template only allocates fresh cells and
keeps all three invariants. -/

mutual
theorem allocTpl_spec (n0 : Nat) : ∀ (t : Tpl) (s : Store), Inv n0 s → TplGe n0 t →
    Inv n0 (allocTpl s t).1 ∧ Preserves n0 s (allocTpl s t).1 ∧ n0 ≤ (allocTpl s t).2
  | .leaf a, s, I, hg => ⟨I, preserves_refl n0 s, hg⟩
  | .node c none, s, I, _ => by
    refine ⟨inv_alloc I ?_, preserves_alloc s _ I.hn, ?_⟩
    · intro k hk
      rw [show ({ c with children := none } : NodeCell).children = none from rfl] at hk
      simp at hk
    · exact I.hn
  | .node c (some ts), s, I, hg => by
    have hL := allocTplL_spec n0 ts s I hg
    show Inv n0 ((allocTplL s ts).1.alloc _).1 ∧ _ ∧ n0 ≤ ((allocTplL s ts).1.alloc _).2
    refine ⟨inv_alloc hL.1 ?_, preserves_trans hL.2.1 (preserves_alloc _ _ hL.1.hn), hL.1.hn⟩
    intro k hk
    simp only [Option.getD_some] at hk
    exact hL.2.2 k hk
theorem allocTplL_spec (n0 : Nat) : ∀ (ts : List Tpl) (s : Store), Inv n0 s →
    TplGeL n0 ts →
    Inv n0 (allocTplL s ts).1 ∧ Preserves n0 s (allocTplL s ts).1 ∧
      ∀ k ∈ (allocTplL s ts).2, n0 ≤ k
  | [], s, I, _ => ⟨I, preserves_refl n0 s, fun k hk => by
      rw [show (allocTplL s []).2 = [] from rfl] at hk
      simp at hk⟩
  | t :: ts, s, I, hg => by
    have h1 := allocTpl_spec n0 t s I hg.1
    have h2 := allocTplL_spec n0 ts (allocTpl s t).1 h1.1 hg.2
    show Inv n0 (allocTplL (allocTpl s t).1 ts).1 ∧ _ ∧
      ∀ k ∈ (allocTpl s t).2 :: (allocTplL (allocTpl s t).1 ts).2, n0 ≤ k
    refine ⟨h2.1, preserves_trans h1.2.1 h2.2.1, ?_⟩
    intro k hk
    rw [List.mem_cons] at hk
    rcases hk with rfl | hk
    · exact h1.2.2
    · exact h2.2.2 k hk
end

/-! Reads inside the region stay inside the region. -/

theorem findByTyS_ge {n0 : Nat} {s : Store} (ty : String) :
    ∀ (ks : List Addr) (t : Addr), (∀ k ∈ ks, n0 ≤ k) →
      findByTyS s ty ks = some (some t) → n0 ≤ t
  | [], t, _, h => by
    rw [findByTyS] at h
    simp at h
  | k :: ks, t, hks, h => by
    rw [findByTyS] at h
    split at h
    · exact absurd h (by simp)
    · split at h
      · simp only [Option.some_inj] at h
        subst h
        exact hks _ (List.mem_cons_self _ _)
      · exact findByTyS_ge ty ks t (fun x hx => hks x (by simp [hx])) h

theorem filterCellsS_ge {n0 : Nat} {s : Store} (p : NodeCell → Bool) :
    ∀ (ks r : List Addr), (∀ k ∈ ks, n0 ≤ k) →
      filterCellsS s p ks = some r → ∀ k ∈ r, n0 ≤ k
  | [], r, _, h => by
    rw [filterCellsS] at h
    simp only [Option.some_inj] at h
    subst h
    intro k hk
    simp at hk
  | k :: ks, r, hks, h => by
    rw [filterCellsS] at h
    split at h
    · exact absurd h (by simp)
    · split at h
      · exact absurd h (by simp)
      · rename_i r0 hr0
        simp only [Option.some_inj] at h
        subst h
        intro x hx
        split at hx
        · rw [List.mem_cons] at hx
          rcases hx with rfl | hx
          · exact hks x (by simp)
          · exact filterCellsS_ge p ks r0 (fun y hy => hks y (by simp [hy])) hr0 x hx
        · exact filterCellsS_ge p ks r0 (fun y hy => hks y (by simp [hy])) hr0 x hx

theorem selectS_succ (fuel : Nat) (s : Store) (ty : String) (a : Addr) :
    selectS (fuel + 1) s ty a =
      (match s.get a with
       | none => none
       | some c =>
         if c.ty = ty then some (some a)
         else
           match c.children with
           | some kids => selectSL fuel s ty kids
           | none => some none) := rfl

theorem selectSL_succ_cons (fuel : Nat) (s : Store) (ty : String) (k : Addr)
    (ks : List Addr) :
    selectSL (fuel + 1) s ty (k :: ks) =
      (match selectS fuel s ty k with
       | none => none
       | some (some m) => some (some m)
       | some none => selectSL fuel s ty ks) := rfl

mutual
theorem selectS_ge {n0 : Nat} : ∀ (fuel : Nat) (s : Store) (ty : String) (a m : Addr),
    Inv n0 s → n0 ≤ a → selectS fuel s ty a = some (some m) → n0 ≤ m
  | 0, s, ty, a, m => by
    intro I ha h
    rw [show selectS 0 s ty a = none from rfl] at h
    exact absurd h (by simp)
  | fuel + 1, s, ty, a, m => by
    intro I ha h
    rw [selectS_succ] at h
    split at h
    · exact absurd h (by simp)
    · rename_i c hc
      split at h
      · simp only [Option.some_inj] at h
        subst h
        exact ha
      · split at h
        · rename_i kids hkids
          exact selectSL_ge fuel s ty kids m I
            (by
              have := I.closed a c ha hc
              rw [hkids] at this
              simpa using this) h
        · exact absurd h (by simp)
theorem selectSL_ge {n0 : Nat} : ∀ (fuel : Nat) (s : Store) (ty : String)
    (ks : List Addr) (m : Addr), Inv n0 s → (∀ k ∈ ks, n0 ≤ k) →
    selectSL fuel s ty ks = some (some m) → n0 ≤ m
  | 0, s, ty, ks, m => by
    intro I hks h
    rw [show selectSL 0 s ty ks = none from rfl] at h
    exact absurd h (by simp)
  | _ + 1, s, ty, [], m => by
    intro I hks h
    rw [show selectSL (_ + 1) s ty [] = some none from rfl] at h
    simp at h
  | fuel + 1, s, ty, k :: ks, m => by
    intro I hks h
    rw [selectSL_succ_cons] at h
    split at h
    · exact absurd h (by simp)
    · rename_i m0 hm0
      simp only [Option.some_inj] at h
      subst h
      exact selectS_ge fuel s ty k m0 I (hks k (by simp)) hm0
    · exact selectSL_ge fuel s ty ks m I (fun x hx => hks x (by simp [hx])) h
end

theorem tabSetKidsS_ge {n0 : Nat} {s : Store} :
    ∀ (ks : List Addr) (ts : List Tpl), Inv n0 s → (∀ k ∈ ks, n0 ≤ k) →
      tabSetKidsS s ks = some ts → TplGeL n0 ts
  | [], ts, _, _, h => by
    rw [tabSetKidsS] at h
    simp only [Option.some_inj] at h
    subst h
    trivial
  | k :: ks, ts, I, hks, h => by
    rw [tabSetKidsS] at h
    split at h
    · exact absurd h (by simp)
    · rename_i tc htc
      split at h
      · exact absurd h (by simp)
      · rename_i rest hrest
        simp only [Option.some_inj] at h
        subst h
        have hrestGe := tabSetKidsS_ge ks rest I (fun x hx => hks x (by simp [hx])) hrest
        refine TplGeL_append ?_ hrestGe
        split
        · refine TplGeL_append ?_ ?_
          · split
            · exact ⟨TplGe_tplParent _ ⟨TplGe_tplParent _ ⟨TplGe_tplText _ _, trivial⟩,
                trivial⟩, trivial⟩
            · trivial
          · refine TplGeL_map_leaf ?_
            have := I.closed k tc (hks k (by simp)) htc
            exact this
        · trivial

end Myst

namespace Myst

/-! Every template a store-level transform builds from a region cell
has its reused references inside the region. -/

theorem tplHeader_ge (n0 : Nat) (t : String) :
    TplGe n0 (tplParent "paragraph" [tplParent "strong" [tplText t]]) :=
  TplGe_tplParent _ ⟨TplGe_tplParent _ ⟨TplGe_tplText n0 t, trivial⟩, trivial⟩

theorem transformAdmonitionS_ge {n0 fuel : Nat} {s : Store} {c : NodeCell} {tpl : Tpl}
    (hkids : ∀ x ∈ c.children.getD [], n0 ≤ x)
    (h : transformAdmonitionS fuel s c = some tpl) : TplGe n0 tpl := by
  rw [transformAdmonitionS] at h
  split at h
  · exact absurd h (by simp)
  · split at h
    · exact absurd h (by simp)
    · split at h
      · exact absurd h (by simp)
      · rename_i content hcontent
        dsimp only at h
        simp only [Option.some_inj] at h
        subst h
        refine TplGe_tplParent _ ?_
        rw [TplGeL_cons]
        exact ⟨tplHeader_ge n0 _,
          TplGeL_map_leaf (filterCellsS_ge _ _ _ hkids hcontent)⟩

theorem transformExerciseS_ge {n0 fuel : Nat} {s : Store} {c : NodeCell} {tpl : Tpl}
    (hkids : ∀ x ∈ c.children.getD [], n0 ≤ x)
    (h : transformExerciseS fuel s c = some tpl) : TplGe n0 tpl := by
  rw [transformExerciseS] at h
  split at h
  · exact absurd h (by simp)
  · split at h
    · exact absurd h (by simp)
    · split at h
      · exact absurd h (by simp)
      · rename_i content hcontent
        dsimp only at h
        simp only [Option.some_inj] at h
        subst h
        refine TplGe_tplParent _ ?_
        rw [TplGeL_cons]
        exact ⟨tplHeader_ge n0 _,
          TplGeL_map_leaf (filterCellsS_ge _ _ _ hkids hcontent)⟩

theorem transformSolutionS_ge {n0 fuel : Nat} {s : Store} {c : NodeCell} {tpl : Tpl}
    (hkids : ∀ x ∈ c.children.getD [], n0 ≤ x)
    (h : transformSolutionS fuel s c = some tpl) : TplGe n0 tpl := by
  rw [transformSolutionS] at h
  split at h
  · exact absurd h (by simp)
  · split at h
    · exact absurd h (by simp)
    · split at h
      · exact absurd h (by simp)
      · rename_i content hcontent
        dsimp only at h
        simp only [Option.some_inj] at h
        subst h
        refine TplGe_tplParent _ ?_
        rw [TplGeL_cons]
        exact ⟨tplHeader_ge n0 _,
          TplGeL_map_leaf (filterCellsS_ge _ _ _ hkids hcontent)⟩

theorem transformProofS_ge {n0 fuel : Nat} {s : Store} {c : NodeCell} {tpl : Tpl}
    (hkids : ∀ x ∈ c.children.getD [], n0 ≤ x)
    (h : transformProofS fuel s c = some tpl) : TplGe n0 tpl := by
  rw [transformProofS] at h
  split at h
  · exact absurd h (by simp)
  · split at h
    · exact absurd h (by simp)
    · split at h
      · exact absurd h (by simp)
      · rename_i content hcontent
        dsimp only at h
        simp only [Option.some_inj] at h
        subst h
        refine TplGe_tplParent _ ?_
        rw [TplGeL_cons]
        exact ⟨tplHeader_ge n0 _,
          TplGeL_map_leaf (filterCellsS_ge _ _ _ hkids hcontent)⟩

theorem transformDetailsS_ge {n0 fuel : Nat} {s : Store} {c : NodeCell} {tpl : Tpl}
    (hkids : ∀ x ∈ c.children.getD [], n0 ≤ x)
    (h : transformDetailsS fuel s c = some tpl) : TplGe n0 tpl := by
  rw [transformDetailsS] at h
  split at h
  · exact absurd h (by simp)
  · split at h
    · exact absurd h (by simp)
    · split at h
      · exact absurd h (by simp)
      · rename_i content hcontent
        dsimp only at h
        simp only [Option.some_inj] at h
        subst h
        refine TplGe_tplParent _ ?_
        rw [TplGeL_cons]
        exact ⟨tplHeader_ge n0 _,
          TplGeL_map_leaf (filterCellsS_ge _ _ _ hkids hcontent)⟩

theorem transformAsideS_ge {n0 : Nat} {s : Store} {c : NodeCell} {tpl : Tpl}
    (I : Inv n0 s)
    (hkids : ∀ x ∈ c.children.getD [], n0 ≤ x)
    (h : transformAsideS s c = some tpl) : TplGe n0 tpl := by
  rw [transformAsideS] at h
  split at h
  · exact absurd h (by simp)
  · rename_i tA htA
    split at h
    · exact absurd h (by simp)
    · rename_i content hcontent
      have hcontGe : TplGeL n0 (List.map Tpl.leaf _) :=
        TplGeL_map_leaf (filterCellsS_ge _ _ _ hkids hcontent)
      split at h
      · rename_i t
        split at h
        · exact absurd h (by simp)
        · rename_i tc htc
          simp only [Option.some_inj] at h
          subst h
          refine TplGe_tplParent _ ?_
          rw [TplGeL_cons]
          refine ⟨TplGe_tplParent _ ⟨TplGe_tplParent _ (TplGeL_map_leaf ?_), trivial⟩,
            hcontGe⟩
          have ht : n0 ≤ t := findByTyS_ge _ _ _ hkids htA
          exact I.closed t tc ht htc
      · simp only [Option.some_inj] at h
        subst h
        exact TplGe_tplParent _ hcontGe

theorem transformCardS_ge {n0 fuel : Nat} {s : Store} {c : NodeCell} {tpl : Tpl}
    (I : Inv n0 s)
    (hkids : ∀ x ∈ c.children.getD [], n0 ≤ x)
    (h : transformCardS fuel s c = some tpl) : TplGe n0 tpl := by
  rw [transformCardS] at h
  split at h
  · exact absurd h (by simp)
  · rename_i tA htA
    split at h
    · exact absurd h (by simp)
    · rename_i content hcontent
      have hcontGe : TplGeL n0 (List.map Tpl.leaf _) :=
        TplGeL_map_leaf (filterCellsS_ge _ _ _ hkids hcontent)
      split at h
      · rename_i t
        split at h
        · exact absurd h (by simp)
        · rename_i tc htc
          have ht : n0 ≤ t := findByTyS_ge _ _ _ hkids htA
          split at h
          · rename_i cs hcs
            simp only [Option.some_inj] at h
            subst h
            refine TplGe_tplParent _ ?_
            rw [TplGeL_cons]
            refine ⟨TplGe_tplParent _ ⟨TplGe_tplParent _ (TplGeL_map_leaf ?_), trivial⟩,
              hcontGe⟩
            have := I.closed t tc ht htc
            rw [hcs] at this
            simpa using this
          · split at h
            · exact absurd h (by simp)
            · simp only [Option.some_inj] at h
              subst h
              refine TplGe_tplParent _ ?_
              rw [TplGeL_cons]
              exact ⟨TplGe_tplParent _ ⟨TplGe_tplParent _
                ⟨TplGe_tplText n0 _, trivial⟩, trivial⟩, hcontGe⟩
      · simp only [Option.some_inj] at h
        subst h
        exact TplGe_tplParent _ hcontGe

theorem transformFigureS_ge {n0 fuel : Nat} {s : Store} {a : Addr} {tpl : Tpl}
    (I : Inv n0 s) (ha : n0 ≤ a)
    (h : transformFigureS fuel s a = some tpl) : TplGe n0 tpl := by
  rw [transformFigureS] at h
  split at h
  · exact absurd h (by simp)
  · split at h
    · exact absurd h (by simp)
    · rename_i capA hcap
      split at h
      · exact absurd h (by simp)
      · rename_i legA hleg
        split at h
        · exact absurd h (by simp)
        · split at h
          · exact absurd h (by simp)
          · rename_i capC hcapC
            split at h
            · exact absurd h (by simp)
            · rename_i legC hlegC
              split at h
              · exact absurd h (by simp)
              · dsimp only at h
                simp only [Option.some_inj] at h
                subst h
                refine TplGe_tplParent _ ?_
                refine TplGeL_append ?_ ?_
                · rw [TplGeL_cons]
                  refine ⟨trivial, ?_⟩
                  split
                  · rename_i htrue
                    rcases capC with _ | cc
                    · simp [truthyLenA] at htrue
                    · rcases capA with _ | ca
                      · rw [getOptCell] at hcapC
                        simp at hcapC
                      · rw [getOptCell, Option.map_eq_some'] at hcapC
                        obtain ⟨cc0, hget, hcc0⟩ := hcapC
                        simp only [Option.some_inj] at hcc0
                        subst hcc0
                        have hca : n0 ≤ ca := selectS_ge fuel s "caption" a ca I ha hcap
                        exact ⟨TplGe_tplParent _ ⟨TplGe_tplParent _
                          (TplGeL_map_leaf (I.closed ca cc0 hca hget)), trivial⟩, trivial⟩
                  · trivial
                · split
                  · rename_i htrue
                    rcases legC with _ | lc
                    · simp [truthyLenA] at htrue
                    · rcases legA with _ | la
                      · rw [getOptCell] at hlegC
                        simp at hlegC
                      · rw [getOptCell, Option.map_eq_some'] at hlegC
                        obtain ⟨lc0, hget, hlc0⟩ := hlegC
                        simp only [Option.some_inj] at hlc0
                        subst hlc0
                        have hla : n0 ≤ la := selectS_ge fuel s "legend" a la I ha hleg
                        exact TplGeL_map_leaf (I.closed la lc0 hla hget)
                  · trivial

theorem transformTableContainerS_ge {n0 fuel : Nat} {s : Store} {a : Addr} {tpl : Tpl}
    (I : Inv n0 s) (ha : n0 ≤ a)
    (h : transformTableContainerS fuel s a = some tpl) : TplGe n0 tpl := by
  rw [transformTableContainerS] at h
  split at h
  · exact absurd h (by simp)
  · rename_i capA hcap
    split at h
    · exact absurd h (by simp)
    · rename_i tabA htab
      split at h
      · exact absurd h (by simp)
      · rename_i capC hcapC
        dsimp only at h
        simp only [Option.some_inj] at h
        subst h
        refine TplGe_tplParent _ ?_
        refine TplGeL_append ?_ ?_
        · split
          · rename_i htrue
            rcases capC with _ | cc
            · simp [truthyLenA] at htrue
            · rcases capA with _ | ca
              · rw [getOptCell] at hcapC
                simp at hcapC
              · rw [getOptCell, Option.map_eq_some'] at hcapC
                obtain ⟨cc0, hget, hcc0⟩ := hcapC
                simp only [Option.some_inj] at hcc0
                subst hcc0
                have hca : n0 ≤ ca := selectS_ge fuel s "caption" a ca I ha hcap
                exact ⟨TplGe_tplParent _ ⟨TplGe_tplParent _
                  (TplGeL_map_leaf (I.closed ca cc0 hca hget)), trivial⟩, trivial⟩
          · trivial
        · split
          · rename_i t
            exact ⟨selectS_ge fuel s "table" a t I ha htab, trivial⟩
          · trivial

theorem transformTabSetS_ge {n0 : Nat} {s : Store} {c : NodeCell} {tpl : Tpl}
    (I : Inv n0 s)
    (hkids : ∀ x ∈ c.children.getD [], n0 ≤ x)
    (h : transformTabSetS s c = some tpl) : TplGe n0 tpl := by
  rw [transformTabSetS, Option.map_eq_some'] at h
  obtain ⟨kids, hkids2, htpl⟩ := h
  subst htpl
  exact TplGe_tplParent _ (tabSetKidsS_ge _ _ I hkids hkids2)

theorem transformMystDirectiveS_ge {n0 : Nat} {c : NodeCell} {tpl : Tpl}
    (hkids : ∀ x ∈ c.children.getD [], n0 ≤ x)
    (h : transformMystDirectiveS c = some tpl) : TplGe n0 tpl := by
  rw [transformMystDirectiveS] at h
  split at h
  · simp only [Option.some_inj] at h
    subst h
    exact TplGe_tplParent _ (TplGeL_map_leaf hkids)
  · split at h
    · simp only [Option.some_inj] at h
      subst h
      trivial
    · exact absurd h (by simp)

theorem transformMystRoleS_ge {n0 : Nat} {c : NodeCell}
    (hkids : ∀ x ∈ c.children.getD [], n0 ≤ x) :
    TplGe n0 (transformMystRoleS c) := by
  rw [transformMystRoleS]
  split
  · exact TplGe_tplParent _ (TplGeL_map_leaf hkids)
  · exact TplGe_tplText n0 _

end Myst

namespace Myst

/-- Any template `transformNode` produces for a region cell has all its
reused references inside the region. -/
theorem transformNodeS_ge {n0 : Nat} {fuel : Nat} {s : Store} {k : Addr} {d : Bool}
    {tpl : Tpl} (I : Inv n0 s) (hk : n0 ≤ k)
    (h : transformNodeS fuel s k d = some (some tpl)) : TplGe n0 tpl := by
  rw [transformNodeS] at h
  split at h
  · exact absurd h (by simp)
  · rename_i c hc
    have hkids : ∀ x ∈ c.children.getD [], n0 ≤ x := I.closed k c hk hc
    split at h
    · rw [Option.map_eq_some'] at h
      obtain ⟨t0, ht0, h2⟩ := h
      rw [Option.some_inj] at h2
      subst h2
      exact transformAdmonitionS_ge hkids ht0
    · simp only [Option.some_inj] at h
      subst h
      trivial
    · simp only [Option.some_inj] at h
      subst h
      trivial
    · -- container
      split at h
      · rw [Option.map_eq_some'] at h
        obtain ⟨t0, ht0, h2⟩ := h
        rw [Option.some_inj] at h2
        subst h2
        exact transformFigureS_ge I hk ht0
      · split at h
        · rw [Option.map_eq_some'] at h
          obtain ⟨t0, ht0, h2⟩ := h
          rw [Option.some_inj] at h2
          subst h2
          exact transformTableContainerS_ge I hk ht0
        · split at h
          · split at h
            · exact absurd h (by simp)
            · split at h
              · exact absurd h (by simp)
              · simp only [Option.some_inj] at h
                subst h
                trivial
            · simp only [Option.some_inj] at h
              subst h
              exact hk
          · simp only [Option.some_inj] at h
            subst h
            exact hk
    · rw [Option.map_eq_some'] at h
      obtain ⟨t0, ht0, h2⟩ := h
      rw [Option.some_inj] at h2
      subst h2
      exact transformExerciseS_ge hkids ht0
    · -- solution
      split at h
      · exact absurd h (by simp)
      · rw [Option.map_eq_some'] at h
        obtain ⟨t0, ht0, h2⟩ := h
        rw [Option.some_inj] at h2
        subst h2
        exact transformSolutionS_ge hkids ht0
    · rw [Option.map_eq_some'] at h
      obtain ⟨t0, ht0, h2⟩ := h
      rw [Option.some_inj] at h2
      subst h2
      exact transformProofS_ge hkids ht0
    · rw [Option.map_eq_some'] at h
      obtain ⟨t0, ht0, h2⟩ := h
      rw [Option.some_inj] at h2
      subst h2
      exact transformTabSetS_ge I hkids ht0
    · rw [Option.map_eq_some'] at h
      obtain ⟨t0, ht0, h2⟩ := h
      rw [Option.some_inj] at h2
      subst h2
      exact transformCardS_ge I hkids ht0
    · simp only [Option.some_inj] at h
      subst h
      exact TplGe_tplParent _ (TplGeL_map_leaf hkids)
    · rw [Option.map_eq_some'] at h
      obtain ⟨t0, ht0, h2⟩ := h
      rw [Option.some_inj] at h2
      subst h2
      exact transformDetailsS_ge hkids ht0
    · rw [Option.map_eq_some'] at h
      obtain ⟨t0, ht0, h2⟩ := h
      rw [Option.some_inj] at h2
      subst h2
      exact transformAsideS_ge I hkids ht0
    · -- include
      split at h
      · simp only [Option.some_inj] at h
        subst h
        exact TplGe_tplParent _ (TplGeL_map_leaf hkids)
      · exact absurd h (by simp)
    · simp only [Option.some_inj] at h
      exact transformMystDirectiveS_ge hkids h
    · simp only [Option.some_inj] at h
      subst h
      exact transformMystRoleS_ge hkids
    · exact absurd h (by simp)
    · exact absurd h (by simp)
    · simp only [Option.some_inj] at h
      subst h
      trivial
    · simp only [Option.some_inj] at h
      subst h
      trivial
    · simp only [Option.some_inj] at h
      subst h
      exact hk

end Myst

namespace Myst

theorem tfS_succ (fuel : Nat) (d : Bool) (s : Store) (a : Addr) :
    tfS (fuel + 1) d s a =
      (match s.get a with
       | none => none
       | some c =>
         match c.children with
         | none => some s
         | some kids =>
           match tfSL fuel d s kids with
           | none => none
           | some s1 =>
             match s1.get a with
             | none => none
             | some c1 =>
               let s2 := s1.set a { c1 with children := some kids }
               match emitS fuel d s2 kids with
               | none => none
               | some (s3, newKids) =>
                 match s3.get a with
                 | none => none
                 | some c3 =>
                   stripS (s3.set a { c3 with children := some newKids }) newKids) := rfl

theorem tfSL_succ_cons (fuel : Nat) (d : Bool) (s : Store) (k : Addr) (ks : List Addr) :
    tfSL (fuel + 1) d s (k :: ks) =
      (match tfS fuel d s k with
       | none => none
       | some s1 => tfSL fuel d s1 ks) := rfl

theorem emitS_succ_cons (fuel : Nat) (d : Bool) (s : Store) (k : Addr) (ks : List Addr) :
    emitS (fuel + 1) d s (k :: ks) =
      (match transformNodeS fuel s k d with
       | none => none
       | some none => emitS fuel d s ks
       | some (some tpl) =>
         match allocTpl s tpl with
         | (s1, m) =>
           match s1.get m with
           | none => none
           | some mc =>
             match emitS fuel d s1 ks with
             | none => none
             | some (s2, rest) =>
               some (s2, (if decide (mc.ty = "root") && mc.children.isSome then
                 mc.children.getD [] else [m]) ++ rest)) := rfl

theorem stripS_frame {n0 : Nat} : ∀ (ks : List Addr) (s sN : Store),
    stripS s ks = some sN → Inv n0 s → (∀ k ∈ ks, n0 ≤ k) →
    Inv n0 sN ∧ Preserves n0 s sN
  | [], s, sN, h, I, _ => by
    rw [stripS] at h
    rw [Option.some_inj] at h
    subst h
    exact ⟨I, preserves_refl _ _⟩
  | k :: ks, s, sN, h, I, hks => by
    rw [stripS] at h
    split at h
    · exact absurd h (by simp)
    · rename_i c hc
      have hk := hks k (by simp)
      have hset : Inv n0 (s.set k { c with identifier := none, label := none }) :=
        inv_set I hc (by
          intro x hx
          rw [show ({ c with identifier := none, label := none } : NodeCell).children =
            c.children from rfl] at hx
          exact I.closed k c hk hc x hx)
      have hrec := stripS_frame ks _ sN h hset (fun x hx => hks x (by simp [hx]))
      exact ⟨hrec.1, preserves_trans (preserves_set s _ hk) hrec.2⟩

/-! The in-place degrader only writes inside the region: every store
operation it performs targets an address at or above `n0`, so all cells
below `n0` — in particular the caller's entire original tree — keep
their exact contents. -/

mutual
theorem tfS_frame {n0 : Nat} (d : Bool) : ∀ (fuel : Nat) (a : Addr) (s sN : Store),
    tfS fuel d s a = some sN → Inv n0 s → n0 ≤ a → Inv n0 sN ∧ Preserves n0 s sN
  | 0, a, s, sN => by
    intro h I ha
    rw [show tfS 0 d s a = none from rfl] at h
    exact absurd h (by simp)
  | fuel + 1, a, s, sN => by
    intro h I ha
    rw [tfS_succ] at h
    split at h
    · exact absurd h (by simp)
    · rename_i c hc
      split at h
      · rw [Option.some_inj] at h
        subst h
        exact ⟨I, preserves_refl _ _⟩
      · rename_i kids hkidsEq
        have hkids : ∀ k ∈ kids, n0 ≤ k := by
          have := I.closed a c ha hc
          rw [hkidsEq] at this
          simpa using this
        split at h
        · exact absurd h (by simp)
        · rename_i s1 h1
          have R1 := tfSL_frame d fuel kids s s1 h1 I hkids
          split at h
          · exact absurd h (by simp)
          · rename_i c1 hc1
            dsimp only at h
            have I2 : Inv n0 (s1.set a { c1 with children := some kids }) :=
              inv_set R1.1 hc1 (by
                intro x hx
                rw [show ({ c1 with children := some kids } : NodeCell).children =
                  some kids from rfl] at hx
                exact hkids x (by simpa using hx))
            generalize hemit : emitS fuel d
              (s1.set a { c1 with children := some kids }) kids = er at h
            rcases er with _ | ⟨s3, newKids⟩
            · exact absurd h (by simp)
            · dsimp only at h
              have R3 := emitS_frame d fuel kids _ s3 newKids hemit I2 hkids
              split at h
              · exact absurd h (by simp)
              · rename_i c3 hc3
                have I4 : Inv n0 (s3.set a { c3 with children := some newKids }) :=
                  inv_set R3.1 hc3 (by
                    intro x hx
                    rw [show ({ c3 with children := some newKids } : NodeCell).children =
                      some newKids from rfl] at hx
                    exact R3.2.2 x (by simpa using hx))
                have R5 := stripS_frame newKids _ sN h I4 R3.2.2
                refine ⟨R5.1, preserves_trans R1.2 (preserves_trans (preserves_set s1 _ ha)
                  (preserves_trans R3.2.1 (preserves_trans (preserves_set s3 _ ha) R5.2)))⟩
theorem tfSL_frame {n0 : Nat} (d : Bool) : ∀ (fuel : Nat) (ks : List Addr) (s sN : Store),
    tfSL fuel d s ks = some sN → Inv n0 s → (∀ k ∈ ks, n0 ≤ k) →
    Inv n0 sN ∧ Preserves n0 s sN
  | 0, ks, s, sN => by
    intro h I hks
    rw [show tfSL 0 d s ks = none from rfl] at h
    exact absurd h (by simp)
  | _ + 1, [], s, sN => by
    intro h I hks
    rw [show tfSL (_ + 1) d s [] = some s from rfl] at h
    rw [Option.some_inj] at h
    subst h
    exact ⟨I, preserves_refl _ _⟩
  | fuel + 1, k :: ks, s, sN => by
    intro h I hks
    rw [tfSL_succ_cons] at h
    split at h
    · exact absurd h (by simp)
    · rename_i s1 h1
      have R1 := tfS_frame d fuel k s s1 h1 I (hks k (by simp))
      have R2 := tfSL_frame d fuel ks s1 sN h R1.1 (fun x hx => hks x (by simp [hx]))
      exact ⟨R2.1, preserves_trans R1.2 R2.2⟩
theorem emitS_frame {n0 : Nat} (d : Bool) : ∀ (fuel : Nat) (ks : List Addr)
    (s sN : Store) (outs : List Addr),
    emitS fuel d s ks = some (sN, outs) → Inv n0 s → (∀ k ∈ ks, n0 ≤ k) →
    Inv n0 sN ∧ Preserves n0 s sN ∧ ∀ m ∈ outs, n0 ≤ m
  | 0, ks, s, sN, outs => by
    intro h I hks
    rw [show emitS 0 d s ks = none from rfl] at h
    exact absurd h (by simp)
  | _ + 1, [], s, sN, outs => by
    intro h I hks
    rw [show emitS (_ + 1) d s [] = some (s, []) from rfl] at h
    rw [Option.some_inj, Prod.mk.injEq] at h
    obtain ⟨rfl, rfl⟩ := h
    exact ⟨I, preserves_refl _ _, fun m hm => by simp at hm⟩
  | fuel + 1, k :: ks, s, sN, outs => by
    intro h I hks
    rw [emitS_succ_cons] at h
    split at h
    · exact absurd h (by simp)
    · -- dropped node
      exact
        have R := emitS_frame d fuel ks s sN outs h I (fun x hx => hks x (by simp [hx]))
        ⟨R.1, R.2.1, R.2.2⟩
    · rename_i tpl htpl
      rcases hal : allocTpl s tpl with ⟨s1, m⟩
      rw [hal] at h
      dsimp only at h
      have hge := transformNodeS_ge I (hks k (by simp)) htpl
      have hspec := allocTpl_spec n0 tpl s I hge
      rw [hal] at hspec
      split at h
      · exact absurd h (by simp)
      · rename_i mc hmc
        generalize hrec : emitS fuel d s1 ks = er at h
        rcases er with _ | ⟨s2, rest⟩
        · exact absurd h (by simp)
        · dsimp only at h
          rw [Option.some_inj, Prod.mk.injEq] at h
          obtain ⟨rfl, rfl⟩ := h
          have R2 := emitS_frame d fuel ks s1 s2 rest hrec hspec.1
            (fun x hx => hks x (by simp [hx]))
          refine ⟨R2.1, preserves_trans hspec.2.1 R2.2.1, ?_⟩
          intro x hx
          rw [List.mem_append] at hx
          rcases hx with hx | hx
          · split at hx
            · exact hspec.1.closed m mc hspec.2.2 hmc x hx
            · rw [List.mem_singleton] at hx
              subst hx
              exact hspec.2.2
          · exact R2.2.2 x hx
end

end Myst

namespace Myst

theorem clone_succ (fuel : Nat) (s : Store) (a : Addr) :
    clone (fuel + 1) s a =
      (match s.get a with
       | none => none
       | some c =>
         match c.children with
         | none => some (s.alloc c)
         | some kids =>
           match cloneL fuel s kids with
           | none => none
           | some (s1, kids1) => some (s1.alloc { c with children := some kids1 })) := rfl

theorem cloneL_succ_cons (fuel : Nat) (s : Store) (a : Addr) (rest : List Addr) :
    cloneL (fuel + 1) s (a :: rest) =
      (match clone fuel s a with
       | none => none
       | some (s1, a1) =>
         match cloneL fuel s1 rest with
         | none => none
         | some (s2, rest1) => some (s2, a1 :: rest1)) := rfl

/-! The JSON deep copy only allocates: pre-existing cells are
untouched, and every cell of the copy references only copy cells. -/

mutual
theorem clone_spec {n0 : Nat} : ∀ (fuel : Nat) (a : Addr) (s sN : Store) (aN : Addr),
    clone fuel s a = some (sN, aN) → Inv n0 s →
    Inv n0 sN ∧ Preserves n0 s sN ∧ n0 ≤ aN
  | 0, a, s, sN, aN => by
    intro h I
    rw [show clone 0 s a = none from rfl] at h
    exact absurd h (by simp)
  | fuel + 1, a, s, sN, aN => by
    intro h I
    rw [clone_succ] at h
    split at h
    · exact absurd h (by simp)
    · rename_i c hc
      split at h
      · rename_i hch
        rw [Option.some_inj, Store.alloc, Prod.mk.injEq] at h
        obtain ⟨h1, h2⟩ := h
        subst h1
        subst h2
        refine ⟨inv_alloc I ?_, preserves_alloc s c I.hn, I.hn⟩
        intro x hx
        rw [hch] at hx
        simp at hx
      · rename_i kids hch
        generalize hcl : cloneL fuel s kids = r at h
        rcases r with _ | ⟨s1, kids1⟩
        · exact absurd h (by simp)
        · dsimp only at h
          have RL := cloneL_spec fuel kids s s1 kids1 hcl I
          rw [Option.some_inj, Store.alloc, Prod.mk.injEq] at h
          obtain ⟨h1, h2⟩ := h
          subst h1
          subst h2
          refine ⟨inv_alloc RL.1 ?_, preserves_trans RL.2.1
            (preserves_alloc s1 _ RL.1.hn), RL.1.hn⟩
          intro x hx
          rw [show ({ c with children := some kids1 } : NodeCell).children =
            some kids1 from rfl] at hx
          exact RL.2.2 x (by simpa using hx)
theorem cloneL_spec {n0 : Nat} : ∀ (fuel : Nat) (ks : List Addr) (s sN : Store)
    (ksN : List Addr), cloneL fuel s ks = some (sN, ksN) → Inv n0 s →
    Inv n0 sN ∧ Preserves n0 s sN ∧ ∀ k ∈ ksN, n0 ≤ k
  | 0, ks, s, sN, ksN => by
    intro h I
    rw [show cloneL 0 s ks = none from rfl] at h
    exact absurd h (by simp)
  | _ + 1, [], s, sN, ksN => by
    intro h I
    rw [show cloneL (_ + 1) s [] = some (s, []) from rfl] at h
    rw [Option.some_inj, Prod.mk.injEq] at h
    obtain ⟨rfl, rfl⟩ := h
    exact ⟨I, preserves_refl _ _, fun k hk => by simp at hk⟩
  | fuel + 1, a :: rest, s, sN, ksN => by
    intro h I
    rw [cloneL_succ_cons] at h
    generalize hc1 : clone fuel s a = r1 at h
    rcases r1 with _ | ⟨s1, a1⟩
    · exact absurd h (by simp)
    · dsimp only at h
      have R1 := clone_spec fuel a s s1 a1 hc1 I
      generalize hc2 : cloneL fuel s1 rest = r2 at h
      rcases r2 with _ | ⟨s2, rest1⟩
      · exact absurd h (by simp)
      · dsimp only at h
        have R2 := cloneL_spec fuel rest s1 s2 rest1 hc2 R1.1
        rw [Option.some_inj, Prod.mk.injEq] at h
        obtain ⟨rfl, rfl⟩ := h
        refine ⟨R2.1, preserves_trans R1.2.1 R2.2.1, ?_⟩
        intro x hx
        rw [List.mem_cons] at hx
        rcases hx with rfl | hx
        · exact R1.2.2
        · exact R2.2.2 x hx
end

end Myst

namespace Myst

/-- The per-cell subtree pipeline never touches a pre-existing cell:
the wrapper is a fresh allocation, the deep copy only allocates, and
the degrader runs entirely inside the copy region. -/
theorem markdownBlockTreeS_frame {fuel : Nat} {copts : Option CommonMarkOptions}
    {cm : Bool} {s sN : Store} {blockA treeA : Addr}
    (h : markdownBlockTreeS fuel copts cm s blockA = some (sN, treeA))
    (hwf : Store.WF s) : Store.WF sN ∧ Preserves s.next s sN := by
  rw [markdownBlockTreeS] at h
  dsimp only at h
  have hwf1 : Store.WF (s.alloc { blankC "root" with children := some [blockA] }).1 :=
    wf_alloc hwf _
  have hP1 : Preserves s.next s
      (s.alloc { blankC "root" with children := some [blockA] }).1 :=
    preserves_alloc s _ (Nat.le_refl _)
  split at h
  · generalize hcl : clone fuel
      (s.alloc { blankC "root" with children := some [blockA] }).1
      (s.alloc { blankC "root" with children := some [blockA] }).2 = r at h
    rcases r with _ | ⟨s2, copyA⟩
    · exact absurd h (by simp)
    · dsimp only at h
      have R2 := clone_spec fuel _ _ s2 copyA hcl (inv_init hwf1)
      split at h
      · exact absurd h (by simp)
      · rename_i s3 htf
        rw [Option.some_inj, Prod.mk.injEq] at h
        obtain ⟨rfl, rfl⟩ := h
        have R3 := tfS_frame _ fuel copyA s2 s3 htf R2.1 R2.2.2
        refine ⟨R3.1.wf, preserves_trans hP1 (preserves_mono (Nat.le_succ _)
          (preserves_trans R2.2.1 R3.2))⟩
  · rw [Option.some_inj] at h
    have hwf2 := hwf1
    have hP2 := hP1
    rw [show (s.alloc { blankC "root" with children := some [blockA] }) =
      (sN, treeA) from h] at hwf2 hP2
    exact ⟨hwf2, hP2⟩

theorem cellOfBlockS_frame {writeMd : Node → String} {fuel : Nat}
    {markdownFormat : String} {options : Option IpynbOptions} {s sN : Store}
    {blockA : Addr} {cell : NbCell}
    (h : cellOfBlockS writeMd fuel markdownFormat options s blockA = some (sN, cell))
    (hwf : Store.WF s) : Store.WF sN ∧ Preserves s.next s sN := by
  rw [cellOfBlockS] at h
  split at h
  · exact absurd h (by simp)
  · split at h
    · -- notebook-code branch: pure reads, store unchanged
      split at h
      · exact absurd h (by simp)
      · exact absurd h (by simp)
      · split at h
        · exact absurd h (by simp)
        · split at h
          · exact absurd h (by simp)
          · rw [Option.some_inj, Prod.mk.injEq] at h
            obtain ⟨rfl, _⟩ := h
            exact ⟨hwf, preserves_refl _ _⟩
    · generalize hmd : markdownBlockTreeS fuel (options.bind IpynbOptions.commonmark)
        (markdownFormat = "commonmark") s blockA = r at h
      rcases r with _ | ⟨s1, treeA⟩
      · exact absurd h (by simp)
      · dsimp only at h
        have R1 := markdownBlockTreeS_frame hmd hwf
        split at h
        · exact absurd h (by simp)
        · split at h
          · rw [Option.some_inj, Prod.mk.injEq] at h
            obtain ⟨rfl, _⟩ := h
            exact R1
          · rw [Option.some_inj, Prod.mk.injEq] at h
            obtain ⟨rfl, _⟩ := h
            exact R1

theorem cellsOfBlocksS_frame {writeMd : Node → String} {fuel : Nat}
    {markdownFormat : String} {options : Option IpynbOptions} :
    ∀ (bs : List Addr) (s sN : Store) (cells : List NbCell),
    cellsOfBlocksS writeMd fuel markdownFormat options s bs = some (sN, cells) →
    Store.WF s → Store.WF sN ∧ Preserves s.next s sN
  | [], s, sN, cells, h, hwf => by
    rw [cellsOfBlocksS] at h
    rw [Option.some_inj, Prod.mk.injEq] at h
    obtain ⟨rfl, _⟩ := h
    exact ⟨hwf, preserves_refl _ _⟩
  | b :: bs, s, sN, cells, h, hwf => by
    rw [cellsOfBlocksS] at h
    generalize hc : cellOfBlockS writeMd fuel markdownFormat options s b = r at h
    rcases r with _ | ⟨s1, cell⟩
    · exact absurd h (by simp)
    · dsimp only at h
      have R1 := cellOfBlockS_frame hc hwf
      generalize hcs : cellsOfBlocksS writeMd fuel markdownFormat options s1 bs = r2 at h
      rcases r2 with _ | ⟨s2, cells1⟩
      · exact absurd h (by simp)
      · dsimp only at h
        rw [Option.some_inj, Prod.mk.injEq] at h
        obtain ⟨rfl, _⟩ := h
        have R2 := cellsOfBlocksS_frame bs s1 _ cells1 hcs R1.1
        exact ⟨R2.1, preserves_trans R1.2 (preserves_mono R1.2.1 R2.2)⟩

/-! The lift phase is allocation-only, hence frame-safe. -/

theorem flushMarkdownS_frame {s : Store} (nodeCell : NodeCell) (wrapInBlock : Bool)
    (content : List Addr) (isFirstGroup : Bool) (hwf : Store.WF s) :
    Store.WF (flushMarkdownS s nodeCell wrapInBlock content isFirstGroup).1 ∧
      Preserves s.next s (flushMarkdownS s nodeCell wrapInBlock content isFirstGroup).1 := by
  rw [flushMarkdownS]
  split
  · exact ⟨hwf, preserves_refl _ _⟩
  · split
    · split
      · exact ⟨wf_alloc (wf_alloc hwf _) _,
          preserves_trans (preserves_alloc s _ (Nat.le_refl _))
            (preserves_alloc _ _ (Nat.le_succ _))⟩
      · exact ⟨wf_alloc hwf _, preserves_alloc s _ (Nat.le_refl _)⟩
    · split
      · exact ⟨wf_alloc hwf _, preserves_alloc s _ (Nat.le_refl _)⟩
      · exact ⟨hwf, preserves_refl _ _⟩

theorem liftGoESS_frame (nodeCell : NodeCell) (wrapInBlock : Bool) :
    ∀ (gs : List Addr) (s sN : Store) (mdContent : List Addr) (isFirstGroup : Bool)
    (out : List Addr),
    liftGoESS nodeCell wrapInBlock s gs mdContent isFirstGroup = some (sN, out) →
    Store.WF s → Store.WF sN ∧ Preserves s.next s sN
  | [], s, sN, mdContent, isFirstGroup, out, h, hwf => by
    rw [liftGoESS] at h
    rw [Option.some_inj] at h
    have := flushMarkdownS_frame nodeCell wrapInBlock mdContent isFirstGroup hwf
    rw [h] at this
    exact this
  | g :: rest, s, sN, mdContent, isFirstGroup, out, h, hwf => by
    rw [liftGoESS] at h
    split at h
    · exact absurd h (by simp)
    · split at h
      · rcases hf : flushMarkdownS s nodeCell wrapInBlock mdContent isFirstGroup with ⟨s1, out1⟩
        rw [hf] at h
        dsimp only at h
        have R1 := flushMarkdownS_frame nodeCell wrapInBlock mdContent isFirstGroup hwf
        rw [hf] at R1
        generalize hrec : liftGoESS nodeCell wrapInBlock s1 rest []
          (isFirstGroup && mdContent.isEmpty) = r at h
        rcases r with _ | ⟨s2, out2⟩
        · exact absurd h (by simp)
        · dsimp only at h
          rw [Option.some_inj, Prod.mk.injEq] at h
          obtain ⟨rfl, _⟩ := h
          have R2 := liftGoESS_frame nodeCell wrapInBlock rest s1 _ _ _ _ hrec R1.1
          exact ⟨R2.1, preserves_trans R1.2 (preserves_mono R1.2.1 R2.2)⟩
      · exact liftGoESS_frame nodeCell wrapInBlock rest s sN _ _ _ h hwf

theorem liftFromExerciseSolutionS_frame {s sN : Store} {k : Addr} {wrapInBlock : Bool}
    {out : List Addr}
    (h : liftFromExerciseSolutionS s k wrapInBlock = some (sN, out))
    (hwf : Store.WF s) : Store.WF sN ∧ Preserves s.next s sN := by
  rw [liftFromExerciseSolutionS] at h
  split at h
  · exact absurd h (by simp)
  · exact liftGoESS_frame _ wrapInBlock _ s sN _ _ _ h hwf

theorem flushPendingS_frame {s : Store} (pending : List Addr) (hwf : Store.WF s) :
    Store.WF (flushPendingS s pending).1 ∧
      Preserves s.next s (flushPendingS s pending).1 := by
  rw [flushPendingS]
  split
  · exact ⟨hwf, preserves_refl _ _⟩
  · exact ⟨wf_alloc hwf _, preserves_alloc s _ (Nat.le_refl _)⟩

theorem splitGoS_frame (opts : Option CommonMarkOptions) :
    ∀ (cs : List Addr) (s sN : Store) (pending : List Addr) (out : List Addr),
    splitGoS opts s cs pending = some (sN, out) →
    Store.WF s → Store.WF sN ∧ Preserves s.next s sN
  | [], s, sN, pending, out, h, hwf => by
    rw [splitGoS] at h
    rw [Option.some_inj] at h
    have := flushPendingS_frame pending hwf
    rw [h] at this
    exact this
  | child :: rest, s, sN, pending, out, h, hwf => by
    rw [splitGoS] at h
    split at h
    · exact absurd h (by simp)
    · rcases hf : flushPendingS s pending with ⟨s1, out1⟩
      rw [hf] at h
      dsimp only at h
      have R1 := flushPendingS_frame pending hwf
      rw [hf] at R1
      generalize hl : liftFromExerciseSolutionS s1 child true = r at h
      rcases r with _ | ⟨s2, out2⟩
      · exact absurd h (by simp)
      · dsimp only at h
        have R2 := liftFromExerciseSolutionS_frame hl R1.1
        generalize hs : splitGoS opts s2 rest [] = r2 at h
        rcases r2 with _ | ⟨s3, out3⟩
        · exact absurd h (by simp)
        · dsimp only at h
          rw [Option.some_inj, Prod.mk.injEq] at h
          obtain ⟨rfl, _⟩ := h
          have R3 := splitGoS_frame opts rest s2 _ [] _ hs R2.1
          exact ⟨R3.1, preserves_trans R1.2 (preserves_mono R1.2.1
            (preserves_trans R2.2 (preserves_mono R2.2.1 R3.2)))⟩
    · exact splitGoS_frame opts rest s sN _ _ h hwf

theorem liftPiecesS_frame (opts : Option CommonMarkOptions) :
    ∀ (cs : List Addr) (s sN : Store) (out : List Addr) (modified : Bool),
    liftPiecesS opts s cs = some (sN, out, modified) →
    Store.WF s → Store.WF sN ∧ Preserves s.next s sN
  | [], s, sN, out, modified, h, hwf => by
    rw [liftPiecesS] at h
    rw [Option.some_inj, Prod.mk.injEq] at h
    obtain ⟨rfl, _⟩ := h
    exact ⟨hwf, preserves_refl _ _⟩
  | child :: rest, s, sN, out, modified, h, hwf => by
    rw [liftPiecesS] at h
    split at h
    · exact absurd h (by simp)
    · generalize hl : liftFromExerciseSolutionS s child false = r at h
      rcases r with _ | ⟨s1, out1⟩
      · exact absurd h (by simp)
      · dsimp only at h
        have R1 := liftFromExerciseSolutionS_frame hl hwf
        generalize hp : liftPiecesS opts s1 rest = r2 at h
        rcases r2 with _ | ⟨s2, out2, m2⟩
        · exact absurd h (by simp)
        · dsimp only at h
          rw [Option.some_inj, Prod.mk.injEq] at h
          obtain ⟨rfl, _⟩ := h
          have R2 := liftPiecesS_frame opts rest s1 _ _ _ hp R1.1
          exact ⟨R2.1, preserves_trans R1.2 (preserves_mono R1.2.1 R2.2)⟩
    · rename_i hgated
      split at h
      · exact absurd h (by simp)
      · rename_i cc hcc
        split at h
        · exact absurd h (by simp)
        · generalize hs : splitGoS opts s (cc.children.getD []) [] = r at h
          rcases r with _ | ⟨s1, out1⟩
          · exact absurd h (by simp)
          · dsimp only at h
            have R1 := splitGoS_frame opts _ s s1 [] _ hs hwf
            generalize hp : liftPiecesS opts s1 rest = r2 at h
            rcases r2 with _ | ⟨s2, out2, m2⟩
            · exact absurd h (by simp)
            · dsimp only at h
              rw [Option.some_inj, Prod.mk.injEq] at h
              obtain ⟨rfl, _⟩ := h
              have R2 := liftPiecesS_frame opts rest s1 _ _ _ hp R1.1
              exact ⟨R2.1, preserves_trans R1.2 (preserves_mono R1.2.1 R2.2)⟩
        · generalize hp : liftPiecesS opts s rest = r2 at h
          rcases r2 with _ | ⟨s2, out2, m2⟩
          · exact absurd h (by simp)
          · dsimp only at h
            rw [Option.some_inj, Prod.mk.injEq] at h
            obtain ⟨rfl, _⟩ := h
            exact liftPiecesS_frame opts rest s _ _ _ hp hwf

theorem liftRootS_frame {s sN : Store} {rootA liftedA : Addr}
    {opts : Option CommonMarkOptions}
    (h : liftRootS s rootA opts = some (sN, liftedA))
    (hwf : Store.WF s) : Store.WF sN ∧ Preserves s.next s sN := by
  rw [liftRootS] at h
  split at h
  · exact absurd h (by simp)
  · rename_i rc hrc
    split at h
    · exact absurd h (by simp)
    · rename_i cs hcs
      generalize hp : liftPiecesS opts s cs = r at h
      rcases r with _ | ⟨s1, out1, m1⟩
      · exact absurd h (by simp)
      · dsimp only at h
        have R1 := liftPiecesS_frame opts cs s s1 _ _ hp hwf
        split at h
        · rw [Option.some_inj] at h
          have hwfA : Store.WF (s1.alloc { rc with children := some out1 }).1 ∧
              Preserves s.next s (s1.alloc { rc with children := some out1 }).1 :=
            ⟨wf_alloc R1.1 _, preserves_trans R1.2
              (preserves_mono R1.2.1 (preserves_alloc s1 _ (Nat.le_refl _)))⟩
          rw [show (s1.alloc { rc with children := some out1 }) = (sN, liftedA)
            from h] at hwfA
          exact hwfA
        · rw [Option.some_inj, Prod.mk.injEq] at h
          obtain ⟨rfl, _⟩ := h
          exact R1

end Myst

namespace Myst

/-- C9: when `markdown = 'commonmark'`, `writeIpynb` runs the CommonMark
degrader only on a `JSON.parse(JSON.stringify(...))` deep copy of each
per-cell wrapper subtree, so after cell assembly every pre-existing heap
cell — in particular the caller's original tree and all of its nodes —
still holds exactly its old value; only cells of the cloned copies are
mutated in place. -/
theorem c9_degrader_mutates_only_copy (writeMd : Node → String) (fuel : Nat)
    (s sN : Store) (rootA : Addr) (frontmatter : Option PageFrontmatter)
    (options : Option IpynbOptions) (nb : Ipynb)
    (hwf : Store.WF s)
    (hcm : options.bind IpynbOptions.markdown = some "commonmark")
    (hrun : writeIpynbS writeMd fuel s rootA frontmatter options = some (sN, nb)) :
    ∀ a, a < s.next → sN.get a = s.get a := by
  rw [writeIpynbS] at hrun
  dsimp only at hrun
  generalize hl : liftRootS s rootA (options.bind IpynbOptions.commonmark) = r at hrun
  rcases r with _ | ⟨s1, liftedA⟩
  · exact absurd hrun (by simp)
  · dsimp only at hrun
    have R1 := liftRootS_frame hl hwf
    split at hrun
    · exact absurd hrun (by simp)
    · split at hrun
      · exact absurd hrun (by simp)
      · rename_i blocks hblocks
        generalize hcs : cellsOfBlocksS writeMd fuel
          ((options.bind IpynbOptions.markdown).getD "myst") options s1 blocks = r2 at hrun
        rcases r2 with _ | ⟨s2, cells0⟩
        · exact absurd hrun (by simp)
        · dsimp only at hrun
          have R2 := cellsOfBlocksS_frame blocks s1 s2 cells0 hcs R1.1
          rw [Option.some_inj, Prod.mk.injEq] at hrun
          obtain ⟨rfl, _⟩ := hrun
          exact fun a ha => (preserves_trans R1.2 (preserves_mono R1.2.1 R2.2)).2 a ha

/-- A concrete five-cell notebook heap: a root with one markdown block
(holding a labelled math node) and one notebook-code block. -/
def c9StoreW : Store := ⟨[
  (0, { blankC "root" with children := some [1, 3] }),
  (1, { blankC "block" with children := some [2] }),
  (2, { blankC "math" with
        value := some "x", label := some "eq1", identifier := some "eq1" }),
  (3, { blankC "block" with kind := some "notebook-code", children := some [4] }),
  (4, { blankC "code" with value := some "1+1" })], 5⟩

def c9OptsW : IpynbOptions := ⟨some "commonmark", none, none, none⟩

theorem c9_degrader_mutates_only_copy_witness :
    ∃ sN nb, writeIpynbS toText 30 c9StoreW 0 none (some c9OptsW) = some (sN, nb) ∧
      ∀ a, a < c9StoreW.next → sN.get a = c9StoreW.get a := by
  have hs : (writeIpynbS toText 30 c9StoreW 0 none (some c9OptsW)).isSome = true := by
    decide
  obtain ⟨⟨sN, nb⟩, hrun⟩ := Option.isSome_iff_exists.mp hs
  exact ⟨sN, nb, hrun, c9_degrader_mutates_only_copy toText 30 c9StoreW sN 0 none
    (some c9OptsW) nb (by unfold Store.WF; decide) rfl hrun⟩

end Myst
